import Mathlib

/-!
Shallow embedding of the `neal` tree-walking interpreter (Rust sources under
`src/`): the token model, the value model with its chained hash table, the
lexer DFA, the recursive-descent parser, the environment and the evaluator.
Definitions mirror the Rust source file by file; theorems at the end of the
file settle the specification claims.

Modelling conventions:
* `usize` values (indices, lines, counters) are `Nat`.
* Rust `f64` is modelled by `F64`: a rational payload for finite floats plus
  a `nan` element reproducing IEEE-754 comparison behaviour (`NaN != NaN`,
  ordered comparisons involving NaN are false).  Rounding of decimal
  literals and of arithmetic results, signed zero, infinities and the
  bit-level hash of the float payload are abstracted; no claim depends on
  them.
* Language strings are treated as sequences of Unicode scalar values; the
  byte-position bookkeeping of Rust `str` coincides with the character
  positions used here on ASCII data, which is what every claim exercises.
* Rust panics (`unreachable!`, `expect`, slice misuse) are modelled by the
  distinguished outcome `EvalErr.hostPanic`.
* Functions that are partial in Rust only because of unbounded recursion
  (hash-table rehashing, the evaluator, the parser) take an explicit fuel
  argument; exhaustion is the distinguished outcome `EvalErr.outOfFuel`
  (`Option.none` for the parser), which provably does not occur in the
  situations the claims are about.
* Standard output is modelled as the list of written lines, returned on the
  success path; error pretty-printing is out of scope (spec §1).
-/

set_option maxHeartbeats 1000000

namespace Neal

/-! ## The float model -/

/-- Model of Rust `f64`: an exact rational payload, or NaN. -/
inductive F64 where
  | num (q : ℚ)
  | nan
deriving DecidableEq, Repr

namespace F64

/-- IEEE-754 `==` on floats: NaN compares unequal to everything (itself
included); finite payloads compare by value. -/
def ieeeEq : F64 → F64 → Bool
  | num a, num b => a == b
  | _, _ => false

/-- IEEE-754 `<` on floats: false whenever either side is NaN. -/
def ieeeLt : F64 → F64 → Bool
  | num a, num b => decide (a < b)
  | _, _ => false

/-- IEEE-754 `<=` on floats: false whenever either side is NaN. -/
def ieeeLe : F64 → F64 → Bool
  | num a, num b => decide (a ≤ b)
  | _, _ => false

/-- The float `0.0`. -/
def zero : F64 := num 0

/-- Addition (exact; rounding abstracted). -/
def add : F64 → F64 → F64
  | num a, num b => num (a + b)
  | _, _ => nan

/-- Subtraction (exact; rounding abstracted). -/
def sub : F64 → F64 → F64
  | num a, num b => num (a - b)
  | _, _ => nan

/-- Multiplication (exact; rounding abstracted). -/
def mul : F64 → F64 → F64
  | num a, num b => num (a * b)
  | _, _ => nan

/-- Division (exact; rounding abstracted).  The evaluator only divides after
checking the divisor against `0.0`. -/
def div : F64 → F64 → F64
  | num a, num b => if b = 0 then nan else num (a / b)
  | _, _ => nan

/-- Truncation of a rational toward zero (`f64::trunc`). -/
def truncQ (q : ℚ) : ℤ := if 0 ≤ q then ⌊q⌋ else -⌊-q⌋

/-- Rust `%` on `f64`: the truncated remainder `a - b * (a / b).trunc()`;
`x % 0.0` is NaN. -/
def rem : F64 → F64 → F64
  | num a, num b => if b = 0 then nan else num (a - b * (truncQ (a / b) : ℚ))
  | _, _ => nan

/-- Negation. -/
def neg : F64 → F64
  | num a => num (-a)
  | nan => nan

/-- `x >= 0.0 && x.fract() == 0.0`: the domain test of
`index_value_to_usize`. -/
def isWholeNonneg : F64 → Bool
  | num q => decide (0 ≤ q) && decide (q.den = 1)
  | nan => false

/-- The `as usize` cast for a float already known whole and non-negative. -/
def toUsize : F64 → Nat
  | num q => q.num.toNat
  | nan => 0

end F64

/-! ## `token.rs` -/

/-- `TokenType`.  The `break_`, `colon` and `percent` variants are used by
`tokenizer.rs` and `parser.rs` but missing from the stale enum declaration in
`token.rs` (a leftover-iteration slip), so they are included here. -/
inductive TokenType where
  | leftParen | rightParen
  | leftCurly | rightCurly
  | leftSquare | rightSquare
  | comma | dot | minus | plus | semicolon | slash | star
  | bang | bangEqual
  | equal | equalEqual
  | greater | greaterEqual
  | less | lessEqual
  | identifier | string_ | number
  | and_ | break_ | class_ | else_ | false_ | func | for_ | if_ | null_ | or_
  | print | return_ | self_ | true_ | var_ | while_
  | colon | percent
  | eof
deriving DecidableEq, Repr

/-- `Literal`: compile-time constant payloads of tokens. -/
inductive Literal where
  | numberL (x : F64)
  | stringL (s : String)
  | boolL (b : Bool)
  | nullL
deriving DecidableEq, Repr

/-- `Token`. -/
structure Token where
  type_ : TokenType
  lexeme : String
  literal : Literal
  line : Nat
deriving DecidableEq, Repr

/-! ## `expr.rs` and `stmt.rs` -/

/-- `KeyValue<T>` from `hash_table.rs` (used by dictionary expressions and
by the hash table itself). -/
structure KeyValue (T : Type) where
  key : T
  value : T
deriving DecidableEq, Repr

mutual

/-- `Expr`. -/
inductive Expr where
  | mk (line : Nat) (exprType : ExprType)

/-- `ExprType`. -/
inductive ExprType where
  | arrayE (elements : List Expr)
  | assignment (target : Expr) (value : Expr)
  | binary (left : Expr) (operator : Token) (right : Expr)
  | call (callee : Expr) (arguments : List Expr)
  | dictionaryE (elements : List (KeyValue Expr))
  | element (array : Expr) (index : Expr)
  | grouping (expression : Expr)
  | literal (value : Literal)
  | unary (operator : Token) (right : Expr)
  | variable (name : String)

end

/-- `line` field accessor of `Expr`. -/
def Expr.line : Expr → Nat
  | .mk l _ => l

/-- `expr_type` field accessor of `Expr`. -/
def Expr.exprType : Expr → ExprType
  | .mk _ t => t

mutual

/-- `Stmt`. -/
inductive Stmt where
  | mk (line : Nat) (stmtType : StmtType)

/-- `StmtType`. -/
inductive StmtType where
  | block (body : List Stmt)
  | break_
  | expression (expression : Expr)
  | function_ (name : String) (parameters : List String) (body : Stmt)
  | if_ (condition : Expr) (thenBody : Stmt) (elseBody : Option Stmt)
  | print (expression : Expr)
  | return_ (expression : Expr)
  | varDecl (name : String) (value : Expr)
  | while_ (condition : Expr) (body : Stmt)

end

/-- `line` field accessor of `Stmt`. -/
def Stmt.line : Stmt → Nat
  | .mk l _ => l

/-- `stmt_type` field accessor of `Stmt`. -/
def Stmt.stmtType : Stmt → StmtType
  | .mk _ t => t

/-! ## `value.rs` -/

/-- `BuiltinFunction`.  The `sort` variant is referenced by
`environment.rs` and `interpreter.rs`; the enum declaration in `value.rs`
omits it, which is a leftover-iteration slip, so it is included here. -/
inductive BuiltinFunction where
  | append | input | remove | size | sort | toNumber | toString_
deriving DecidableEq, Repr

/-- `Value`.  The `dictionary` constructor carries the three fields of the
`HashTable` struct (`array`, `entries`, `current_capacity`) inlined, which
sidesteps nested-structure recursion; `HashTable` below re-packages them. -/
inductive Value where
  | number (x : F64)
  | string_ (s : String)
  | bool_ (b : Bool)
  | array (elements : List Value)
  | dictionary (buckets : List (List (KeyValue Value)))
      (entries : Nat) (currentCapacity : Nat)
  | function_ (parameters : List String) (body : Stmt)
  | builtinFunction (f : BuiltinFunction)
  | null_

mutual

/-- Structural size of a `Value`, used to seed the recursion fuel of the
functions that traverse values (their recursion is not structural because
the hash-table equality walks the flattened bucket array). -/
def valueSize : Value → Nat
  | .number _ => 1
  | .string_ _ => 1
  | .bool_ _ => 1
  | .array es => 1 + valueListSize es
  | .dictionary bk _ _ => 1 + bucketsSize bk
  | .function_ _ _ => 1
  | .builtinFunction _ => 1
  | .null_ => 1

/-- Size of a value list. -/
def valueListSize : List Value → Nat
  | [] => 1
  | v :: rest => 1 + valueSize v + valueListSize rest

/-- Size of a key-value pair. -/
def kvSize : KeyValue Value → Nat
  | ⟨k, v⟩ => 1 + valueSize k + valueSize v

/-- Size of a key-value list. -/
def kvListSize : List (KeyValue Value) → Nat
  | [] => 1
  | kv :: rest => 1 + kvSize kv + kvListSize rest

/-- Size of a bucket array. -/
def bucketsSize : List (List (KeyValue Value)) → Nat
  | [] => 1
  | b :: rest => 1 + kvListSize b + bucketsSize rest

end

/-- `Value::type_to_string`. -/
def Value.typeToString : Value → String
  | .number _ => "Number"
  | .string_ _ => "String"
  | .bool_ _ => "Boolean"
  | .array _ => "Array"
  | .dictionary _ _ _ => "Dictionary"
  | .function_ _ _ => "Function"
  | .builtinFunction _ => "Function"
  | .null_ => "Null"

/-! ## Structural equality of the AST (Rust `#[derive(PartialEq)]` on
`Expr`/`Stmt`) -/

mutual

/-- Derived structural equality of `Expr`. -/
def exprEq : Expr → Expr → Bool
  | .mk l1 t1, .mk l2 t2 => l1 == l2 && exprTypeEq t1 t2
  termination_by e _ => sizeOf e

/-- Derived structural equality of `ExprType`. -/
def exprTypeEq : ExprType → ExprType → Bool
  | .arrayE es1, .arrayE es2 => exprListEq es1 es2
  | .assignment t1 v1, .assignment t2 v2 => exprEq t1 t2 && exprEq v1 v2
  | .binary a1 o1 b1, .binary a2 o2 b2 => exprEq a1 a2 && o1 == o2 && exprEq b1 b2
  | .call c1 as1, .call c2 as2 => exprEq c1 c2 && exprListEq as1 as2
  | .dictionaryE es1, .dictionaryE es2 => kvExprListEq es1 es2
  | .element a1 i1, .element a2 i2 => exprEq a1 a2 && exprEq i1 i2
  | .grouping e1, .grouping e2 => exprEq e1 e2
  | .literal v1, .literal v2 => v1 == v2
  | .unary o1 r1, .unary o2 r2 => o1 == o2 && exprEq r1 r2
  | .variable n1, .variable n2 => n1 == n2
  | _, _ => false
  termination_by t _ => sizeOf t

/-- Pointwise equality of expression lists. -/
def exprListEq : List Expr → List Expr → Bool
  | [], [] => true
  | a :: as, b :: bs => exprEq a b && exprListEq as bs
  | _, _ => false
  termination_by l _ => sizeOf l

/-- Pointwise equality of dictionary-entry lists. -/
def kvExprListEq : List (KeyValue Expr) → List (KeyValue Expr) → Bool
  | [], [] => true
  | ⟨k1, v1⟩ :: as, ⟨k2, v2⟩ :: bs => exprEq k1 k2 && exprEq v1 v2 && kvExprListEq as bs
  | _, _ => false
  termination_by l _ => sizeOf l

end

mutual

/-- Derived structural equality of `Stmt`. -/
def stmtEq : Stmt → Stmt → Bool
  | .mk l1 t1, .mk l2 t2 => l1 == l2 && stmtTypeEq t1 t2
  termination_by s _ => sizeOf s

/-- Derived structural equality of `StmtType`. -/
def stmtTypeEq : StmtType → StmtType → Bool
  | .block b1, .block b2 => stmtListEq b1 b2
  | .break_, .break_ => true
  | .expression e1, .expression e2 => exprEq e1 e2
  | .function_ n1 p1 b1, .function_ n2 p2 b2 => n1 == n2 && p1 == p2 && stmtEq b1 b2
  | .if_ c1 t1 e1, .if_ c2 t2 e2 =>
      exprEq c1 c2 && stmtEq t1 t2 &&
        (match e1, e2 with
          | none, none => true
          | some s1, some s2 => stmtEq s1 s2
          | _, _ => false)
  | .print e1, .print e2 => exprEq e1 e2
  | .return_ e1, .return_ e2 => exprEq e1 e2
  | .varDecl n1 v1, .varDecl n2 v2 => n1 == n2 && exprEq v1 v2
  | .while_ c1 b1, .while_ c2 b2 => exprEq c1 c2 && stmtEq b1 b2
  | _, _ => false
  termination_by t _ => sizeOf t

/-- Pointwise equality of statement lists. -/
def stmtListEq : List Stmt → List Stmt → Bool
  | [], [] => true
  | a :: as, b :: bs => stmtEq a b && stmtListEq as bs
  | _, _ => false
  termination_by l _ => sizeOf l

end

/-! ## `SizeOf` helper lemmas for the recursions below -/

/-- `sizeOf` distributes over list append (up to the single `nil` node). -/
theorem sizeOf_list_append {α : Type} [SizeOf α] (l1 l2 : List α) :
    sizeOf (l1 ++ l2) + 1 = sizeOf l1 + sizeOf l2 := by
  induction l1 with
  | nil => simp only [List.nil_append, List.nil.sizeOf_spec]; omega
  | cons a as ih => simp only [List.cons_append, List.cons.sizeOf_spec]; omega

/-- Flattening a list of lists does not increase `sizeOf`. -/
theorem sizeOf_list_flatten {α : Type} [SizeOf α] (L : List (List α)) :
    sizeOf L.flatten ≤ sizeOf L := by
  induction L with
  | nil => simp [List.flatten]
  | cons x xs ih =>
      have h := sizeOf_list_append x xs.flatten
      simp only [List.flatten_cons, List.cons.sizeOf_spec]
      omega

/-- Erasing an index does not increase `sizeOf`. -/
theorem sizeOf_list_eraseIdx {α : Type} [SizeOf α] (l : List α) (i : Nat) :
    sizeOf (l.eraseIdx i) ≤ sizeOf l := by
  induction l generalizing i with
  | nil => simp [List.eraseIdx]
  | cons a as ih =>
      cases i with
      | zero => simp only [List.eraseIdx, List.cons.sizeOf_spec]; omega
      | succ j =>
          have h := ih j
          simp only [List.eraseIdx, List.cons.sizeOf_spec]
          omega

/-! ## `Value` equality (Rust `PartialEq for Value` / `PartialEq for
HashTable`): structural except that floats compare by IEEE `==` and hash
tables compare as multisets of flattened key-value pairs. -/

/-- `HashTable::flatten` on a raw bucket array. -/
def flattenBuckets (buckets : List (List (KeyValue Value))) : List (KeyValue Value) :=
  buckets.flatten

mutual

/-- `Value` equality (`PartialEq`), with recursion fuel.  Every recursive
call strictly decreases the combined `sizeOf` of the compared values, so
the wrapper `valueEq` below never reaches the fuel-exhaustion `false`. -/
def valueEqFuel : Nat → Value → Value → Bool
  | 0, _, _ => false
  | fuel + 1, a, b =>
      match a, b with
      | .number x1, .number x2 => F64.ieeeEq x1 x2
      | .string_ s1, .string_ s2 => s1 == s2
      | .bool_ b1, .bool_ b2 => b1 == b2
      | .array es1, .array es2 => valueListEqFuel fuel es1 es2
      | .dictionary bk1 _ _, .dictionary bk2 _ _ =>
          -- `PartialEq for HashTable`: flatten both sides, check the
          -- lengths, then greedily remove matching pairs from the other
          -- side.
          let f1 := flattenBuckets bk1
          let f2 := flattenBuckets bk2
          f1.length == f2.length && kvMultisetSubsetFuel fuel f1 f2
      | .function_ p1 b1, .function_ p2 b2 => p1 == p2 && stmtEq b1 b2
      | .builtinFunction f1, .builtinFunction f2 => f1 == f2
      | .null_, .null_ => true
      | _, _ => false

/-- Pointwise equality of value lists (`PartialEq` on `Vec<Value>`). -/
def valueListEqFuel : Nat → List Value → List Value → Bool
  | 0, _, _ => false
  | fuel + 1, l1, l2 =>
      match l1, l2 with
      | [], [] => true
      | a :: as, b :: bs => valueEqFuel fuel a b && valueListEqFuel fuel as bs
      | _, _ => false

/-- The matching loop of `PartialEq for HashTable`: each pair of `l1` must
match a pair of `l2`, which is then removed. -/
def kvMultisetSubsetFuel : Nat → List (KeyValue Value) → List (KeyValue Value) → Bool
  | 0, _, _ => false
  | fuel + 1, l1, l2 =>
      match l1 with
      | [] => true
      | x :: xs =>
          match kvFindIdxFuel fuel x l2 with
          | some i => kvMultisetSubsetFuel fuel xs (l2.eraseIdx i)
          | none => false

/-- `iter().position(|other| *other == self_kv)`: index of the first pair of
`l` equal to `x`. -/
def kvFindIdxFuel : Nat → KeyValue Value → List (KeyValue Value) → Option Nat
  | 0, _, _ => none
  | fuel + 1, ⟨k, v⟩, l =>
      match l with
      | [] => none
      | ⟨k2, v2⟩ :: rest =>
          if valueEqFuel fuel k k2 && valueEqFuel fuel v v2 then some 0
          else (kvFindIdxFuel fuel ⟨k, v⟩ rest).map (· + 1)

end

/-- `Value` equality (`PartialEq`): the combined size bounds the recursion
depth, so this fuel is always sufficient. -/
def valueEq (a b : Value) : Bool := valueEqFuel (valueSize a + valueSize b) a b

/-! ## `error.rs` -/

/-- `ErrorType`: the full error taxonomy. -/
inductive ErrorType where
  | unexpectedCharacter (character : Char) (line : Nat)
  | unterminatedString
  | expectedCharacter (expected : Char) (line : Nat)
  | expectedExpression (line : Nat)
  | expectedFunctionName (line : Nat)
  | expectedParameterName (line : Nat)
  | expectedVariableName (line : Nat)
  | expectedSemicolonAfterInit (line : Nat)
  | expectedSemicolonAfterCondition (line : Nat)
  | expectedParenAfterIncrement (line : Nat)
  | expectedColonAfterKey (line : Nat)
  | nameError (name : String) (line : Nat)
  | notIndexable (line : Nat)
  | outOfBoundsIndex (index : Nat) (line : Nat)
  | insertNonStringIntoString (line : Nat)
  | invalidAssignmentTarget (line : Nat)
  | expectedType (expected : String) (got : String) (line : Nat)
  | nonNaturalIndex (got : Value) (line : Nat)
  | nonNumberIndex (got : String) (line : Nat)
  | binaryTypeError (expected : String) (gotLeft : String) (gotRight : String) (line : Nat)
  | divideByZero (line : Nat)
  | ifConditionNotBoolean (line : Nat)
  | loopConditionNotBoolean (line : Nat)
  | cannotCallName (line : Nat)
  | argParamNumberMismatch (argNumber : Nat) (paramNumber : Nat) (line : Nat)
  | cannotHashFunction (line : Nat)
  | cannotHashDictionary (line : Nat)
  | keyError (key : Value) (line : Nat)
  | cannotConvertToNumber (line : Nat)
  | thrownReturn (value : Value) (line : Nat)
  | thrownBreak (line : Nat)
  | thrownLiteralAssignment (line : Nat)

/-- The constructor tag of an `ErrorType`, used to compare errors without
needing decidable equality of the `Value` payloads. -/
def ErrorType.tag : ErrorType → Nat
  | .unexpectedCharacter .. => 0
  | .unterminatedString => 1
  | .expectedCharacter .. => 2
  | .expectedExpression _ => 3
  | .expectedFunctionName _ => 4
  | .expectedParameterName _ => 5
  | .expectedVariableName _ => 6
  | .expectedSemicolonAfterInit _ => 7
  | .expectedSemicolonAfterCondition _ => 8
  | .expectedParenAfterIncrement _ => 9
  | .expectedColonAfterKey _ => 10
  | .nameError .. => 11
  | .notIndexable _ => 12
  | .outOfBoundsIndex .. => 13
  | .insertNonStringIntoString _ => 14
  | .invalidAssignmentTarget _ => 15
  | .expectedType .. => 16
  | .nonNaturalIndex .. => 17
  | .nonNumberIndex .. => 18
  | .binaryTypeError .. => 19
  | .divideByZero _ => 20
  | .ifConditionNotBoolean _ => 21
  | .loopConditionNotBoolean _ => 22
  | .cannotCallName _ => 23
  | .argParamNumberMismatch .. => 24
  | .cannotHashFunction _ => 25
  | .cannotHashDictionary _ => 26
  | .keyError .. => 27
  | .cannotConvertToNumber _ => 28
  | .thrownReturn .. => 29
  | .thrownBreak _ => 30
  | .thrownLiteralAssignment _ => 31

/-- Outcome discriminator of the embedding: a genuine `Err(ErrorType)` value
from the source, a host panic (`unreachable!`, `expect`), or exhaustion of
the model's recursion fuel (never the case in the situations the claims are
about). -/
inductive EvalErr where
  | err (e : ErrorType)
  | hostPanic
  | outOfFuel

/-! ## Display (`impl fmt::Display for Value`, used by `print`) -/

/-- Smallest exponent `k ≤ 64` with `den ∣ 10^k`, if any: the denominators
arising from float arithmetic are powers of two, for which the exact decimal
expansion below matches Rust's shortest-roundtrip formatting on the values
the claims exercise. -/
def decExp (den : Nat) : Option Nat :=
  (List.range 65).find? (fun k => 10 ^ k % den == 0)

/-- Display of a float (`{}` on `f64`).  Integral values print as integers,
exactly as in Rust; finite decimals print exactly; other payloads and NaN
are modelled (`Display` of such results is exercised by no claim). -/
def displayF64 : F64 → String
  | .nan => "NaN"
  | .num q =>
      if q.den = 1 then toString q.num
      else
        match decExp q.den with
        | some k =>
            let n := q.num.natAbs * (10 ^ k / q.den)
            let sign := if q.num < 0 then "-" else ""
            let intPart := n / 10 ^ k
            let fracPart := n % 10 ^ k
            let fracStr := toString fracPart
            let fracPad := String.mk (List.replicate (k - fracStr.length) '0') ++ fracStr
            sign ++ toString intPart ++ "." ++ fracPad
        | none => toString q.num ++ "/" ++ toString q.den

mutual

/-- `Display for Value`, with recursion fuel; each recursive call strictly
decreases the `sizeOf` of the displayed value, so the wrapper below never
reaches the fuel-exhaustion `""`. -/
def displayValueFuel : Nat → Value → String
  | 0, _ => ""
  | fuel + 1, v =>
      match v with
      | .number x => displayF64 x
      | .string_ s => s
      | .bool_ b => if b then "true" else "false"
      | .array es => "[" ++ displayValueListFuel fuel es ++ "]"
      | .dictionary bk _ _ => "\x7b" ++ displayKVListFuel fuel (flattenBuckets bk) ++ "\x7d"
      | .function_ _ _ => "<function>"
      | .builtinFunction _ => "<function>"
      | .null_ => "Null"

/-- Array elements, separated by `", "`. -/
def displayValueListFuel : Nat → List Value → String
  | 0, _ => ""
  | fuel + 1, l =>
      match l with
      | [] => ""
      | [v] => displayValueFuel fuel v
      | v :: rest => displayValueFuel fuel v ++ ", " ++ displayValueListFuel fuel rest

/-- Dictionary entries, separated by `", "`. -/
def displayKVListFuel : Nat → List (KeyValue Value) → String
  | 0, _ => ""
  | fuel + 1, l =>
      match l with
      | [] => ""
      | [⟨k, v⟩] => displayValueFuel fuel k ++ ": " ++ displayValueFuel fuel v
      | ⟨k, v⟩ :: rest =>
          displayValueFuel fuel k ++ ": " ++ displayValueFuel fuel v ++ ", " ++
            displayKVListFuel fuel rest

end

/-- `Display for Value`: the size bounds the recursion depth, so this fuel
is always sufficient. -/
def displayValue (v : Value) : String := displayValueFuel (valueSize v) v

/-! ## `hash_table.rs` -/

/-- `INITIAL_CAPACITY`. -/
def INITIAL_CAPACITY : Nat := 16
/-- `MAX_CAPACITY`. -/
def MAX_CAPACITY : Nat := 65536
/-- `MAX_CALC`, the prime reducing intermediate hash calculations. -/
def MAX_CALC : Nat := 65381
/-- `LOAD_FACTOR_NUMERATOR`. -/
def LOAD_FACTOR_NUMERATOR : Nat := 3
/-- `LOAD_FACTOR_DENOMINATOR`. -/
def LOAD_FACTOR_DENOMINATOR : Nat := 4
/-- `HASH_FIRST_N`, the hashing budget. -/
def HASH_FIRST_N : Nat := 300

/-- Stand-in for `(x.to_bits() >> 12) % MAX_CALC` of the `Number` branch of
`hash`.  The IEEE-754 bit pattern is abstracted by an injection of the
rational payload into `ℕ` (NaN maps to its canonical bit pattern); the
claims depend only on the map being a function of the payload. -/
def f64BitsReduced : F64 → Nat
  | .nan => (0x7FF8000000000000 >>> 12) % MAX_CALC
  | .num q =>
      (Nat.pair (q.num.natAbs * 2 + (if q.num < 0 then 1 else 0)) q.den) % MAX_CALC

/-- The `djb2` loop of the `String` branch: one budget unit per code
point. -/
def hashStringLoop : List Char → Nat → Nat → (Nat × Nat)
  | [], hashVal, elementsLeft => (hashVal, elementsLeft)
  | _ :: _, hashVal, 0 => (hashVal, 0)
  | c :: rest, hashVal, elementsLeft + 1 =>
      hashStringLoop rest ((((hashVal <<< 5) + hashVal) + c.toNat) % MAX_CALC) elementsLeft

mutual

/-- `hash(key, elements_left, line) -> (hash, elements_left)` from
`hash_table.rs`, with recursion fuel; each recursive call strictly
decreases the `sizeOf` of the hashed value, so the wrapper `hashValue`
below never reaches the fuel-exhaustion branch. -/
def hashValueF : Nat → Value → Nat → Nat → Except ErrorType (Nat × Nat)
  | 0, _, elementsLeft, _ => .ok (0, elementsLeft)
  | fuel + 1, key, elementsLeft, line =>
      match key with
      | .array arr => hashArrayLoopF fuel arr 5381 elementsLeft line
      | .bool_ b =>
          if b then .ok (1, elementsLeft - 1) else .ok (2, elementsLeft - 1)
      | .dictionary _ _ _ => .error (.cannotHashDictionary line)
      | .function_ _ _ => .error (.cannotHashFunction line)
      | .builtinFunction _ => .error (.cannotHashFunction line)
      | .null_ => .ok (3, elementsLeft - 1)
      | .number x =>
          let binary := f64BitsReduced x
          .ok ((binary * (binary + 3)) % MAX_CALC, elementsLeft - 1)
      | .string_ s => .ok (hashStringLoop s.data 5381 elementsLeft)

/-- The `djb2` loop of the `Array` branch, threading the budget. -/
def hashArrayLoopF : Nat → List Value → Nat → Nat → Nat → Except ErrorType (Nat × Nat)
  | 0, _, hashVal, elementsLeft, _ => .ok (hashVal, elementsLeft)
  | fuel + 1, l, hashVal, elementsLeft, line =>
      match l, elementsLeft with
      | [], el => .ok (hashVal, el)
      | _ :: _, 0 => .ok (hashVal, 0)
      | v :: rest, el + 1 => do
          let r ← hashValueF fuel v (el + 1) line
          hashArrayLoopF fuel rest
            ((((hashVal <<< 5) + hashVal) + r.1 % MAX_CALC) % MAX_CALC) r.2 line

end

/-- `hash`: the size of the key bounds the recursion depth, so this fuel is
always sufficient. -/
def hashValue (key : Value) (elementsLeft line : Nat) : Except ErrorType (Nat × Nat) :=
  hashValueF (valueSize key) key elementsLeft line


/-- `HashTable`. -/
structure HashTable where
  array : List (List (KeyValue Value))
  entries : Nat
  currentCapacity : Nat

namespace HashTable

/-- `HashTable::new`. -/
def new : HashTable :=
  { array := List.replicate INITIAL_CAPACITY []
    entries := 0
    currentCapacity := INITIAL_CAPACITY }

/-- `HashTable::flatten`. -/
def flatten (t : HashTable) : List (KeyValue Value) := flattenBuckets t.array

/-- `HashTable::size`. -/
def size (t : HashTable) : Nat := t.entries

/-- `HashTable::get_bucket_number`.  Besides the bucket index this returns
the line of standard output produced by the leftover debug
`println!("{:#?}", hash(..)?.0)` in the source. -/
def getBucketNumber (t : HashTable) (key : Value) (line : Nat) :
    Except ErrorType (Nat × List String) := do
  let r ← hashValue key HASH_FIRST_N line
  .ok (r.1 % t.currentCapacity, [toString r.1 ++ "\n"])

/-- `HashTable::get`.  Bucket access via `getD` stands for the Rust index
expression, which cannot be out of range for a table with its capacity many
buckets. -/
def get (t : HashTable) (key : Value) (line : Nat) :
    Except ErrorType (Value × List String) := do
  let (bn, out) ← getBucketNumber t key line
  match (t.array.getD bn []).find? (fun kv => valueEq kv.key key) with
  | some kv => .ok (kv.value, out)
  | none => .error (.keyError key line)

/-- The `iter_mut().find(..)` + assignment step of `insert`: replace the
value of the first pair whose key equals `key`, reporting whether a pair was
found. -/
def bucketUpdate : List (KeyValue Value) → Value → Value → Option (List (KeyValue Value))
  | [], _, _ => none
  | kv :: rest, key, value =>
      if valueEq kv.key key then some (⟨kv.key, value⟩ :: rest)
      else (bucketUpdate rest key value).map (kv :: ·)

/-- The re-insertion loop of `check_load`, parameterised by the insert
operation it re-enters. -/
def reinsertLoop
    (ins : HashTable → Value → Value → Nat → Except EvalErr (HashTable × List String)) :
    HashTable → List (KeyValue Value) → Nat → Except EvalErr (HashTable × List String)
  | t, [], _ => .ok (t, [])
  | t, kv :: rest, line => do
      let (t', out1) ← ins t kv.key kv.value line
      let (t'', out2) ← reinsertLoop ins t' rest line
      .ok (t'', out1 ++ out2)

mutual

/-- `HashTable::insert` with explicit rehash fuel (each rehash level
consumes two units; the capacity cap bounds the nesting, so the fixed
`INSERT_FUEL` below is never exhausted on tables the interpreter builds). -/
def insertFuel : Nat → HashTable → Value → Value → Nat →
    Except EvalErr (HashTable × List String)
  | 0, _, _, _, _ => .error .outOfFuel
  | fuel + 1, t, key, value, line => do
      let (bn, out1) ← (getBucketNumber t key line).mapError .err
      let bucket := t.array.getD bn []
      let t' :=
        match bucketUpdate bucket key value with
        | some newBucket => { t with array := t.array.set bn newBucket }
        | none =>
            { t with array := t.array.set bn (bucket ++ [⟨key, value⟩])
                     entries := t.entries + 1 }
      let (t'', out2) ← checkLoadFuel fuel t' line
      .ok (t'', out1 ++ out2)

/-- `HashTable::check_load` with explicit rehash fuel. -/
def checkLoadFuel : Nat → HashTable → Nat → Except EvalErr (HashTable × List String)
  | 0, _, _ => .error .outOfFuel
  | fuel + 1, t, line =>
      if t.currentCapacity < MAX_CAPACITY ∧
          t.entries * LOAD_FACTOR_DENOMINATOR > t.currentCapacity * LOAD_FACTOR_NUMERATOR then
        let copy := t.flatten
        let newCap := t.currentCapacity <<< 1
        reinsertLoop (insertFuel fuel)
          { array := List.replicate newCap []
            entries := t.entries
            currentCapacity := newCap } copy line
      else .ok (t, [])

end

/-- The fuel used by the interpreter's calls into `insert`: the capacity at
most doubles from 16 up to the 65 536 cap, so rehash nesting is bounded and
64 units are never exhausted (each rehash level consumes two). -/
def INSERT_FUEL : Nat := 64

/-- `HashTable::insert` as called by the rest of the interpreter. -/
def insert (t : HashTable) (key value : Value) (line : Nat) :
    Except EvalErr (HashTable × List String) :=
  insertFuel INSERT_FUEL t key value line

/-- `HashTable::remove`. -/
def remove (t : HashTable) (key : Value) (line : Nat) :
    Except ErrorType (HashTable × List String) := do
  let (bn, out) ← getBucketNumber t key line
  let bucket := t.array.getD bn []
  match bucket.findIdx? (fun kv => valueEq kv.key key) with
  | some i =>
      .ok ({ t with array := t.array.set bn (bucket.eraseIdx i)
                    entries := t.entries - 1 }, out)
  | none => .error (.keyError key line)

/-- Package a table into a `Value`. -/
def toValue (t : HashTable) : Value :=
  .dictionary t.array t.entries t.currentCapacity

end HashTable

/-- Unpack a dictionary `Value` into a `HashTable`. -/
def Value.asTable (buckets : List (List (KeyValue Value)))
    (entries currentCapacity : Nat) : HashTable :=
  { array := buckets, entries := entries, currentCapacity := currentCapacity }

/-! ## `environment.rs` -/

/-- `Pointer`. -/
structure Pointer where
  name : String
  indices : List Value

/-- `Environment`: the scope stack.  The head of the list is the outermost
(most recently pushed) scope.  Each scope models a `HashMap<String, Value>`
by an association list; only lookup and replace-or-insert are used, so the
map's iteration order is immaterial. -/
structure Environment where
  scopes : List (List (String × Value))

/-- `HashMap::insert`: replace the binding of `name`, or add one. -/
def scopeInsert : List (String × Value) → String → Value → List (String × Value)
  | [], name, v => [(name, v)]
  | (n, w) :: rest, name, v =>
      if n = name then (n, v) :: rest else (n, w) :: scopeInsert rest name v

/-- `HashMap::get`. -/
def scopeGet (scope : List (String × Value)) (name : String) : Option Value :=
  (scope.find? (fun p => p.1 == name)).map (·.2)

/-- `index_value_to_usize`. -/
def indexValueToUsize (index : Value) (line : Nat) : Except ErrorType Nat :=
  match index with
  | .number x =>
      if x.isWholeNonneg then .ok x.toUsize
      else .error (.nonNaturalIndex index line)
  | _ => .error (.nonNumberIndex index.typeToString line)

namespace Environment

/-- `Environment::new`: the base scope holds the built-in bindings. -/
def new : Environment :=
  { scopes := [[
      ("append", Value.builtinFunction .append),
      ("input", Value.builtinFunction .input),
      ("remove", Value.builtinFunction .remove),
      ("size", Value.builtinFunction .size),
      ("sort", Value.builtinFunction .sort),
      ("to_number", Value.builtinFunction .toNumber),
      ("to_string", Value.builtinFunction .toString_)]] }

/-- `Environment::new_scope`. -/
def newScope (env : Environment) : Environment :=
  { scopes := [] :: env.scopes }

/-- `Environment::exit_scope`: popping down to an empty stack is a panic. -/
def exitScope (env : Environment) : Except EvalErr Environment :=
  match env.scopes with
  | [] => .error .hostPanic
  | [_] => .error .hostPanic
  | _ :: rest => .ok { scopes := rest }

/-- `Environment::declare`: insert into the outermost scope.  (Rust panics
when the stack is empty; the stack is never empty, and the empty case here
leaves the environment unchanged.) -/
def declare (env : Environment) (name : String) (value : Value) : Environment :=
  match env.scopes with
  | [] => env
  | scope :: rest => { scopes := scopeInsert scope name value :: rest }

/-- `Environment::get`. -/
def get (env : Environment) (name : String) (line : Nat) : Except ErrorType Value :=
  go env.scopes
where
  /-- Scan from the outermost scope. -/
  go : List (List (String × Value)) → Except ErrorType Value
  | [] => .error (.nameError name line)
  | scope :: rest =>
      match scopeGet scope name with
      | some object => .ok object
      | none => go rest

end Environment

/-- The terminal write of `Environment::update` (the `match` on the
container after the walk over all but the last index). -/
def terminalWrite (container lastIndex value : Value) (line : Nat) :
    Except EvalErr (Value × List String) :=
  match container with
  | .array arr => do
      let idx ← (indexValueToUsize lastIndex line).mapError .err
      if idx < arr.length then
        .ok (.array (arr.set idx value), [])
      else .error (.err (.outOfBoundsIndex idx line))
  | .dictionary bk e c => do
      let (t', out) ← (Value.asTable bk e c).insert lastIndex value line
      .ok (t'.toValue, out)
  | .string_ s => do
      let idx ← (indexValueToUsize lastIndex line).mapError .err
      -- `s.get(idx..idx+1).is_none()`: the out-of-range test (byte
      -- positions in Rust, character positions here).
      if s.length ≤ idx then .error (.err (.outOfBoundsIndex idx line))
      else
        match value with
        | .string_ c =>
            -- `s.replace_range(idx..idx+1, c)`: the whole string `c` is
            -- spliced in, whatever its length.
            .ok (.string_ (String.mk (s.data.take idx ++ c.data ++ s.data.drop (idx + 1))), [])
        | _ => .error (.err (.insertNonStringIntoString line))
  | _ => .error (.err (.notIndexable line))

/-- The walk of `Environment::update` over the indices: all but the last
index navigate (arrays by position, dictionaries by `get_mut`), the last is
handed to `terminalWrite`. -/
def navigateUpdate : Value → List Value → Value → Nat → Except EvalErr (Value × List String)
  | container, [last], value, line => terminalWrite container last value line
  | container, i :: rest, value, line =>
      -- only reached with `rest` nonempty: the singleton case matched above
      match container with
      | .array arr => do
          let idx ← (indexValueToUsize i line).mapError .err
          match arr.get? idx with
          | some el => do
              let (el', out) ← navigateUpdate el rest value line
              .ok (.array (arr.set idx el'), out)
          | none => .error (.err (.outOfBoundsIndex idx line))
      | .dictionary bk e c => do
          -- `dict.get_mut(i, line)?` followed by the deeper walk; the write
          -- goes back through the same bucket position.
          let t := Value.asTable bk e c
          let (bn, out1) ← (t.getBucketNumber i line).mapError .err
          let bucket := t.array.getD bn []
          match bucket.findIdx? (fun kv => valueEq kv.key i) with
          | none => .error (.err (.keyError i line))
          | some j =>
              match bucket.get? j with
              | none => .error .hostPanic
              | some kv => do
                  let (v', out2) ← navigateUpdate kv.value rest value line
                  .ok (.dictionary (t.array.set bn (bucket.set j ⟨kv.key, v'⟩)) e c,
                       out1 ++ out2)
      | _ => .error (.err (.notIndexable line))
  | _, [], _, line => .error (.err (.notIndexable line))

/-- `Environment::update`. -/
def Environment.update (env : Environment) (pointer : Pointer) (value : Value)
    (line : Nat) : Except EvalErr (Environment × List String) :=
  go env.scopes
where
  /-- Scan from the outermost scope for the scope binding `pointer.name`. -/
  go : List (List (String × Value)) → Except EvalErr (Environment × List String)
  | [] => .error (.err (.nameError pointer.name line))
  | scope :: rest =>
      match scopeGet scope pointer.name with
      | some object =>
          if pointer.indices.isEmpty then
            .ok ({ scopes := scopeInsert scope pointer.name value :: rest }, [])
          else do
            let (object', out) ← navigateUpdate object pointer.indices value line
            .ok ({ scopes := scopeInsert scope pointer.name object' :: rest }, out)
      | none => do
          let (env', out) ← go rest
          .ok ({ scopes := scope :: env'.scopes }, out)

/-! ## `interpreter.rs` -/

/-- The two-pointer merge loop of `merge_sort`, including the append of the
remainder; fuel-indexed (one unit per step, so the sum of the lengths
bounds the recursion and the fuel chosen by `mergeSortF` is always
sufficient). -/
def mergeSortMergeF : Nat → List Value → List Value → Nat → Except EvalErr (List Value)
  | 0, _, _, _ => .error .outOfFuel
  | fuel + 1, left, right, line =>
      match left, right with
      | [], r => .ok r
      | l, [] => .ok l
      | a :: ls, b :: rs =>
          match a, b with
          | .number leftNum, .number rightNum =>
              if F64.ieeeLt leftNum rightNum then
                (mergeSortMergeF fuel ls (b :: rs) line).map (a :: ·)
              else
                (mergeSortMergeF fuel (a :: ls) rs line).map (b :: ·)
          | .string_ leftStr, .string_ rightStr =>
              if leftStr < rightStr then
                (mergeSortMergeF fuel ls (b :: rs) line).map (a :: ·)
              else
                (mergeSortMergeF fuel (a :: ls) rs line).map (b :: ·)
          | _, _ =>
              .error (.err (.binaryTypeError "Number or String"
                a.typeToString b.typeToString line))

/-- `merge_sort`, fuel-indexed: the recursion depth is logarithmic in the
length, so the fuel chosen by the wrapper below is always sufficient. -/
def mergeSortF : Nat → List Value → Nat → Except EvalErr (List Value)
  | 0, _, _ => .error .outOfFuel
  | fuel + 1, arrayToSort, line =>
      let n := arrayToSort.length
      if n ≤ 1 then .ok arrayToSort
      else do
        let left ← mergeSortF fuel (arrayToSort.take (n / 2)) line
        let right ← mergeSortF fuel (arrayToSort.drop (n / 2)) line
        mergeSortMergeF (left.length + right.length + 1) left right line

/-- `merge_sort`. -/
def mergeSort (arrayToSort : List Value) (line : Nat) : Except EvalErr (List Value) :=
  mergeSortF (arrayToSort.length + 1) arrayToSort line

/-- Fold a digit list into a natural number. -/
def digitsToNat (ds : List Char) : Nat :=
  ds.foldl (fun acc c => acc * 10 + (c.toNat - '0'.toNat)) 0

/-- Model of `str::parse::<f64>` restricted to plain decimal forms
`[+-]? digits ("." digits*)?` and `[+-]? "." digits+` (evaluated exactly);
exponent notation and the `inf`/`NaN` spellings are not modelled, no claim
exercises them. -/
def parseF64 (s : String) : Option F64 :=
  let cs := s.data
  let (negSign, cs) :=
    match cs with
    | '-' :: rest => (true, rest)
    | '+' :: rest => (false, rest)
    | _ => (false, cs)
  let intDigits := cs.takeWhile (·.isDigit)
  let afterInt := cs.drop intDigits.length
  match afterInt with
  | [] =>
      if intDigits.isEmpty then none
      else
        let n : ℤ := (digitsToNat intDigits : ℤ)
        some (.num (Rat.divInt (if negSign then -n else n) 1))
  | '.' :: fracPart =>
      let fracDigits := fracPart.takeWhile (·.isDigit)
      if fracPart.drop fracDigits.length ≠ [] then none
      else if intDigits.isEmpty ∧ fracDigits.isEmpty then none
      else
        let scale : Nat := 10 ^ fracDigits.length
        let n : ℤ := (digitsToNat intDigits * scale + digitsToNat fracDigits : ℤ)
        some (.num (Rat.divInt (if negSign then -n else n) (scale : ℤ)))
  | _ => none

/-! ### The evaluator state -/

/-- The interpreter world: the environment plus the modelled standard
output (written chunks, newlines included) and standard input (pending
lines). -/
structure TState where
  env : Environment
  output : List String
  stdin : List String

/-- Result of a stateful interpreter step: the state survives both success
and error, as the Rust interpreter mutates `self.environment` in place. -/
abbrev EOut (α : Type) := TState × Except EvalErr α

/-- Success. -/
def mok {α : Type} (s : TState) (a : α) : EOut α := (s, .ok a)

/-- Failure (state preserved). -/
def merr {α : Type} (s : TState) (e : EvalErr) : EOut α := (s, .error e)

/-- Sequencing: on failure the state and the error propagate. -/
def mbind {α β : Type} (x : EOut α) (f : α → TState → EOut β) : EOut β :=
  match x with
  | (s, .ok a) => f a s
  | (s, .error e) => (s, .error e)

/-- Append chunks to standard output. -/
def emitOut (s : TState) (lines : List String) : TState :=
  { s with output := s.output ++ lines }

/-- `declare` each parameter bound to the corresponding argument. -/
def declareParams : Environment → List String → List Value → Environment
  | env, p :: ps, a :: args => declareParams (env.declare p a) ps args
  | env, _, _ => env

mutual

/-- `Interpreter::evaluate`. -/
def evaluate : Nat → Expr → TState → EOut Value
  | 0, _, s => merr s .outOfFuel
  | fuel + 1, .mk line et, s =>
    match et with
    | .arrayE elements =>
        mbind (evaluateList fuel elements s) fun values s1 => mok s1 (.array values)

    | .assignment target value =>
        match evaluate fuel value s with
        | (s1, .error e) => (s1, .error e)
        | (s1, .ok valueEval) =>
            match constructPointer fuel target line s1 with
            | (s2, .error e) => (s2, .error e)
            | (s2, .ok pointer) =>
                match s2.env.update pointer valueEval line with
                | .error e => merr s2 e
                | .ok (env', out) =>
                    mok (emitOut { s2 with env := env' } out) valueEval

    | .binary left operator right =>
        mbind (evaluate fuel left s) fun leftEval s1 =>
        mbind (evaluate fuel right s1) fun rightEval s2 =>
          match operator.type_ with
          | .or_ | .and_ =>
              match leftEval, rightEval with
              | .bool_ lb, .bool_ rb =>
                  match operator.type_ with
                  | .or_ => mok s2 (.bool_ (lb || rb))
                  | .and_ => mok s2 (.bool_ (lb && rb))
                  | _ => merr s2 .hostPanic
              | _, _ =>
                  merr s2 (.err (.binaryTypeError "Boolean"
                    leftEval.typeToString rightEval.typeToString left.line))
          | .equalEqual => mok s2 (.bool_ (valueEq leftEval rightEval))
          | .bangEqual => mok s2 (.bool_ (!(valueEq leftEval rightEval)))
          | .greater | .less | .greaterEqual | .lessEqual =>
              match leftEval, rightEval with
              | .number leftNum, .number rightNum =>
                  match operator.type_ with
                  | .greater => mok s2 (.bool_ (F64.ieeeLt rightNum leftNum))
                  | .less => mok s2 (.bool_ (F64.ieeeLt leftNum rightNum))
                  | .greaterEqual => mok s2 (.bool_ (F64.ieeeLe rightNum leftNum))
                  | .lessEqual => mok s2 (.bool_ (F64.ieeeLe leftNum rightNum))
                  | _ => merr s2 .hostPanic
              | .string_ leftStr, .string_ rightStr =>
                  match operator.type_ with
                  | .greater => mok s2 (.bool_ (decide (rightStr < leftStr)))
                  | .less => mok s2 (.bool_ (decide (leftStr < rightStr)))
                  | .greaterEqual => mok s2 (.bool_ (decide (rightStr ≤ leftStr)))
                  | .lessEqual => mok s2 (.bool_ (decide (leftStr ≤ rightStr)))
                  | _ => merr s2 .hostPanic
              | _, _ =>
                  merr s2 (.err (.binaryTypeError "Number or String"
                    leftEval.typeToString rightEval.typeToString left.line))
          | .plus =>
              match leftEval, rightEval with
              | .number leftNum, .number rightNum => mok s2 (.number (F64.add leftNum rightNum))
              | .string_ leftStr, .string_ rightStr => mok s2 (.string_ (leftStr ++ rightStr))
              | _, _ =>
                  merr s2 (.err (.binaryTypeError "Number or String"
                    leftEval.typeToString rightEval.typeToString left.line))
          | .minus | .star | .slash | .percent =>
              match leftEval, rightEval with
              | .number leftNum, .number rightNum =>
                  match operator.type_ with
                  | .minus => mok s2 (.number (F64.sub leftNum rightNum))
                  | .star => mok s2 (.number (F64.mul leftNum rightNum))
                  | .slash =>
                      if F64.ieeeEq rightNum F64.zero then
                        merr s2 (.err (.divideByZero right.line))
                      else mok s2 (.number (F64.div leftNum rightNum))
                  | .percent => mok s2 (.number (F64.rem leftNum rightNum))
                  | _ => merr s2 .hostPanic
              | _, _ =>
                  merr s2 (.err (.binaryTypeError "Number"
                    leftEval.typeToString rightEval.typeToString left.line))
          | _ => merr s2 .hostPanic

    | .call callee arguments =>
        mbind (evaluate fuel callee s) fun functionV s1 =>
          match functionV with
          | .function_ parameters body =>
              if arguments.length ≠ parameters.length then
                merr s1 (.err (.argParamNumberMismatch arguments.length parameters.length line))
              else
                mbind (evaluateList fuel arguments s1) fun argsEval s2 =>
                  let s3 := { s2 with env := (declareParams s2.env.newScope parameters argsEval) }
                  match execute fuel body s3 with
                      | (s4, res) =>
                          match s4.env.exitScope with
                          | .error e => merr s4 e
                          | .ok env' =>
                              let s5 := { s4 with env := env' }
                              match res with
                              | .ok _ => mok s5 .null_
                              | .error (.err (.thrownReturn v _)) => mok s5 v
                              | .error e => merr s5 e
          | .builtinFunction bf =>
              match bf with
              | .append =>
                  if arguments.length ≠ 2 then
                    merr s1 (.err (.argParamNumberMismatch arguments.length 2 line))
                  else
                    match arguments with
                    | [target, valueArg] =>
                        mbind (evaluate fuel target s1) fun targetEval s2 =>
                        mbind (constructPointer fuel target target.line s2) fun pointer s3 =>
                        mbind (evaluate fuel valueArg s3) fun valueEval s4 =>
                          match targetEval with
                          | .array arr =>
                              let newArr := arr ++ [valueEval]
                              match s4.env.update pointer (.array newArr) line with
                              | .error e => merr s4 e
                              | .ok (env', out) =>
                                  mok (emitOut { s4 with env := env' } out) (.array newArr)
                          | _ =>
                              merr s4 (.err (.expectedType "Array"
                                targetEval.typeToString target.line))
                    | _ => merr s1 .hostPanic
              | .input =>
                  if arguments.length ≠ 1 then
                    merr s1 (.err (.argParamNumberMismatch arguments.length 1 line))
                  else
                    match arguments with
                    | [arg0] =>
                        mbind (evaluate fuel arg0 s1) fun prompt s2 =>
                          let s3 := emitOut s2 [displayValue prompt]
                          match s3.stdin with
                          | [] => mok s3 (.string_ "")
                          | l :: rest => mok { s3 with stdin := rest } (.string_ l.trim)
                    | _ => merr s1 .hostPanic
              | .remove =>
                  if arguments.length ≠ 2 then
                    merr s1 (.err (.argParamNumberMismatch arguments.length 2 line))
                  else
                    match arguments with
                    | [target, keyArg] =>
                        mbind (evaluate fuel target s1) fun targetEval s2 =>
                        mbind (constructPointer fuel target target.line s2) fun pointer s3 =>
                        mbind (evaluate fuel keyArg s3) fun keyEval s4 =>
                          match targetEval with
                          | .array arr =>
                              match indexValueToUsize keyEval keyArg.line with
                              | .error e => merr s4 (.err e)
                              | .ok index =>
                                  if index < arr.length then
                                    let newArr := arr.eraseIdx index
                                    match s4.env.update pointer (.array newArr) line with
                                    | .error e => merr s4 e
                                    | .ok (env', out) =>
                                        mok (emitOut { s4 with env := env' } out) (.array newArr)
                                  else merr s4 (.err (.outOfBoundsIndex index keyArg.line))
                          | .dictionary bk e c =>
                              match (Value.asTable bk e c).remove keyEval line with
                              | .error e2 => merr s4 (.err e2)
                              | .ok (t', out1) =>
                                  let s5 := emitOut s4 out1
                                  match s5.env.update pointer t'.toValue line with
                                  | .error e2 => merr s5 e2
                                  | .ok (env', out2) =>
                                      mok (emitOut { s5 with env := env' } out2) t'.toValue
                          | _ =>
                              merr s4 (.err (.expectedType "Array or Dictionary"
                                targetEval.typeToString target.line))
                    | _ => merr s1 .hostPanic
              | .size =>
                  if arguments.length ≠ 1 then
                    merr s1 (.err (.argParamNumberMismatch arguments.length 1 line))
                  else
                    match arguments with
                    | [arg0] =>
                        mbind (evaluate fuel arg0 s1) fun v s2 =>
                          match v with
                          | .array arr => mok s2 (.number (.num (arr.length : ℚ)))
                          | .dictionary bk e c =>
                              mok s2 (.number (.num ((Value.asTable bk e c).size : ℚ)))
                          | .string_ str => mok s2 (.number (.num (str.utf8ByteSize : ℚ)))
                          | _ =>
                              merr s2 (.err (.expectedType "Array, Dictionary, or String"
                                v.typeToString line))
                    | _ => merr s1 .hostPanic
              | .sort =>
                  if arguments.length ≠ 1 then
                    merr s1 (.err (.argParamNumberMismatch arguments.length 1 line))
                  else
                    match arguments with
                    | [arg0] =>
                        mbind (evaluate fuel arg0 s1) fun v s2 =>
                          match v with
                          | .array arr =>
                              match mergeSort arr arg0.line with
                              | .error e => merr s2 e
                              | .ok sorted => mok s2 (.array sorted)
                          | _ =>
                              merr s2 (.err (.expectedType "Array" v.typeToString line))
                    | _ => merr s1 .hostPanic
              | .toNumber =>
                  if arguments.length ≠ 1 then
                    merr s1 (.err (.argParamNumberMismatch arguments.length 1 line))
                  else
                    match arguments with
                    | [arg0] =>
                        mbind (evaluate fuel arg0 s1) fun v s2 =>
                          match v with
                          | .bool_ b => mok s2 (.number (.num (if b then 1 else 0)))
                          | .number _ => mok s2 v
                          | .string_ str =>
                              match parseF64 str with
                              | some x => mok s2 (.number x)
                              | none => merr s2 (.err (.cannotConvertToNumber line))
                          | _ =>
                              merr s2 (.err (.expectedType "Boolean, Number or String"
                                v.typeToString line))
                    | _ => merr s1 .hostPanic
              | .toString_ =>
                  if arguments.length ≠ 1 then
                    merr s1 (.err (.argParamNumberMismatch arguments.length 1 line))
                  else
                    match arguments with
                    | [arg0] =>
                        mbind (evaluate fuel arg0 s1) fun v s2 =>
                          match v with
                          | .bool_ b => mok s2 (.string_ (if b then "true" else "false"))
                          | .number x => mok s2 (.string_ (displayF64 x))
                          | .string_ _ => mok s2 v
                          | _ =>
                              merr s2 (.err (.expectedType "Boolean, Number or String"
                                v.typeToString line))
                    | _ => merr s1 .hostPanic
          | _ => merr s1 (.err (.cannotCallName callee.line))

    | .dictionaryE elements => evalDictEntries fuel elements HashTable.new line s

    | .element arrayExp index =>
        mbind (evaluate fuel index s) fun indexEval s1 =>
        mbind (evaluate fuel arrayExp s1) fun arrv s2 =>
          match arrv with
          | .array arr =>
              match indexValueToUsize indexEval index.line with
              | .error e => merr s2 (.err e)
              | .ok idxN =>
                  match arr.get? idxN with
                  | some el => mok s2 el
                  | none => merr s2 (.err (.outOfBoundsIndex idxN line))
          | .dictionary bk e c =>
              match (Value.asTable bk e c).get indexEval line with
              | .error e2 => merr s2 (.err e2)
              | .ok (v, out) => mok (emitOut s2 out) v
          | .string_ str =>
              match indexValueToUsize indexEval index.line with
              | .error e => merr s2 (.err e)
              | .ok idxN =>
                  match str.data.get? idxN with
                  | some ch => mok s2 (.string_ (String.mk [ch]))
                  | none => merr s2 (.err (.outOfBoundsIndex idxN line))
          | _ => merr s2 (.err (.notIndexable arrayExp.line))

    | .grouping expression => evaluate fuel expression s

    | .literal value =>
        match value with
        | .numberL x => mok s (.number x)
        | .stringL str => mok s (.string_ str)
        | .boolL b => mok s (.bool_ b)
        | .nullL => mok s .null_

    | .unary operator right =>
        mbind (evaluate fuel right s) fun rightEval s1 =>
          match operator.type_ with
          | .bang =>
              match rightEval with
              | .bool_ rb => mok s1 (.bool_ (!rb))
              | _ =>
                  merr s1 (.err (.expectedType "Boolean"
                    rightEval.typeToString right.line))
          | .minus =>
              match rightEval with
              | .number rn => mok s1 (.number (F64.neg rn))
              | _ =>
                  merr s1 (.err (.expectedType "Number"
                    rightEval.typeToString right.line))
          | _ => merr s1 .hostPanic

    | .variable name =>
        match s.env.get name line with
        | .ok v => mok s v
        | .error e => merr s (.err e)

/-- Left-to-right evaluation of an expression list (array elements, call
arguments). -/
def evaluateList : Nat → List Expr → TState → EOut (List Value)
  | 0, _, s => merr s .outOfFuel
  | fuel + 1, exprs, s =>
      match exprs with
  | [] => mok s []
  | e :: rest =>
      mbind (evaluate fuel e s) fun v s1 =>
      mbind (evaluateList fuel rest s1) fun vs s2 =>
        mok s2 (v :: vs)

/-- The entry loop of the `Dictionary` expression: evaluate each key and
value and insert them into the growing table. -/
def evalDictEntries : Nat → List (KeyValue Expr) → HashTable → Nat → TState → EOut Value
  | 0, _, _, _, s => merr s .outOfFuel
  | fuel + 1, elements, t, line, s =>
      match elements with
  | [] => mok s t.toValue
  | ⟨k, v⟩ :: rest =>
      mbind (evaluate fuel k s) fun keyEval s1 =>
      mbind (evaluate fuel v s1) fun valueEval s2 =>
        match t.insert keyEval valueEval line with
        | .error e => merr s2 e
        | .ok (t', out) => evalDictEntries fuel rest t' line (emitOut s2 out)

/-- `Interpreter::construct_pointer`. -/
def constructPointer : Nat → Expr → Nat → TState → EOut Pointer
  | 0, _, _, s => merr s .outOfFuel
  | fuel + 1, element, line, s =>
      match element with
  | .mk _ (.element arrayExp index) =>
      mbind (constructPointer fuel arrayExp line s) fun p s1 =>
      mbind (evaluate fuel index s1) fun iv s2 =>
        mok s2 ⟨p.name, p.indices ++ [iv]⟩
  | .mk _ (.variable name) => mok s ⟨name, []⟩
  | _ => merr s (.err (.invalidAssignmentTarget line))

/-- `Interpreter::execute`. -/
def execute : Nat → Stmt → TState → EOut Unit
  | 0, _, s => merr s .outOfFuel
  | fuel + 1, .mk line st, s =>
    match st with
    | .block body =>
        let s1 := { s with env := s.env.newScope }
        match executeSeq fuel body s1 with
        | (s2, res) =>
            match s2.env.exitScope with
            | .error e => merr s2 e
            | .ok env' =>
                let s3 := { s2 with env := env' }
                match res with
                | .ok _ => mok s3 ()
                | .error e => merr s3 e

    | .break_ => merr s (.err (.thrownBreak line))

    | .expression e => mbind (evaluate fuel e s) fun _ s1 => mok s1 ()

    | .function_ name parameters body =>
        mok { s with env := s.env.declare name (.function_ parameters body) } ()

    | .if_ condition thenBody elseBody =>
        mbind (evaluate fuel condition s) fun c s1 =>
          match c with
          | .bool_ b =>
              if b then execute fuel thenBody s1
              else
                match elseBody with
                | some e => execute fuel e s1
                | none => mok s1 ()
          | _ => merr s1 (.err (.ifConditionNotBoolean condition.line))

    | .print e =>
        mbind (evaluate fuel e s) fun v s1 =>
          mok (emitOut s1 [displayValue v ++ "\n"]) ()

    | .return_ e =>
        mbind (evaluate fuel e s) fun v s1 => merr s1 (.err (.thrownReturn v line))

    | .varDecl name value =>
        mbind (evaluate fuel value s) fun v s1 =>
          mok { s1 with env := s1.env.declare name v } ()

    | .while_ condition body =>
        mbind (evaluate fuel condition s) fun c s1 =>
          match c with
          | .bool_ b =>
              if b then
                match execute fuel body s1 with
                | (s2, .ok _) =>
                    execute fuel (.mk line (.while_ condition body)) s2
                | (s2, .error (.err (.thrownBreak _))) => mok s2 ()
                | (s2, .error e) => merr s2 e
              else mok s1 ()
          | _ => merr s1 (.err (.loopConditionNotBoolean line))

/-- Sequential execution of a statement list (block bodies). -/
def executeSeq : Nat → List Stmt → TState → EOut Unit
  | 0, _, s => merr s .outOfFuel
  | fuel + 1, stmts, s =>
      match stmts with
  | [] => mok s ()
  | st :: rest => mbind (execute fuel st s) fun _ s1 => executeSeq fuel rest s1

end

/-- `Interpreter::interpret`: execute the statements in order; the first
error halts execution and is returned (its pretty-printed report is out of
scope). -/
def interpret (f : Nat) (ast : List Stmt) (s : TState) : TState × Option EvalErr :=
  match ast with
  | [] => (s, none)
  | stmt :: rest =>
      match execute f stmt s with
      | (s1, .ok _) => interpret f rest s1
      | (s1, .error e) => (s1, some e)

/-- A fresh interpreter state with the given standard input. -/
def initState (stdin : List String) : TState :=
  { env := Environment.new, output := [], stdin := stdin }

/-! ## `tokenizer.rs`: the DFA lexer

`scan_token` is modelled on the suffix of the source string starting at the
token: each state of the DFA becomes one function on the remaining
characters; a scan returns the optional token, the remaining suffix and the
updated line counter. -/

/-- Build a non-literal token (`construct_token`). -/
def mkToken (type_ : TokenType) (lexeme : String) (line : Nat) : Token :=
  ⟨type_, lexeme, .nullL, line⟩

/-- Outcome of one `scan_token` call. -/
abbrev ScanOut := Except ErrorType (Option Token × List Char × Nat)

/-- The `GotBang`/`GotEqual`/`GotGreater`/`GotLess` states: a one-character
lookahead for `=`. -/
def scanTwoChar (rest : List Char) (single : TokenType) (singleLex : String)
    (double : TokenType) (doubleLex : String) (line : Nat) : ScanOut :=
  match rest with
  | '=' :: rest2 => .ok (some (mkToken double doubleLex line), rest2, line)
  | _ => .ok (some (mkToken single singleLex line), rest, line)

/-- The `InStringDouble`/`InStringSingle` states: consume up to the closing
quote; end of input is `UnterminatedString`.  The line counter is not
advanced inside strings, as in the source. -/
def scanString (src : List Char) (acc : List Char) (quote : Char) (line : Nat) : ScanOut :=
  match src with
  | [] => .error .unterminatedString
  | c :: rest =>
      if c = quote then
        .ok (some ⟨.string_, String.mk (quote :: (acc ++ [quote])), .stringL (String.mk acc), line⟩,
             rest, line)
      else scanString rest (acc ++ [c]) quote line

/-- The number-lexeme parse `source[start..current].parse::<f64>().unwrap()`:
the lexeme always matches the decimal grammar, so `parseF64` succeeds (the
fallback models the impossible `unwrap` failure). -/
def numberLiteralOf (lexeme : List Char) : Literal :=
  .numberL ((parseF64 (String.mk lexeme)).getD .nan)

/-- The `InNumberAfterDot` state: consume digits after the decimal point. -/
def scanNumberAfterDot (src : List Char) (acc : List Char) (line : Nat) : ScanOut :=
  match src with
  | [] => .ok (some ⟨.number, String.mk acc, numberLiteralOf acc, line⟩, [], line)
  | c :: rest =>
      if c.isDigit then scanNumberAfterDot rest (acc ++ [c]) line
      else .ok (some ⟨.number, String.mk acc, numberLiteralOf acc, line⟩, c :: rest, line)

/-- The `InNumberBeforeDot` state: consume digits; a `.` moves to
`InNumberAfterDot` (consuming the dot into the lexeme unconditionally). -/
def scanNumberBeforeDot (src : List Char) (acc : List Char) (line : Nat) : ScanOut :=
  match src with
  | [] => .ok (some ⟨.number, String.mk acc, numberLiteralOf acc, line⟩, [], line)
  | c :: rest =>
      if c = '.' then scanNumberAfterDot rest (acc ++ [c]) line
      else if c.isDigit then scanNumberBeforeDot rest (acc ++ [c]) line
      else .ok (some ⟨.number, String.mk acc, numberLiteralOf acc, line⟩, c :: rest, line)

/-- The keyword table of the `InWord` state. -/
def wordToken (lexeme : String) (line : Nat) : Token :=
  if lexeme = "and" then mkToken .and_ lexeme line
  else if lexeme = "break" then mkToken .break_ lexeme line
  else if lexeme = "else" then mkToken .else_ lexeme line
  else if lexeme = "false" then ⟨.false_, lexeme, .boolL false, line⟩
  else if lexeme = "func" then mkToken .func lexeme line
  else if lexeme = "for" then mkToken .for_ lexeme line
  else if lexeme = "if" then mkToken .if_ lexeme line
  else if lexeme = "null" then ⟨.null_, lexeme, .nullL, line⟩
  else if lexeme = "or" then mkToken .or_ lexeme line
  else if lexeme = "print" then mkToken .print lexeme line
  else if lexeme = "return" then mkToken .return_ lexeme line
  else if lexeme = "true" then ⟨.true_, lexeme, .boolL true, line⟩
  else if lexeme = "var" then mkToken .var_ lexeme line
  else if lexeme = "while" then mkToken .while_ lexeme line
  else mkToken .identifier lexeme line

/-- Is a word-continuation character (`is_ascii_alphanumeric() || '_'`)? -/
def isWordChar (c : Char) : Bool := c.isAlphanum || c = '_'

/-- The `InWord` state. -/
def scanWord (src : List Char) (acc : List Char) (line : Nat) : ScanOut :=
  match src with
  | [] => .ok (some (wordToken (String.mk acc) line), [], line)
  | c :: rest =>
      if isWordChar c then scanWord rest (acc ++ [c]) line
      else .ok (some (wordToken (String.mk acc) line), c :: rest, line)

/-- The `InComment` state: consume to the end of the line; the newline is
consumed and counted. -/
def scanComment (src : List Char) (line : Nat) : ScanOut :=
  match src with
  | [] => .ok (none, [], line)
  | c :: rest =>
      if c = '\n' then .ok (none, rest, line + 1)
      else scanComment rest line

/-- `Tokenizer::scan_token`: the `Start` state dispatch. -/
def scanToken (src : List Char) (line : Nat) : ScanOut :=
  match src with
  | [] => .ok (none, [], line)
  | c :: rest =>
      if c = '(' then .ok (some (mkToken .leftParen "(" line), rest, line)
      else if c = ')' then .ok (some (mkToken .rightParen ")" line), rest, line)
      else if c = '{' then .ok (some (mkToken .leftCurly "\x7b" line), rest, line)
      else if c = '}' then .ok (some (mkToken .rightCurly "\x7d" line), rest, line)
      else if c = '[' then .ok (some (mkToken .leftSquare "[" line), rest, line)
      else if c = ']' then .ok (some (mkToken .rightSquare "]" line), rest, line)
      else if c = ':' then .ok (some (mkToken .colon ":" line), rest, line)
      else if c = ',' then .ok (some (mkToken .comma "," line), rest, line)
      else if c = '-' then .ok (some (mkToken .minus "-" line), rest, line)
      else if c = '%' then .ok (some (mkToken .percent "%" line), rest, line)
      else if c = '+' then .ok (some (mkToken .plus "+" line), rest, line)
      else if c = ';' then .ok (some (mkToken .semicolon ";" line), rest, line)
      else if c = '/' then .ok (some (mkToken .slash "/" line), rest, line)
      else if c = '*' then .ok (some (mkToken .star "*" line), rest, line)
      else if c = '!' then scanTwoChar rest .bang "!" .bangEqual "!=" line
      else if c = '=' then scanTwoChar rest .equal "=" .equalEqual "==" line
      else if c = '>' then scanTwoChar rest .greater ">" .greaterEqual ">=" line
      else if c = '<' then scanTwoChar rest .less "<" .lessEqual "<=" line
      else if c = '"' then scanString rest [] '"' line
      else if c = '\'' then scanString rest [] '\'' line
      else if c.isDigit then scanNumberBeforeDot rest [c] line
      else if c.isAlpha || c = '_' then scanWord rest [c] line
      else if c = '#' then scanComment rest line
      else if c = ' ' || c = '\r' || c = '\t' then .ok (none, rest, line)
      else if c = '\n' then .ok (none, rest, line + 1)
      else .error (.unexpectedCharacter c line)

/-- The scan loop of `Tokenizer::tokenize`, with fuel bounding the number of
scans (each scan of a nonempty suffix consumes at least one character, so
`length + 1` scans always suffice). -/
def tokenizeLoop (fuel : Nat) (src : List Char) (line : Nat) (acc : List Token) :
    Option (Except ErrorType (List Token)) :=
  match fuel with
  | 0 => none
  | fuel + 1 =>
      match src with
      | [] => some (.ok (acc ++ [⟨.eof, "", .nullL, line⟩]))
      | _ :: _ =>
          match scanToken src line with
          | .error e => some (.error e)
          | .ok (tokOpt, rest, line') => tokenizeLoop fuel rest line' (acc ++ tokOpt.toList)

/-- `Tokenizer::tokenize`. -/
def tokenize (source : String) : Option (Except ErrorType (List Token)) :=
  tokenizeLoop (source.data.length + 1) source.data 1 []

/-! ## `parser.rs` -/

/-- `Parser`: the cursor state. -/
structure PState where
  tokens : List Token
  currentIndex : Nat
  currentLine : Nat

/-- `Parser::new`. -/
def PState.new (tokens : List Token) : PState := ⟨tokens, 0, 1⟩

/-- A production's failure: a genuine parse diagnostic, fuel exhaustion
(model artifact) or a host panic (out-of-bounds indexing in `sync`). -/
inductive PFail where
  | diag (e : ErrorType)
  | fuelOut
  | panicP

/-- Result of a production: the cursor state survives errors, since the Rust
parser mutates `self` in place before a production fails. -/
abbrev POut (α : Type) := PState × Except PFail α

/-- Success. -/
def pok {α : Type} (st : PState) (a : α) : POut α := (st, .ok a)

/-- Failure. -/
def perr {α : Type} (st : PState) (e : PFail) : POut α := (st, .error e)

/-- Sequencing: state and error propagate on failure. -/
def pbind {α β : Type} (x : POut α) (f : α → PState → POut β) : POut β :=
  match x with
  | (st, .ok a) => f a st
  | (st, .error e) => (st, .error e)

/-- `Parser::check_and_consume`. -/
def checkAndConsume (st : PState) (expectedTypes : List TokenType) :
    Option (Token × PState) :=
  match st.tokens.get? st.currentIndex with
  | some token =>
      if expectedTypes.contains token.type_ then
        some (token, { st with currentIndex := st.currentIndex + 1, currentLine := token.line })
      else none
  | none => none

/-- `Parser::check_next`. -/
def checkNext (st : PState) (expectedTypes : List TokenType) : Bool :=
  match st.tokens.get? st.currentIndex with
  | some token => expectedTypes.contains token.type_
  | none => false

/-- `Parser::expect`. -/
def expect (st : PState) (expectedType : TokenType) (expectedChar : Char) : POut Unit :=
  match checkAndConsume st [expectedType] with
  | none => perr st (.diag (.expectedCharacter expectedChar st.currentLine))
  | some (_, st') => pok st' ()

/-- `Parser::sync` with an internal step counter; each step advances the
cursor, so `tokens.length + 1` steps always suffice before either a
synchronisation token or the out-of-bounds `tokens[current_index]` access
(a host panic, modelled as `none`) is reached. -/
def syncFuel : Nat → PState → Option PState
  | 0, _ => none
  | fuel + 1, st =>
      if checkNext st [.eof, .for_, .func, .if_, .print, .return_, .var_, .while_] then
        some st
      else
        let idx := st.currentIndex + 1
        match st.tokens.get? idx with
        | none => none
        | some tok => syncFuel fuel { st with currentIndex := idx, currentLine := tok.line }

/-- `Parser::sync`. -/
def sync (st : PState) : Option PState := syncFuel (st.tokens.length + 1) st

mutual

/-- `Parser::statement`. -/
def pStatement : Nat → PState → POut Stmt
  | 0, st => perr st .fuelOut
  | fuel + 1, st =>
      match checkAndConsume st [.break_] with
      | some (_, st1) => pok st1 (.mk st1.currentLine .break_)
      | none =>
      match checkAndConsume st [.for_] with
      | some (_, st1) => pFor fuel st1
      | none =>
      match checkAndConsume st [.func] with
      | some (_, st1) => pFunction fuel st1
      | none =>
      match checkAndConsume st [.if_] with
      | some (_, st1) => pIf fuel st1
      | none =>
      match checkAndConsume st [.print] with
      | some (_, st1) => pPrint fuel st1
      | none =>
      match checkAndConsume st [.return_] with
      | some (_, st1) => pReturn fuel st1
      | none =>
      match checkAndConsume st [.var_] with
      | some (_, st1) => pVar fuel st1
      | none =>
      match checkAndConsume st [.while_] with
      | some (_, st1) => pWhile fuel st1
      | none =>
          pbind (pExpression fuel st) fun e st1 =>
            pok st1 (.mk st1.currentLine (.expression e))

/-- `Parser::block`. -/
def pBlock : Nat → PState → POut Stmt
  | 0, st => perr st .fuelOut
  | fuel + 1, st =>
      pbind (expect st .leftCurly '\x7b') fun _ st1 =>
      pbind (pBlockLoop fuel [] st1) fun statements st2 =>
      pbind (expect st2 .rightCurly '\x7d') fun _ st3 =>
        pok st3 (.mk st3.currentLine (.block statements))

/-- The `<statement>*` loop of `block`. -/
def pBlockLoop : Nat → List Stmt → PState → POut (List Stmt)
  | 0, _, st => perr st .fuelOut
  | fuel + 1, acc, st =>
      if checkNext st [.rightCurly, .eof] then pok st acc
      else pbind (pStatement fuel st) fun s st1 => pBlockLoop fuel (acc ++ [s]) st1

/-- `Parser::for_`: parse the three header slots and the body, then build
the while-loop rewrite. -/
def pFor : Nat → PState → POut Stmt
  | 0, st => perr st .fuelOut
  | fuel + 1, st =>
      match expect st .leftParen '(' with
      | (st1, .error e) => (st1, .error e)
      | (st1, .ok _) =>
          let initStep : POut (Option Stmt) :=
            if checkNext st1 [.semicolon] then pok st1 none
            else
              match pStatement fuel st1 with
              | (stA, .ok s) => pok stA (some s)
              | (stA, .error e) => (stA, .error e)
          match initStep with
          | (st2, .error e) => (st2, .error e)
          | (st2, .ok initialiser) =>
              match checkAndConsume st2 [.semicolon] with
              | none => perr st2 (.diag (.expectedSemicolonAfterInit st2.currentLine))
              | some (_, st3) =>
                  let condStep : POut Expr :=
                    if checkNext st3 [.semicolon] then
                      pok st3 (.mk st3.currentLine (.literal (.boolL true)))
                    else pExpression fuel st3
                  match condStep with
                  | (st4, .error e) => (st4, .error e)
                  | (st4, .ok condition) =>
                      match checkAndConsume st4 [.semicolon] with
                      | none => perr st4 (.diag (.expectedSemicolonAfterCondition st4.currentLine))
                      | some (_, st5) =>
                          let incStep : POut (Option Stmt) :=
                            if checkNext st5 [.rightParen] then pok st5 none
                            else
                              match pStatement fuel st5 with
                              | (stB, .ok s) => pok stB (some s)
                              | (stB, .error e) => (stB, .error e)
                          match incStep with
                          | (st6, .error e) => (st6, .error e)
                          | (st6, .ok increment) =>
                              match checkAndConsume st6 [.rightParen] with
                              | none => perr st6 (.diag (.expectedParenAfterIncrement st6.currentLine))
                              | some (_, st7) =>
                                  match pBlock fuel st7 with
                                  | (st8, .error e) => (st8, .error e)
                                  | (st8, .ok forBody) =>
                                      let whileBody :=
                                        Stmt.mk st8.currentLine (.block ([forBody] ++ increment.toList))
                                      let whileLoop :=
                                        Stmt.mk st8.currentLine (.while_ condition whileBody)
                                      match initialiser with
                                      | some init =>
                                          pok st8 (.mk st8.currentLine (.block [init, whileLoop]))
                                      | none => pok st8 whileLoop

/-- `Parser::function`. -/
def pFunction : Nat → PState → POut Stmt
  | 0, st => perr st .fuelOut
  | fuel + 1, st =>
      match checkAndConsume st [.identifier] with
      | none => perr st (.diag (.expectedFunctionName st.currentLine))
      | some (functionNameToken, st1) =>
          pbind (expect st1 .leftParen '(') fun _ st2 =>
          pbind (if checkNext st2 [.rightParen] then pok st2 [] else pParamLoop fuel [] st2)
            fun parameters st3 =>
          pbind (expect st3 .rightParen ')') fun _ st4 =>
          pbind (pBlock fuel st4) fun body st5 =>
            pok st5 (.mk st5.currentLine (.function_ functionNameToken.lexeme parameters body))

/-- The parameter-list loop of `function`. -/
def pParamLoop : Nat → List String → PState → POut (List String)
  | 0, _, st => perr st .fuelOut
  | fuel + 1, acc, st =>
      match checkAndConsume st [.identifier] with
      | none => perr st (.diag (.expectedParameterName st.currentLine))
      | some (parameter, st1) =>
          match checkAndConsume st1 [.comma] with
          | none => pok st1 (acc ++ [parameter.lexeme])
          | some (_, st2) => pParamLoop fuel (acc ++ [parameter.lexeme]) st2

/-- `Parser::if_`. -/
def pIf : Nat → PState → POut Stmt
  | 0, st => perr st .fuelOut
  | fuel + 1, st =>
      pbind (expect st .leftParen '(') fun _ st1 =>
      pbind (pExpression fuel st1) fun condition st2 =>
      pbind (expect st2 .rightParen ')') fun _ st3 =>
      pbind (pBlock fuel st3) fun thenBody st4 =>
        match checkAndConsume st4 [.else_] with
        | some (_, st5) =>
            pbind (pElse fuel st5) fun elseBody st6 =>
              pok st6 (.mk st6.currentLine (.if_ condition thenBody (some elseBody)))
        | none => pok st4 (.mk st4.currentLine (.if_ condition thenBody none))

/-- `Parser::else_`. -/
def pElse : Nat → PState → POut Stmt
  | 0, st => perr st .fuelOut
  | fuel + 1, st =>
      match checkAndConsume st [.if_] with
      | some (_, st1) => pIf fuel st1
      | none => pBlock fuel st

/-- `Parser::print`. -/
def pPrint : Nat → PState → POut Stmt
  | 0, st => perr st .fuelOut
  | fuel + 1, st =>
      pbind (pExpression fuel st) fun e st1 =>
        pok st1 (.mk st1.currentLine (.print e))

/-- `Parser::return_`. -/
def pReturn : Nat → PState → POut Stmt
  | 0, st => perr st .fuelOut
  | fuel + 1, st =>
      pbind (pExpression fuel st) fun e st1 =>
        pok st1 (.mk st1.currentLine (.return_ e))

/-- `Parser::var`. -/
def pVar : Nat → PState → POut Stmt
  | 0, st => perr st .fuelOut
  | fuel + 1, st =>
      match checkAndConsume st [.identifier] with
      | none => perr st (.diag (.expectedVariableName st.currentLine))
      | some (targetVariableToken, st1) =>
          pbind (expect st1 .equal '=') fun _ st2 =>
          pbind (pExpression fuel st2) fun value st3 =>
            pok st3 (.mk st3.currentLine (.varDecl targetVariableToken.lexeme value))

/-- `Parser::while_`. -/
def pWhile : Nat → PState → POut Stmt
  | 0, st => perr st .fuelOut
  | fuel + 1, st =>
      pbind (expect st .leftParen '(') fun _ st1 =>
      pbind (pExpression fuel st1) fun condition st2 =>
      pbind (expect st2 .rightParen ')') fun _ st3 =>
      pbind (pBlock fuel st3) fun body st4 =>
        pok st4 (.mk st4.currentLine (.while_ condition body))

/-- `Parser::expression`. -/
def pExpression : Nat → PState → POut Expr
  | 0, st => perr st .fuelOut
  | fuel + 1, st => pAssignment fuel st

/-- `Parser::assignment` (right-associative via recursion). -/
def pAssignment : Nat → PState → POut Expr
  | 0, st => perr st .fuelOut
  | fuel + 1, st =>
      pbind (pOr fuel st) fun expr st1 =>
        match checkAndConsume st1 [.equal] with
        | none => pok st1 expr
        | some (_, st2) =>
            pbind (pAssignment fuel st2) fun value st3 =>
              pok st3 (.mk st3.currentLine (.assignment expr value))

/-- `Parser::or`. -/
def pOr : Nat → PState → POut Expr
  | 0, st => perr st .fuelOut
  | fuel + 1, st => pbind (pAnd fuel st) fun expr st1 => pOrLoop fuel expr st1

/-- The `(Or <and>)*` loop. -/
def pOrLoop : Nat → Expr → PState → POut Expr
  | 0, _, st => perr st .fuelOut
  | fuel + 1, expr, st =>
      match checkAndConsume st [.or_] with
      | none => pok st expr
      | some (operator, st1) =>
          pbind (pAnd fuel st1) fun right st2 =>
            pOrLoop fuel (.mk st2.currentLine (.binary expr operator right)) st2

/-- `Parser::and`. -/
def pAnd : Nat → PState → POut Expr
  | 0, st => perr st .fuelOut
  | fuel + 1, st => pbind (pEquality fuel st) fun expr st1 => pAndLoop fuel expr st1

/-- The `(And <equality>)*` loop. -/
def pAndLoop : Nat → Expr → PState → POut Expr
  | 0, _, st => perr st .fuelOut
  | fuel + 1, expr, st =>
      match checkAndConsume st [.and_] with
      | none => pok st expr
      | some (operator, st1) =>
          pbind (pEquality fuel st1) fun right st2 =>
            pAndLoop fuel (.mk st2.currentLine (.binary expr operator right)) st2

/-- `Parser::equality`. -/
def pEquality : Nat → PState → POut Expr
  | 0, st => perr st .fuelOut
  | fuel + 1, st => pbind (pComparison fuel st) fun expr st1 => pEqualityLoop fuel expr st1

/-- The `((EqualEqual | BangEqual) <comparison>)*` loop. -/
def pEqualityLoop : Nat → Expr → PState → POut Expr
  | 0, _, st => perr st .fuelOut
  | fuel + 1, expr, st =>
      match checkAndConsume st [.equalEqual, .bangEqual] with
      | none => pok st expr
      | some (operator, st1) =>
          pbind (pComparison fuel st1) fun right st2 =>
            pEqualityLoop fuel (.mk st2.currentLine (.binary expr operator right)) st2

/-- `Parser::comparison`. -/
def pComparison : Nat → PState → POut Expr
  | 0, st => perr st .fuelOut
  | fuel + 1, st => pbind (pPlusMinus fuel st) fun expr st1 => pComparisonLoop fuel expr st1

/-- The `((Greater | Less | GreaterEqual | LessEqual) <plus_minus>)*` loop. -/
def pComparisonLoop : Nat → Expr → PState → POut Expr
  | 0, _, st => perr st .fuelOut
  | fuel + 1, expr, st =>
      match checkAndConsume st [.greater, .less, .greaterEqual, .lessEqual] with
      | none => pok st expr
      | some (operator, st1) =>
          pbind (pPlusMinus fuel st1) fun right st2 =>
            pComparisonLoop fuel (.mk st2.currentLine (.binary expr operator right)) st2

/-- `Parser::plus_minus`. -/
def pPlusMinus : Nat → PState → POut Expr
  | 0, st => perr st .fuelOut
  | fuel + 1, st =>
      pbind (pStarSlashPercent fuel st) fun expr st1 => pPlusMinusLoop fuel expr st1

/-- The `((Plus | Minus) <star_slash_percent>)*` loop. -/
def pPlusMinusLoop : Nat → Expr → PState → POut Expr
  | 0, _, st => perr st .fuelOut
  | fuel + 1, expr, st =>
      match checkAndConsume st [.plus, .minus] with
      | none => pok st expr
      | some (operator, st1) =>
          pbind (pStarSlashPercent fuel st1) fun right st2 =>
            pPlusMinusLoop fuel (.mk st2.currentLine (.binary expr operator right)) st2

/-- `Parser::star_slash_percent`. -/
def pStarSlashPercent : Nat → PState → POut Expr
  | 0, st => perr st .fuelOut
  | fuel + 1, st =>
      pbind (pUnary fuel st) fun expr st1 => pStarSlashPercentLoop fuel expr st1

/-- The `((Star | Slash | Percent) <unary>)*` loop. -/
def pStarSlashPercentLoop : Nat → Expr → PState → POut Expr
  | 0, _, st => perr st .fuelOut
  | fuel + 1, expr, st =>
      match checkAndConsume st [.star, .slash, .percent] with
      | none => pok st expr
      | some (operator, st1) =>
          pbind (pUnary fuel st1) fun right st2 =>
            pStarSlashPercentLoop fuel (.mk st2.currentLine (.binary expr operator right)) st2

/-- `Parser::unary`. -/
def pUnary : Nat → PState → POut Expr
  | 0, st => perr st .fuelOut
  | fuel + 1, st =>
      match checkAndConsume st [.bang, .minus] with
      | some (operator, st1) =>
          pbind (pUnary fuel st1) fun right st2 =>
            pok st2 (.mk st2.currentLine (.unary operator right))
      | none => pElement fuel st

/-- `Parser::element`. -/
def pElement : Nat → PState → POut Expr
  | 0, st => perr st .fuelOut
  | fuel + 1, st => pbind (pCall fuel st) fun expr st1 => pElementLoop fuel expr st1

/-- The `(LeftSquare <expression> RightSquare)*` loop. -/
def pElementLoop : Nat → Expr → PState → POut Expr
  | 0, _, st => perr st .fuelOut
  | fuel + 1, expr, st =>
      match checkAndConsume st [.leftSquare] with
      | none => pok st expr
      | some (_, st1) =>
          pbind (pExpression fuel st1) fun index st2 =>
            let expr' := Expr.mk st2.currentLine (.element expr index)
            pbind (expect st2 .rightSquare ']') fun _ st3 =>
              pElementLoop fuel expr' st3

/-- `Parser::call`. -/
def pCall : Nat → PState → POut Expr
  | 0, st => perr st .fuelOut
  | fuel + 1, st => pbind (pPrimary fuel st) fun expr st1 => pCallLoop fuel expr st1

/-- The `(LeftParen .. RightParen)*` loop of `call`. -/
def pCallLoop : Nat → Expr → PState → POut Expr
  | 0, _, st => perr st .fuelOut
  | fuel + 1, expr, st =>
      match checkAndConsume st [.leftParen] with
      | none => pok st expr
      | some (_, st1) =>
          pbind (if checkNext st1 [.rightParen] then pok st1 [] else pExprCommaLoop fuel [] st1)
            fun arguments st2 =>
          pbind (expect st2 .rightParen ')') fun _ st3 =>
            pCallLoop fuel (.mk st3.currentLine (.call expr arguments)) st3

/-- The comma-separated expression loop shared (identically) by the call
arguments and the array-literal elements. -/
def pExprCommaLoop : Nat → List Expr → PState → POut (List Expr)
  | 0, _, st => perr st .fuelOut
  | fuel + 1, acc, st =>
      pbind (pExpression fuel st) fun e st1 =>
        match checkAndConsume st1 [.comma] with
        | none => pok st1 (acc ++ [e])
        | some (_, st2) => pExprCommaLoop fuel (acc ++ [e]) st2

/-- The key-value loop of the dictionary literal. -/
def pDictLoop : Nat → List (KeyValue Expr) → PState → POut (List (KeyValue Expr))
  | 0, _, st => perr st .fuelOut
  | fuel + 1, acc, st =>
      pbind (pExpression fuel st) fun key st1 =>
        match checkAndConsume st1 [.colon] with
        | none => perr st1 (.diag (.expectedColonAfterKey st1.currentLine))
        | some (_, st2) =>
            pbind (pExpression fuel st2) fun value st3 =>
              match checkAndConsume st3 [.comma] with
              | none => pok st3 (acc ++ [⟨key, value⟩])
              | some (_, st4) => pDictLoop fuel (acc ++ [⟨key, value⟩]) st4

/-- `Parser::primary`. -/
def pPrimary : Nat → PState → POut Expr
  | 0, st => perr st .fuelOut
  | fuel + 1, st =>
      match checkAndConsume st [.string_, .number, .true_, .false_, .null_] with
      | some (token, st1) => pok st1 (.mk st1.currentLine (.literal token.literal))
      | none =>
      match checkAndConsume st [.leftParen] with
      | some (_, st1) =>
          pbind (pExpression fuel st1) fun e st2 =>
          pbind (expect st2 .rightParen ')') fun _ st3 =>
            pok st3 (.mk st3.currentLine (.grouping e))
      | none =>
      match checkAndConsume st [.leftSquare] with
      | some (_, st1) =>
          pbind (if checkNext st1 [.rightSquare] then pok st1 [] else pExprCommaLoop fuel [] st1)
            fun elements st2 =>
          pbind (expect st2 .rightSquare ']') fun _ st3 =>
            pok st3 (.mk st3.currentLine (.arrayE elements))
      | none =>
      match checkAndConsume st [.leftCurly] with
      | some (_, st1) =>
          pbind (if checkNext st1 [.rightCurly] then pok st1 [] else pDictLoop fuel [] st1)
            fun elements st2 =>
          pbind (expect st2 .rightCurly '\x7d') fun _ st3 =>
            pok st3 (.mk st3.currentLine (.dictionaryE elements))
      | none =>
      match checkAndConsume st [.identifier] with
      | some (identifier, st1) => pok st1 (.mk st1.currentLine (.variable identifier.lexeme))
      | none => perr st (.diag (.expectedExpression st.currentLine))

end

/-- The top-level loop of `Parser::parse`: collect statements, record
diagnostics, and synchronise after each failed production. -/
def parseLoop : Nat → PState → List Stmt → List ErrorType →
    PState × Except PFail (List Stmt × List ErrorType)
  | 0, st, _, _ => perr st .fuelOut
  | fuel + 1, st, statements, errors =>
      if checkNext st [.eof] then pok st (statements, errors)
      else
        match pStatement fuel st with
        | (st1, .ok stmt) => parseLoop fuel st1 (statements ++ [stmt]) errors
        | (st1, .error (.diag e)) =>
            match sync st1 with
            | some st2 => parseLoop fuel st2 statements (errors ++ [e])
            | none => perr st1 .panicP
        | (st1, .error e) => (st1, .error e)

/-- `Parser::parse`: either the statement list, or the non-empty diagnostic
list collected during the pass. -/
def parse (fuel : Nat) (tokens : List Token) :
    Except PFail (Except (List ErrorType) (List Stmt)) :=
  match parseLoop fuel (PState.new tokens) [] [] with
  | (_, .error e) => .error e
  | (_, .ok (statements, errors)) =>
      if errors.isEmpty then .ok (.ok statements) else .ok (.error errors)

end Neal

namespace Neal

/-! ## Helper definitions for the claim theorems -/

/-- Does the base of an assignment target (the expression under all the
index nestings) name a variable? -/
def exprBaseIsVariable : Expr → Bool
  | .mk _ (.element a _) => exprBaseIsVariable a
  | .mk _ (.variable _) => true
  | _ => false

/-- Depth of the index nesting above the base of an assignment target. -/
def elementChainLen : Expr → Nat
  | .mk _ (.element a _) => elementChainLen a + 1
  | _ => 0

/-- Is a value a `String`? -/
def isStringValue : Value → Bool
  | .string_ _ => true
  | _ => false

/-- The two-statement program of claim C2:
`var d = {"x": 1} d["y"] = 2 print size(d)`. -/
def progC2 : List Stmt := [
  .mk 1 (.varDecl "d" (.mk 1 (.dictionaryE
    [⟨.mk 1 (.literal (.stringL "x")), .mk 1 (.literal (.numberL (.num 1)))⟩]))),
  .mk 1 (.expression (.mk 1 (.assignment
    (.mk 1 (.element (.mk 1 (.variable "d")) (.mk 1 (.literal (.stringL "y")))))
    (.mk 1 (.literal (.numberL (.num 2))))))),
  .mk 1 (.print (.mk 1 (.call (.mk 1 (.variable "size")) [.mk 1 (.variable "d")])))]

/-! ## Claim C2 -/

/-- **C2** (code bug).  The spec claims the program
`var d = {"x": 1} d["y"] = 2 print size(d)` writes exactly `2` and a newline
to standard output.  In fact the leftover debug `println!` in
`HashTable::get_bucket_number` fires on each of the two hash-table inserts,
so the program writes the two hash values `46931` and `46932` (each with a
newline) before the `2`; execution still succeeds. -/
theorem c2_debug_output :
    (interpret 100 progC2 (initState [])).1.output = ["46931\n", "46932\n", "2\n"] ∧
    (interpret 100 progC2 (initState [])).2.isNone = true := by
  constructor
  · decide
  · decide

/-! ## Claim C1 -/

/-- `construct_pointer` on a target whose base is not a variable: the
`InvalidAssignmentTarget` error of the base bubbles up through the index
nesting, before any index expression is evaluated, leaving the state
unchanged. -/
theorem constructPointer_nonvar (fuel : Nat) (e : Expr) (line : Nat) (s : TState)
    (hbase : exprBaseIsVariable e = false) (hlen : elementChainLen e < fuel) :
    constructPointer fuel e line s = (s, .error (.err (.invalidAssignmentTarget line))) := by
  induction fuel generalizing e with
  | zero => omega
  | succ fuel ih =>
      match e with
      | .mk l (.element a i) =>
          have hbase' : exprBaseIsVariable a = false := hbase
          have hlen' : elementChainLen a < fuel := by
            have : elementChainLen (.mk l (.element a i)) = elementChainLen a + 1 := rfl
            omega
          show mbind (constructPointer fuel a line s) _ = _
          rw [ih a hbase' hlen']
          rfl
      | .mk l (.variable n) => simp [exprBaseIsVariable] at hbase
      | .mk l (.arrayE es) => rfl
      | .mk l (.assignment t v) => rfl
      | .mk l (.binary a o b) => rfl
      | .mk l (.call c as) => rfl
      | .mk l (.dictionaryE es) => rfl
      | .mk l (.grouping g) => rfl
      | .mk l (.literal v) => rfl
      | .mk l (.unary o r) => rfl

/-- **C1** (counterexample).  The spec claims assignment to a target whose
base is a literal container raises no error and silently skips the update.
In fact `a[0] = 5` with `a` the literal array `[1, 2]` raises
`InvalidAssignmentTarget`: the sentinel-swallowing path the spec describes
is dead code, since `construct_pointer` returns the error through `?`. -/
theorem c1_literal_target_errors :
    evaluate 10 (.mk 7 (.assignment
      (.mk 7 (.element
        (.mk 7 (.arrayE [.mk 7 (.literal (.numberL (.num 1))),
                         .mk 7 (.literal (.numberL (.num 2)))]))
        (.mk 7 (.literal (.numberL (.num 0))))))
      (.mk 7 (.literal (.numberL (.num 5)))))) (initState [])
      = (initState [], .error (.err (.invalidAssignmentTarget 7))) := rfl

/-- **C1** (amended).  For every assignment whose target's base is not a
variable: if the right-hand side evaluates successfully, the whole
assignment expression raises `InvalidAssignmentTarget` (at the assignment's
line) instead of silently skipping the update and returning the value. -/
theorem c1_amended (fuel : Nat) (target value : Expr) (line : Nat) (s s1 : TState)
    (rv : Value)
    (hbase : exprBaseIsVariable target = false)
    (hlen : elementChainLen target < fuel)
    (hval : evaluate fuel value s = (s1, .ok rv)) :
    evaluate (fuel + 1) (.mk line (.assignment target value)) s
      = (s1, .error (.err (.invalidAssignmentTarget line))) := by
  simp only [evaluate]
  rw [hval]
  dsimp only
  rw [constructPointer_nonvar fuel target line s1 hbase hlen]

/-- **C1** (witness): the amended theorem at the concrete assignment
`[] = 5` on line 3. -/
theorem c1_amended_witness :
    exprBaseIsVariable (.mk 3 (.arrayE [])) = false ∧
    elementChainLen (.mk 3 (.arrayE [])) < 1 ∧
    evaluate 1 (.mk 3 (.literal (.numberL (.num 5)))) (initState [])
      = (initState [], .ok (.number (.num 5))) ∧
    evaluate 2 (.mk 3 (.assignment (.mk 3 (.arrayE []))
        (.mk 3 (.literal (.numberL (.num 5)))))) (initState [])
      = (initState [], .error (.err (.invalidAssignmentTarget 3))) :=
  ⟨rfl, by decide, rfl,
    c1_amended 1 (.mk 3 (.arrayE [])) (.mk 3 (.literal (.numberL (.num 5)))) 3
      (initState []) (initState []) (.number (.num 5)) rfl (by decide) rfl⟩


/-! ## Claim C3 -/

/-- **C3** (counterexample).  The spec claims a terminal write into a
`String` succeeds exactly when the assigned value is a `String` of length 1.
In fact the length is never checked: writing the two-character string `"ZZ"`
at index 0 of `"ab"` succeeds and splices the whole string in, producing
`"ZZb"`. -/
theorem c3_no_length_check :
    terminalWrite (.string_ "ab") (.number (.num 0)) (.string_ "ZZ") 1
      = .ok (.string_ "ZZb", []) := rfl

/-- **C3** (amended).  For every terminal write through a `Pointer` whose
final container is a `String`, with a whole non-negative `Number` index: if
the index is out of range the update fails with `OutOfBoundsIndex`;
otherwise it succeeds exactly when the assigned value is a `String` of
**any** length (the whole assigned string is spliced in at that position —
no length-1 check is enforced), and any non-`String` assigned value fails
with `InsertNonStringIntoString`. -/
theorem c3_amended (s : String) (q : ℚ) (w : Value) (c : String) (line : Nat)
    (hq : (F64.num q).isWholeNonneg = true) :
    (s.length ≤ (F64.num q).toUsize →
      terminalWrite (.string_ s) (.number (.num q)) w line
        = .error (.err (.outOfBoundsIndex (F64.num q).toUsize line))) ∧
    ((F64.num q).toUsize < s.length →
      terminalWrite (.string_ s) (.number (.num q)) (.string_ c) line
        = .ok (.string_ (String.mk (s.data.take (F64.num q).toUsize ++ c.data ++
            s.data.drop ((F64.num q).toUsize + 1))), [])) ∧
    ((F64.num q).toUsize < s.length → isStringValue w = false →
      terminalWrite (.string_ s) (.number (.num q)) w line
        = .error (.err (.insertNonStringIntoString line))) := by
  have hidx : indexValueToUsize (.number (.num q)) line = .ok (F64.num q).toUsize := by
    simp [indexValueToUsize, hq]
  have hred : ∀ w : Value, terminalWrite (.string_ s) (.number (.num q)) w line
      = (if s.length ≤ (F64.num q).toUsize then
           .error (.err (.outOfBoundsIndex (F64.num q).toUsize line))
         else match w with
           | .string_ c => .ok (.string_ (String.mk (s.data.take (F64.num q).toUsize ++
               c.data ++ s.data.drop ((F64.num q).toUsize + 1))), [])
           | _ => .error (.err (.insertNonStringIntoString line))) := by
    intro w
    simp only [terminalWrite]
    rw [hidx]
    rfl
  refine ⟨fun hle => ?_, fun hlt => ?_, fun hlt hw => ?_⟩
  · rw [hred w, if_pos hle]
  · rw [hred (.string_ c), if_neg (by omega)]
  · rw [hred w, if_neg (by omega)]
    match w, hw with
    | .number x, _ => rfl
    | .bool_ b, _ => rfl
    | .array es, _ => rfl
    | .dictionary bk e cc, _ => rfl
    | .function_ p b, _ => rfl
    | .builtinFunction f, _ => rfl
    | .null_, _ => rfl

/-- **C3** (witness): the amended theorem at `"ab"`, index 0, with the
two-character replacement `"ZZ"` and with the non-string value `Null`. -/
theorem c3_amended_witness :
    (F64.num 0).isWholeNonneg = true ∧
    (F64.num 0).toUsize < "ab".length ∧
    terminalWrite (.string_ "ab") (.number (.num 0)) (.string_ "ZZ") 1
      = .ok (.string_ (String.mk ("ab".data.take (F64.num 0).toUsize ++ "ZZ".data ++
          "ab".data.drop ((F64.num 0).toUsize + 1))), []) ∧
    terminalWrite (.string_ "ab") (.number (.num 0)) .null_ 1
      = .error (.err (.insertNonStringIntoString 1)) :=
  ⟨by decide, by decide,
    (c3_amended "ab" 0 .null_ "ZZ" 1 (by decide)).2.1 (by decide),
    (c3_amended "ab" 0 .null_ "ZZ" 1 (by decide)).2.2 (by decide) (by decide)⟩

/-! ## Claim C4 -/

/-- On a digit, the `Start` state of `scan_token` enters the
`InNumberBeforeDot` state. -/
theorem scanToken_digit (c : Char) (rest : List Char) (line : Nat)
    (h : c.isDigit = true) :
    scanToken (c :: rest) line = scanNumberBeforeDot rest [c] line := by
  have hne : ∀ x : Char, x.isDigit = false → ¬(c = x) := by
    intro x hx hcx
    rw [hcx, hx] at h
    cases h
  simp only [scanToken]
  rw [if_neg (hne '(' (by decide)), if_neg (hne ')' (by decide)),
    if_neg (hne '{' (by decide)), if_neg (hne '}' (by decide)),
    if_neg (hne '[' (by decide)), if_neg (hne ']' (by decide)),
    if_neg (hne ':' (by decide)), if_neg (hne ',' (by decide)),
    if_neg (hne '-' (by decide)), if_neg (hne '%' (by decide)),
    if_neg (hne '+' (by decide)), if_neg (hne ';' (by decide)),
    if_neg (hne '/' (by decide)), if_neg (hne '*' (by decide)),
    if_neg (hne '!' (by decide)), if_neg (hne '=' (by decide)),
    if_neg (hne '>' (by decide)), if_neg (hne '<' (by decide)),
    if_neg (hne '"' (by decide)), if_neg (hne '\'' (by decide)),
    if_pos h]

/-- Scanning a run of digits followed by a dot: the whole run **and the
dot** are consumed into the lexeme, and the DFA moves to
`InNumberAfterDot`, whatever follows the dot. -/
theorem scanNumberBeforeDot_digits (ds : List Char) (h : ∀ c ∈ ds, c.isDigit = true)
    (rest acc : List Char) (line : Nat) :
    scanNumberBeforeDot (ds ++ '.' :: rest) acc line
      = scanNumberAfterDot rest ((acc ++ ds) ++ ['.']) line := by
  induction ds generalizing acc with
  | nil => simp [scanNumberBeforeDot]
  | cons d ds ih =>
      have hd : d.isDigit = true := h d (List.mem_cons_self d ds)
      have hdot : ¬(d = '.') := by
        rintro rfl
        cases hd
      have hcons : (d :: ds) ++ '.' :: rest = d :: (ds ++ '.' :: rest) := rfl
      rw [hcons]
      show (if d = '.' then scanNumberAfterDot (ds ++ '.' :: rest) (acc ++ [d]) line
        else if d.isDigit then scanNumberBeforeDot (ds ++ '.' :: rest) (acc ++ [d]) line
        else .ok (some ⟨.number, String.mk acc, numberLiteralOf acc, line⟩,
          d :: (ds ++ '.' :: rest), line)) = _
      rw [if_neg hdot, if_pos hd,
        ih (fun c hc => h c (List.mem_cons_of_mem d hc)) (acc ++ [d])]
      simp

/-- **C4** (counterexample).  The spec claims a `.` is consumed into a
number literal only when a digit follows, and that `5.` lexes as the number
then an `UnexpectedCharacter` error for the dot.  In fact the dot is
consumed unconditionally: `5.` lexes cleanly as the single `Number` token
with lexeme `5.` (value 5), followed by end-of-file. -/
theorem c4_trailing_dot_consumed :
    tokenize "5." = some (.ok [⟨.number, "5.", .numberL (.num 5), 1⟩,
      ⟨.eof, "", .nullL, 1⟩]) := rfl

/-- **C4** (amended).  For every number literal (a nonempty run of digits)
followed immediately by a dot at the end of the input: the digits **and the
dot** lex as one `Number` token; no `UnexpectedCharacter` error is
produced. -/
theorem c4_amended (d : Char) (ds : List Char)
    (hd : d.isDigit = true) (hds : ∀ c ∈ ds, c.isDigit = true) :
    tokenize (String.mk (d :: (ds ++ ['.'])))
      = some (.ok [⟨.number, String.mk (d :: (ds ++ ['.'])),
          numberLiteralOf (d :: (ds ++ ['.'])), 1⟩, ⟨.eof, "", .nullL, 1⟩]) := by
  have hstep : scanToken (d :: (ds ++ ['.'])) 1
      = .ok (some ⟨.number, String.mk (d :: (ds ++ ['.'])),
          numberLiteralOf (d :: (ds ++ ['.'])), 1⟩, [], 1) := by
    rw [scanToken_digit d (ds ++ ['.']) 1 hd]
    have h2 : ds ++ ['.'] = ds ++ '.' :: ([] : List Char) := rfl
    rw [h2, scanNumberBeforeDot_digits ds hds [] [d] 1]
    show scanNumberAfterDot [] (([d] ++ ds) ++ ['.']) 1 = _
    have h3 : ([d] ++ ds) ++ ['.'] = d :: (ds ++ ['.']) := by simp
    rw [h3]
    rfl
  have hlen : (String.mk (d :: (ds ++ ['.']))).data = d :: (ds ++ ['.']) := rfl
  have hfuel : (d :: (ds ++ ['.'])).length + 1 = (ds.length + 2) + 1 := by simp
  simp only [tokenize, hlen, hfuel]
  show (match d :: (ds ++ ['.']) with
    | [] => some (Except.ok (([] : List Token) ++ [(⟨.eof, "", .nullL, 1⟩ : Token)]))
    | _ :: _ =>
        match scanToken (d :: (ds ++ ['.'])) 1 with
        | Except.error e => some (Except.error e)
        | Except.ok (tokOpt, rest, lineN) =>
            tokenizeLoop (ds.length + 2) rest lineN (([] : List Token) ++ tokOpt.toList))
      = _
  rw [hstep]
  rfl

/-- **C4** (witness): the amended theorem at the input `7.`. -/
theorem c4_amended_witness :
    ('7'.isDigit = true) ∧
    tokenize (String.mk ('7' :: ([] ++ ['.'])))
      = some (.ok [⟨.number, String.mk ('7' :: ([] ++ ['.'])),
          numberLiteralOf ('7' :: ([] ++ ['.'])), 1⟩, ⟨.eof, "", .nullL, 1⟩]) :=
  ⟨by decide, c4_amended '7' [] (by decide) (by intro c hc; cases hc)⟩

/-! ## Claim C10 -/

/-- A number-literal expression (used to state the binary-operator
claims). -/
def numLitE (l : Nat) (x : F64) : Expr := .mk l (.literal (.numberL x))

/-- The value of a literal (the `Literal` branch of `evaluate`). -/
def litVal : Literal → Value
  | .numberL x => .number x
  | .stringL s => .string_ s
  | .boolL b => .bool_ b
  | .nullL => .null_

/-- Evaluating a literal expression succeeds with its value and leaves the
state unchanged. -/
theorem evaluate_literal (fuel : Nat) (l : Nat) (v : Literal) (s : TState) :
    evaluate (fuel + 1) (.mk l (.literal v)) s = (s, .ok (litVal v)) := by
  cases v <;> rfl

/-- **C10**.  For number operands, `/` raises `DivideByZero` exactly when
the right operand equals `0.0` under IEEE comparison (so `NaN` does not
trigger it); over all literal operands, `/` is the only binary operator
whose evaluation can produce a `DivideByZero` error; and `%` with right
operand `0` raises no error, returning the `Number` result of the
truncated-remainder rule (`NaN` for `x % 0.0`). -/
theorem c10_divide_by_zero (fuel : Nat) (s : TState) (l ll rl : Nat) (x y : F64) :
    (evaluate (fuel + 2)
        (.mk l (.binary (numLitE ll x) ⟨.slash, "/", .nullL, 1⟩ (numLitE rl y))) s
      = if F64.ieeeEq y F64.zero then (s, .error (.err (.divideByZero rl)))
        else (s, .ok (.number (F64.div x y)))) ∧
    (∀ (op : TokenType) (lex : String) (v w : Literal) (e : ErrorType) (s' : TState),
      evaluate (fuel + 2)
          (.mk l (.binary (.mk ll (.literal v)) ⟨op, lex, .nullL, 1⟩ (.mk rl (.literal w)))) s
        = (s', .error (.err e)) → e.tag = 20 → op = .slash) ∧
    (evaluate (fuel + 2)
        (.mk l (.binary (numLitE ll x) ⟨.percent, "%", .nullL, 1⟩ (numLitE rl (.num 0)))) s
      = (s, .ok (.number (F64.rem x (.num 0))))) := by
  refine ⟨?_, ?_, ?_⟩
  · simp only [numLitE, evaluate]
    dsimp only [mbind, mok, merr, Expr.line]
  · intro op lex v w e s' heval htag
    simp only [evaluate] at heval
    cases op <;>
      first
        | rfl
        | (cases v <;> cases w <;>
            dsimp only [mbind, mok, merr] at heval <;>
            injection heval with h1 h2 <;>
            cases h2 <;>
            simp [ErrorType.tag] at htag)
  · simp only [numLitE, evaluate]
    rfl

/-- **C10** (witness): `6 / 0` raises `DivideByZero` at the divisor's line,
`6 % 0` evaluates to the number `NaN` with no error, and the
only-`/`-raises clause applied at the slash instance. -/
theorem c10_witness :
    (evaluate 2 (.mk 1 (.binary (numLitE 1 (.num 6)) ⟨.slash, "/", .nullL, 1⟩
        (numLitE 2 (.num 0)))) (initState [])
      = (initState [], .error (.err (.divideByZero 2)))) ∧
    (evaluate 2 (.mk 1 (.binary (numLitE 1 (.num 6)) ⟨.percent, "%", .nullL, 1⟩
        (numLitE 2 (.num 0)))) (initState [])
      = (initState [], .ok (.number (F64.rem (.num 6) (.num 0))))) ∧
    TokenType.slash = TokenType.slash := by
  have h1 := (c10_divide_by_zero 0 (initState []) 1 1 2 (.num 6) (.num 0)).1
  rw [if_pos (by decide)] at h1
  refine ⟨h1, (c10_divide_by_zero 0 (initState []) 1 1 2 (.num 6) (.num 0)).2.2, ?_⟩
  exact (c10_divide_by_zero 0 (initState []) 1 1 2 (.num 6) (.num 0)).2.1
    .slash "/" (.numberL (.num 6)) (.numberL (.num 0)) (.divideByZero 2) (initState [])
    h1 (by decide)

/-! ## Claim C8 -/

/-- The error accumulator of `parseLoop` only grows: every diagnostic
recorded before a successful return is in the returned list. -/
theorem parseLoop_accum (fuel : Nat) :
    ∀ (st : PState) (stmts : List Stmt) (errs : List ErrorType) (st' : PState)
      (res : List Stmt × List ErrorType),
      parseLoop fuel st stmts errs = (st', .ok res) → ∃ tail, res.2 = errs ++ tail := by
  induction fuel with
  | zero =>
      intro st stmts errs st' res h
      simp only [parseLoop, perr] at h
      injection h with h1 h2
      cases h2
  | succ fuel ih =>
      intro st stmts errs st' res h
      simp only [parseLoop] at h
      by_cases hc : checkNext st [.eof] = true
      · rw [if_pos hc] at h
        simp only [pok] at h
        injection h with h1 h2
        injection h2 with h3
        subst h3
        exact ⟨[], by simp⟩
      · rw [if_neg hc] at h
        rcases hps : pStatement fuel st with ⟨st1, res1⟩
        rw [hps] at h
        match res1 with
        | .ok stmt => exact ih _ _ _ _ _ h
        | .error (.diag e) =>
            dsimp only at h
            rcases hsy : sync st1 with _ | st2
            · rw [hsy] at h
              simp only [perr] at h
              injection h with h1 h2
              cases h2
            · rw [hsy] at h
              obtain ⟨tail, ht⟩ := ih _ _ _ _ _ h
              exact ⟨e :: tail, by rw [ht]; simp⟩
        | .error .fuelOut =>
            dsimp only at h
            injection h with h1 h2
            cases h2
        | .error .panicP =>
            dsimp only at h
            injection h with h1 h2
            cases h2

/-- **C8**.  For every token sequence and fuel, when the parse pass
completes (no model fuel exhaustion and no `sync` host panic), `parse`
returns either a statement list or a non-empty diagnostic list, never both:
the `Ok` side is taken exactly when the collected error list is empty.
Moreover every diagnostic recorded during the pass is in the returned
list (the accumulator only grows). -/
theorem c8_parse_dichotomy :
    (∀ (fuel : Nat) (tokens : List Token) (r : Except (List ErrorType) (List Stmt)),
      parse fuel tokens = .ok r →
        (∃ stmts, r = .ok stmts) ∨ (∃ errs, r = .error errs ∧ errs ≠ [])) ∧
    (∀ (fuel : Nat) (st : PState) (stmts : List Stmt) (errs : List ErrorType)
      (st' : PState) (res : List Stmt × List ErrorType),
      parseLoop fuel st stmts errs = (st', .ok res) → ∃ tail, res.2 = errs ++ tail) := by
  refine ⟨?_, fun fuel => parseLoop_accum fuel⟩
  intro fuel tokens r h
  unfold parse at h
  rcases hpl : parseLoop fuel (PState.new tokens) [] [] with ⟨stf, resf⟩
  rw [hpl] at h
  match resf with
  | .error e => dsimp only at h; cases h
  | .ok (statements, errors) =>
      dsimp only at h
      by_cases he : errors.isEmpty
      · rw [if_pos he] at h
        injection h with h1
        exact Or.inl ⟨statements, h1.symm⟩
      · rw [if_neg he] at h
        injection h with h1
        refine Or.inr ⟨errors, h1.symm, ?_⟩
        intro hnil
        exact he (by rw [hnil]; rfl)

/-- **C8** (witness): the dichotomy applied to the empty program (a lone
end-of-file token parses to the empty statement list) and the accumulation
clause applied to the same parse. -/
theorem c8_witness :
    (parse 5 [⟨.eof, "", .nullL, 1⟩] = .ok (.ok []) ∧
      ((∃ stmts, (.ok [] : Except (List ErrorType) (List Stmt)) = .ok stmts) ∨
        (∃ errs, (.ok [] : Except (List ErrorType) (List Stmt)) = .error errs ∧ errs ≠ []))) ∧
    (parseLoop 5 (PState.new [⟨.eof, "", .nullL, 1⟩]) [] []
        = (PState.new [⟨.eof, "", .nullL, 1⟩], .ok ([], [])) ∧
      ∃ tail, ([] : List ErrorType) = [] ++ tail) :=
  ⟨⟨rfl, c8_parse_dichotomy.1 5 [⟨.eof, "", .nullL, 1⟩] (.ok []) rfl⟩,
   ⟨rfl, c8_parse_dichotomy.2 5 (PState.new [⟨.eof, "", .nullL, 1⟩]) [] []
      (PState.new [⟨.eof, "", .nullL, 1⟩]) ([], []) rfl⟩⟩




/-! ## Claim C7 -/

/-- The parse-time rewrite of `for (I; C; U) B` as the spec states it:
`{ I ; while (C) { { B } ; U } }`.  An absent initialiser yields the bare
while loop; an absent increment leaves only the wrapped body. -/
def forRewrite (ln : Nat) (initialiser : Option Stmt) (condition : Expr)
    (forBody : Stmt) (increment : Option Stmt) : Stmt :=
  let whileLoop :=
    Stmt.mk ln (.while_ condition (.mk ln (.block ([forBody] ++ increment.toList))))
  match initialiser with
  | some init => .mk ln (.block [init, whileLoop])
  | none => whileLoop

/-- The optional initialiser slot of the for header: absent exactly when the
next token is a semicolon, otherwise the parser's own `statement`
production. -/
def pForInit (fuel : Nat) (st : PState) : POut (Option Stmt) :=
  if checkNext st [.semicolon] then pok st none
  else
    match pStatement fuel st with
    | (stA, .ok s) => pok stA (some s)
    | (stA, .error e) => (stA, .error e)

/-- The optional condition slot of the for header: the literal `true` (at the
current line) exactly when the next token is a semicolon, otherwise the
parser's own `expression` production. -/
def pForCond (fuel : Nat) (st : PState) : POut Expr :=
  if checkNext st [.semicolon] then
    pok st (.mk st.currentLine (.literal (.boolL true)))
  else pExpression fuel st

/-- The optional increment slot of the for header: absent exactly when the
next token is a right parenthesis, otherwise the parser's own `statement`
production. -/
def pForInc (fuel : Nat) (st : PState) : POut (Option Stmt) :=
  if checkNext st [.rightParen] then pok st none
  else
    match pStatement fuel st with
    | (stA, .ok s) => pok stA (some s)
    | (stA, .error e) => (stA, .error e)

/-- An error-first match on a `POut Unit` is `pbind`. -/
theorem pbindUnitEqv (x : POut Unit) (f : Unit → PState → POut Stmt) :
    (match x with
     | (s, .error e) => (s, .error e)
     | (s, .ok a) => f a s) = pbind x f := by
  rcases x with ⟨s, e | a⟩ <;> rfl

/-- An error-first match on a `POut (Option Stmt)` is `pbind`. -/
theorem pbindOptEqv (x : POut (Option Stmt)) (f : Option Stmt → PState → POut Stmt) :
    (match x with
     | (s, .error e) => (s, .error e)
     | (s, .ok a) => f a s) = pbind x f := by
  rcases x with ⟨s, e | a⟩ <;> rfl

/-- An error-first match on a `POut Expr` is `pbind`. -/
theorem pbindExprEqv (x : POut Expr) (f : Expr → PState → POut Stmt) :
    (match x with
     | (s, .error e) => (s, .error e)
     | (s, .ok a) => f a s) = pbind x f := by
  rcases x with ⟨s, e | a⟩ <;> rfl

/-- An error-first match on a `POut Stmt` is `pbind`. -/
theorem pbindStmtEqv (x : POut Stmt) (f : Stmt → PState → POut Stmt) :
    (match x with
     | (s, .error e) => (s, .error e)
     | (s, .ok a) => f a s) = pbind x f := by
  rcases x with ⟨s, e | a⟩ <;> rfl

/-- The while-loop construction at the end of `Parser::for_` is exactly
`forRewrite` applied to the parsed slots. -/
theorem pok_forRewrite (st8 : PState) (initialiser increment : Option Stmt)
    (condition : Expr) (forBody : Stmt) :
    (match initialiser with
     | some init => pok st8 (Stmt.mk st8.currentLine (StmtType.block [init,
         Stmt.mk st8.currentLine (StmtType.while_ condition
           (Stmt.mk st8.currentLine (StmtType.block ([forBody] ++ increment.toList))))]))
     | none => pok st8 (Stmt.mk st8.currentLine (StmtType.while_ condition
         (Stmt.mk st8.currentLine (StmtType.block ([forBody] ++ increment.toList)))))) =
    pok st8 (forRewrite st8.currentLine initialiser condition forBody increment) := by
  rcases initialiser with _ | init <;> rfl

/-- A parser token on line 1 (used by the concrete C7 instances). -/
def tkC7 (t : TokenType) (lx : String) : Token := ⟨t, lx, .nullL, 1⟩

/-- The token suffix of `for (;;) {}` after the `for` keyword. -/
def toksC7A : List Token := [tkC7 .leftParen "(", tkC7 .semicolon ";",
  tkC7 .semicolon ";", tkC7 .rightParen ")", tkC7 .leftCurly "\x7b",
  tkC7 .rightCurly "\x7d", tkC7 .eof ""]

/-- The token suffix of `for (var i = 0; ; i = 7) {}` after the `for`
keyword. -/
def toksC7B : List Token := [tkC7 .leftParen "(", tkC7 .var_ "var",
  ⟨.identifier, "i", .nullL, 1⟩, tkC7 .equal "=",
  ⟨.number, "0", .numberL (.num 0), 1⟩, tkC7 .semicolon ";",
  tkC7 .semicolon ";", ⟨.identifier, "i", .nullL, 1⟩, tkC7 .equal "=",
  ⟨.number, "7", .numberL (.num 7), 1⟩, tkC7 .rightParen ")",
  tkC7 .leftCurly "\x7b", tkC7 .rightCurly "\x7d", tkC7 .eof ""]

/-- The token suffix of `for (var i = 0; 2; i = 7) {}` after the `for`
keyword: all three header slots present. -/
def toksC7C : List Token := [tkC7 .leftParen "(", tkC7 .var_ "var",
  ⟨.identifier, "i", .nullL, 1⟩, tkC7 .equal "=",
  ⟨.number, "0", .numberL (.num 0), 1⟩, tkC7 .semicolon ";",
  ⟨.number, "2", .numberL (.num 2), 1⟩, tkC7 .semicolon ";",
  ⟨.identifier, "i", .nullL, 1⟩, tkC7 .equal "=",
  ⟨.number, "7", .numberL (.num 7), 1⟩, tkC7 .rightParen ")",
  tkC7 .leftCurly "\x7b", tkC7 .rightCurly "\x7d", tkC7 .eof ""]

/-- **C7**.  `Parser::for_` is exactly the parse-time rewrite: for every fuel
and cursor state, `pFor` equals running the parser's own sub-parsers on the
three optional header slots and the body and then returning `forRewrite`
— `{ I ; while (C) { { B } ; U } }` — applied to exactly the initialiser,
condition, increment and body those sub-parsers produced, with the
condition defaulting to the literal `true` only when its slot is elided.
Concretely: `for (;;) {}` parses to the bare defaulted while loop,
`for (var i = 0; ; i = 7) {}` to the block with the parsed initialiser and
increment around the defaulted while loop, and `for (var i = 0; 2; i = 7)
{}` — all three slots present — to the rewrite of exactly the parsed
slots, with the parsed condition `2`. -/
theorem c7_for_rewrite :
    (∀ (fuel : Nat) (st : PState),
      pFor (fuel + 1) st =
        pbind (expect st .leftParen '(') (fun _ st1 =>
        pbind (pForInit fuel st1) (fun initialiser st2 =>
          match checkAndConsume st2 [TokenType.semicolon] with
          | none => perr st2 (.diag (.expectedSemicolonAfterInit st2.currentLine))
          | some (_, st3) =>
              pbind (pForCond fuel st3) (fun condition st4 =>
                match checkAndConsume st4 [TokenType.semicolon] with
                | none => perr st4 (.diag (.expectedSemicolonAfterCondition st4.currentLine))
                | some (_, st5) =>
                    pbind (pForInc fuel st5) (fun increment st6 =>
                      match checkAndConsume st6 [TokenType.rightParen] with
                      | none => perr st6 (.diag (.expectedParenAfterIncrement st6.currentLine))
                      | some (_, st7) =>
                          pbind (pBlock fuel st7) (fun forBody st8 =>
                            pok st8 (forRewrite st8.currentLine initialiser condition
                              forBody increment))))))) ∧
    (pFor 40 (PState.new toksC7A) = (⟨toksC7A, 6, 1⟩, .ok
      (forRewrite 1 none (.mk 1 (.literal (.boolL true))) (.mk 1 (.block [])) none))) ∧
    (pFor 40 (PState.new toksC7B) = (⟨toksC7B, 13, 1⟩, .ok
      (forRewrite 1
        (some (.mk 1 (.varDecl "i" (.mk 1 (.literal (.numberL (.num 0)))))))
        (.mk 1 (.literal (.boolL true)))
        (.mk 1 (.block []))
        (some (.mk 1 (.expression (.mk 1 (.assignment (.mk 1 (.variable "i"))
          (.mk 1 (.literal (.numberL (.num 7)))))))))))) ∧
    (pFor 40 (PState.new toksC7C) = (⟨toksC7C, 14, 1⟩, .ok
      (forRewrite 1
        (some (.mk 1 (.varDecl "i" (.mk 1 (.literal (.numberL (.num 0)))))))
        (.mk 1 (.literal (.numberL (.num 2))))
        (.mk 1 (.block []))
        (some (.mk 1 (.expression (.mk 1 (.assignment (.mk 1 (.variable "i"))
          (.mk 1 (.literal (.numberL (.num 7)))))))))))) := by
  refine ⟨?_, rfl, rfl, rfl⟩
  intro fuel st
  simp only [pFor, pForInit, pForCond, pForInc, pbindUnitEqv, pbindOptEqv,
    pbindExprEqv, pbindStmtEqv, pok_forRewrite]

/-- **C7** (witness): the characterisation applied at the concrete parse of
`for (var i = 0; 2; i = 7) {}`. -/
theorem c7_witness :
    pFor 40 (PState.new toksC7C) =
      pbind (expect (PState.new toksC7C) .leftParen '(') (fun _ st1 =>
      pbind (pForInit 39 st1) (fun initialiser st2 =>
        match checkAndConsume st2 [TokenType.semicolon] with
        | none => perr st2 (.diag (.expectedSemicolonAfterInit st2.currentLine))
        | some (_, st3) =>
            pbind (pForCond 39 st3) (fun condition st4 =>
              match checkAndConsume st4 [TokenType.semicolon] with
              | none => perr st4 (.diag (.expectedSemicolonAfterCondition st4.currentLine))
              | some (_, st5) =>
                  pbind (pForInc 39 st5) (fun increment st6 =>
                    match checkAndConsume st6 [TokenType.rightParen] with
                    | none => perr st6 (.diag (.expectedParenAfterIncrement st6.currentLine))
                    | some (_, st7) =>
                        pbind (pBlock 39 st7) (fun forBody st8 =>
                          pok st8 (forRewrite st8.currentLine initialiser condition
                            forBody increment)))))) :=
  c7_for_rewrite.1 39 (PState.new toksC7C)


/-! ## Claim C9 -/

/-- The order the merge sort sorts by: numeric on `Number` pairs (IEEE `<=`),
lexicographic on `String` pairs, and nothing else comparable. -/
def valueLeb : Value → Value → Bool
  | .number x, .number y => F64.ieeeLe x y
  | .string_ a, .string_ b => decide (a ≤ b)
  | _, _ => false

/-- Pairwise comparability of an array's elements under the merge order:
any two elements compare one way or the other.  (`NaN` compares with
nothing, so arrays containing `NaN` are not pairwise ordered; neither are
mixed-type arrays.) -/
def pairwiseOrdered (l : List Value) : Prop :=
  ∀ x ∈ l, ∀ y ∈ l, valueLeb x y = true ∨ valueLeb y x = true

/-- The merge loop on all-number inputs: success, permutation and
sortedness. -/
theorem mergeSortMergeF_num (fuel : Nat) :
    ∀ (l r : List Value) (line : Nat),
      l.length + r.length < fuel →
      (∀ v ∈ l, ∃ q : ℚ, v = .number (.num q)) →
      (∀ v ∈ r, ∃ q : ℚ, v = .number (.num q)) →
      List.Pairwise (fun x y => valueLeb x y = true) l →
      List.Pairwise (fun x y => valueLeb x y = true) r →
      ∃ m, mergeSortMergeF fuel l r line = .ok m ∧ (l ++ r).Perm m ∧
        List.Pairwise (fun x y => valueLeb x y = true) m := by
  induction fuel with
  | zero =>
      intro l r line hf _ _ _ _
      omega
  | succ fuel ih =>
      intro l r line hf hal har hsl hsr
      match l, r with
      | [], r => exact ⟨r, by cases r <;> rfl, by simp, hsr⟩
      | a :: ls, [] => exact ⟨a :: ls, by rfl, by simp, hsl⟩
      | a :: ls, b :: rs =>
          obtain ⟨qa, rfl⟩ := hal a (List.mem_cons_self a ls)
          obtain ⟨qb, rfl⟩ := har b (List.mem_cons_self b rs)
          by_cases hlt : F64.ieeeLt (.num qa) (.num qb) = true
          · have hqab : qa < qb := by
              simpa [F64.ieeeLt] using hlt
            obtain ⟨m, hm, hp, hs⟩ := ih ls (.number (.num qb) :: rs) line
              (by simp at hf ⊢; omega)
              (fun v hv => hal v (List.mem_cons_of_mem _ hv))
              har ((List.pairwise_cons.mp hsl).2) hsr
            refine ⟨.number (.num qa) :: m, ?_, ?_, ?_⟩
            · simp only [mergeSortMergeF, if_pos hlt, hm, Except.map]
            · exact List.Perm.cons _ hp
            · refine List.pairwise_cons.mpr ⟨?_, hs⟩
              intro x hx
              have hx' : x ∈ ls ++ .number (.num qb) :: rs := hp.mem_iff.mpr hx
              rcases List.mem_append.mp hx' with hxl | hxr
              · exact (List.pairwise_cons.mp hsl).1 x hxl
              · rcases List.mem_cons.mp hxr with rfl | hxrs
                · simp only [valueLeb, F64.ieeeLe]
                  exact decide_eq_true (le_of_lt hqab)
                · obtain ⟨qx, rfl⟩ := har x (List.mem_cons_of_mem _ hxrs)
                  have hbx := (List.pairwise_cons.mp hsr).1 _ hxrs
                  simp only [valueLeb, F64.ieeeLe] at hbx ⊢
                  have : qb ≤ qx := of_decide_eq_true hbx
                  exact decide_eq_true (le_trans (le_of_lt hqab) this)
          · have hqba : qb ≤ qa := by
              simpa [F64.ieeeLt] using hlt
            obtain ⟨m, hm, hp, hs⟩ := ih (.number (.num qa) :: ls) rs line
              (by simp at hf ⊢; omega)
              hal (fun v hv => har v (List.mem_cons_of_mem _ hv))
              hsl ((List.pairwise_cons.mp hsr).2)
            refine ⟨.number (.num qb) :: m, ?_, ?_, ?_⟩
            · simp only [mergeSortMergeF, if_neg hlt, hm, Except.map]
            · exact List.perm_middle.trans (List.Perm.cons _ hp)
            · refine List.pairwise_cons.mpr ⟨?_, hs⟩
              intro x hx
              have hx' : x ∈ .number (.num qa) :: ls ++ rs := hp.mem_iff.mpr hx
              rcases List.mem_cons.mp hx' with rfl | hx''
              · simp only [valueLeb, F64.ieeeLe]
                exact decide_eq_true hqba
              · rcases List.mem_append.mp hx'' with hxl | hxr
                · obtain ⟨qx, rfl⟩ := hal x (List.mem_cons_of_mem _ hxl)
                  have hax := (List.pairwise_cons.mp hsl).1 _ hxl
                  simp only [valueLeb, F64.ieeeLe] at hax ⊢
                  have : qa ≤ qx := of_decide_eq_true hax
                  exact decide_eq_true (le_trans hqba this)
                · exact (List.pairwise_cons.mp hsr).1 x hxr

/-- The merge loop on all-string inputs: success, permutation and
sortedness. -/
theorem mergeSortMergeF_str (fuel : Nat) :
    ∀ (l r : List Value) (line : Nat),
      l.length + r.length < fuel →
      (∀ v ∈ l, ∃ s : String, v = .string_ s) →
      (∀ v ∈ r, ∃ s : String, v = .string_ s) →
      List.Pairwise (fun x y => valueLeb x y = true) l →
      List.Pairwise (fun x y => valueLeb x y = true) r →
      ∃ m, mergeSortMergeF fuel l r line = .ok m ∧ (l ++ r).Perm m ∧
        List.Pairwise (fun x y => valueLeb x y = true) m := by
  induction fuel with
  | zero =>
      intro l r line hf _ _ _ _
      omega
  | succ fuel ih =>
      intro l r line hf hal har hsl hsr
      match l, r with
      | [], r => exact ⟨r, by cases r <;> rfl, by simp, hsr⟩
      | a :: ls, [] => exact ⟨a :: ls, by rfl, by simp, hsl⟩
      | a :: ls, b :: rs =>
          obtain ⟨sa, rfl⟩ := hal a (List.mem_cons_self a ls)
          obtain ⟨sb, rfl⟩ := har b (List.mem_cons_self b rs)
          by_cases hlt : sa < sb
          · have hqab : sa < sb := hlt
            obtain ⟨m, hm, hp, hs⟩ := ih ls (.string_ sb :: rs) line
              (by simp at hf ⊢; omega)
              (fun v hv => hal v (List.mem_cons_of_mem _ hv))
              har ((List.pairwise_cons.mp hsl).2) hsr
            refine ⟨.string_ sa :: m, ?_, ?_, ?_⟩
            · simp only [mergeSortMergeF, if_pos hlt, hm, Except.map]
            · exact List.Perm.cons _ hp
            · refine List.pairwise_cons.mpr ⟨?_, hs⟩
              intro x hx
              have hx' : x ∈ ls ++ .string_ sb :: rs := hp.mem_iff.mpr hx
              rcases List.mem_append.mp hx' with hxl | hxr
              · exact (List.pairwise_cons.mp hsl).1 x hxl
              · rcases List.mem_cons.mp hxr with rfl | hxrs
                · simp only [valueLeb]
                  exact decide_eq_true (le_of_lt hqab)
                · obtain ⟨sx, rfl⟩ := har x (List.mem_cons_of_mem _ hxrs)
                  have hbx := (List.pairwise_cons.mp hsr).1 _ hxrs
                  simp only [valueLeb] at hbx ⊢
                  have : sb ≤ sx := of_decide_eq_true hbx
                  exact decide_eq_true (le_trans (le_of_lt hqab) this)
          · have hqba : sb ≤ sa := le_of_not_lt hlt
            obtain ⟨m, hm, hp, hs⟩ := ih (.string_ sa :: ls) rs line
              (by simp at hf ⊢; omega)
              hal (fun v hv => har v (List.mem_cons_of_mem _ hv))
              hsl ((List.pairwise_cons.mp hsr).2)
            refine ⟨.string_ sb :: m, ?_, ?_, ?_⟩
            · simp only [mergeSortMergeF, if_neg hlt, hm, Except.map]
            · exact List.perm_middle.trans (List.Perm.cons _ hp)
            · refine List.pairwise_cons.mpr ⟨?_, hs⟩
              intro x hx
              have hx' : x ∈ .string_ sa :: ls ++ rs := hp.mem_iff.mpr hx
              rcases List.mem_cons.mp hx' with rfl | hx''
              · simp only [valueLeb]
                exact decide_eq_true hqba
              · rcases List.mem_append.mp hx'' with hxl | hxr
                · obtain ⟨sx, rfl⟩ := hal x (List.mem_cons_of_mem _ hxl)
                  have hax := (List.pairwise_cons.mp hsl).1 _ hxl
                  simp only [valueLeb] at hax ⊢
                  have : sa ≤ sx := of_decide_eq_true hax
                  exact decide_eq_true (le_trans hqba this)
                · exact (List.pairwise_cons.mp hsr).1 x hxr

/-- `merge_sort` on all-number inputs. -/
theorem mergeSortF_num (fuel : Nat) :
    ∀ (l : List Value) (line : Nat), l.length < fuel →
      (∀ v ∈ l, ∃ q : ℚ, v = .number (.num q)) →
      ∃ m, mergeSortF fuel l line = .ok m ∧ l.Perm m ∧
        List.Pairwise (fun x y => valueLeb x y = true) m := by
  induction fuel with
  | zero =>
      intro l line hf _
      omega
  | succ fuel ih =>
      intro l line hf hal
      by_cases hn : l.length ≤ 1
      · refine ⟨l, ?_, List.Perm.refl l, ?_⟩
        · simp only [mergeSortF, if_pos hn]
        · match l, hn with
          | [], _ => exact List.Pairwise.nil
          | [x], _ => simp
      · have h2 : 2 ≤ l.length := by omega
        have htl : (l.take (l.length / 2)).length < fuel := by
          have := List.length_take_le (l.length / 2) l
          omega
        have hdl : (l.drop (l.length / 2)).length < fuel := by
          rw [List.length_drop]
          omega
        obtain ⟨lm, hlm, hlp, hls⟩ := ih (l.take (l.length / 2)) line htl
          (fun v hv => hal v (List.take_subset _ _ hv))
        obtain ⟨rm, hrm, hrp, hrs⟩ := ih (l.drop (l.length / 2)) line hdl
          (fun v hv => hal v (List.drop_subset _ _ hv))
        obtain ⟨m, hm, hp, hs⟩ := mergeSortMergeF_num (lm.length + rm.length + 1)
          lm rm line (by omega)
          (fun v hv => hal v (List.take_subset _ _ (hlp.mem_iff.mpr hv)))
          (fun v hv => hal v (List.drop_subset _ _ (hrp.mem_iff.mpr hv)))
          hls hrs
        refine ⟨m, ?_, ?_, hs⟩
        · simp only [mergeSortF, if_neg hn]
          rw [hlm]
          show (Except.ok lm >>= fun left => mergeSortF fuel (l.drop (l.length / 2)) line >>=
            fun right => mergeSortMergeF (left.length + right.length + 1) left right line) = _
          rw [show ∀ (f : List Value → Except EvalErr (List Value)), Except.ok lm >>= f = f lm
              from fun f => rfl, hrm]
          exact hm
        · have h1 : (l.take (l.length / 2) ++ l.drop (l.length / 2)).Perm (lm ++ rm) :=
            hlp.append hrp
          rw [List.take_append_drop] at h1
          exact h1.trans hp

/-- `merge_sort` on all-string inputs. -/
theorem mergeSortF_str (fuel : Nat) :
    ∀ (l : List Value) (line : Nat), l.length < fuel →
      (∀ v ∈ l, ∃ s : String, v = .string_ s) →
      ∃ m, mergeSortF fuel l line = .ok m ∧ l.Perm m ∧
        List.Pairwise (fun x y => valueLeb x y = true) m := by
  induction fuel with
  | zero =>
      intro l line hf _
      omega
  | succ fuel ih =>
      intro l line hf hal
      by_cases hn : l.length ≤ 1
      · refine ⟨l, ?_, List.Perm.refl l, ?_⟩
        · simp only [mergeSortF, if_pos hn]
        · match l, hn with
          | [], _ => exact List.Pairwise.nil
          | [x], _ => simp
      · have h2 : 2 ≤ l.length := by omega
        have htl : (l.take (l.length / 2)).length < fuel := by
          have := List.length_take_le (l.length / 2) l
          omega
        have hdl : (l.drop (l.length / 2)).length < fuel := by
          rw [List.length_drop]
          omega
        obtain ⟨lm, hlm, hlp, hls⟩ := ih (l.take (l.length / 2)) line htl
          (fun v hv => hal v (List.take_subset _ _ hv))
        obtain ⟨rm, hrm, hrp, hrs⟩ := ih (l.drop (l.length / 2)) line hdl
          (fun v hv => hal v (List.drop_subset _ _ hv))
        obtain ⟨m, hm, hp, hs⟩ := mergeSortMergeF_str (lm.length + rm.length + 1)
          lm rm line (by omega)
          (fun v hv => hal v (List.take_subset _ _ (hlp.mem_iff.mpr hv)))
          (fun v hv => hal v (List.drop_subset _ _ (hrp.mem_iff.mpr hv)))
          hls hrs
        refine ⟨m, ?_, ?_, hs⟩
        · simp only [mergeSortF, if_neg hn]
          rw [hlm]
          show (Except.ok lm >>= fun left => mergeSortF fuel (l.drop (l.length / 2)) line >>=
            fun right => mergeSortMergeF (left.length + right.length + 1) left right line) = _
          rw [show ∀ (f : List Value → Except EvalErr (List Value)), Except.ok lm >>= f = f lm
              from fun f => rfl, hrm]
          exact hm
        · have h1 : (l.take (l.length / 2) ++ l.drop (l.length / 2)).Perm (lm ++ rm) :=
            hlp.append hrp
          rw [List.take_append_drop] at h1
          exact h1.trans hp

/-- A pairwise-ordered list is all finite numbers or all strings. -/
theorem pairwiseOrdered_types (l : List Value) (hpo : pairwiseOrdered l) :
    (∀ v ∈ l, ∃ q : ℚ, v = .number (.num q)) ∨ (∀ v ∈ l, ∃ s : String, v = .string_ s) := by
  have hself : ∀ v ∈ l, (∃ q : ℚ, v = .number (.num q)) ∨ (∃ s : String, v = .string_ s) := by
    intro v hv
    have h : valueLeb v v = true := by
      rcases hpo v hv v hv with h | h <;> exact h
    match v, h with
    | .number (.num q), _ => exact Or.inl ⟨q, rfl⟩
    | .string_ s, _ => exact Or.inr ⟨s, rfl⟩
  match l with
  | [] => exact Or.inl (by intro v hv; cases hv)
  | x :: xs =>
      rcases hself x (List.mem_cons_self x xs) with ⟨qx, rfl⟩ | ⟨sx, rfl⟩
      · refine Or.inl ?_
        intro v hv
        rcases hself v hv with h | ⟨sv, rfl⟩
        · exact h
        · rcases hpo _ (List.mem_cons_self _ xs) _ hv with h | h <;> simp [valueLeb] at h
      · refine Or.inr ?_
        intro v hv
        rcases hself v hv with ⟨qv, rfl⟩ | h
        · rcases hpo _ (List.mem_cons_self _ xs) _ hv with h | h <;> simp [valueLeb] at h
        · exact h

/-- **C9**.  For every array whose elements are pairwise comparable under
the merge order (equivalently: all finite `Number`s or all `String`s; `NaN`
is comparable with nothing), `merge_sort` succeeds and returns a permutation
of the array that is non-decreasing under that order; and the built-in
`sort` call on a variable bound to such an array returns the sorted new
array while leaving the state — hence the variable's binding, the original
array — unchanged. -/
theorem c9_sort_correct :
    (∀ (a : List Value) (line : Nat), pairwiseOrdered a →
      ∃ b, mergeSort a line = .ok b ∧ a.Perm b ∧
        List.Pairwise (fun x y => valueLeb x y = true) b) ∧
    (∀ (fuel : Nat) (s : TState) (name : String) (arr : List Value) (l lc la : Nat),
      s.env.get "sort" lc = .ok (.builtinFunction .sort) →
      s.env.get name la = .ok (.array arr) →
      pairwiseOrdered arr →
      ∃ b, evaluate (fuel + 2)
          (.mk l (.call (.mk lc (.variable "sort")) [.mk la (.variable name)])) s
          = (s, .ok (.array b)) ∧ arr.Perm b ∧
        List.Pairwise (fun x y => valueLeb x y = true) b) := by
  have hmain : ∀ (a : List Value) (line : Nat), pairwiseOrdered a →
      ∃ b, mergeSort a line = .ok b ∧ a.Perm b ∧
        List.Pairwise (fun x y => valueLeb x y = true) b := by
    intro a line hpo
    rcases pairwiseOrdered_types a hpo with h | h
    · exact mergeSortF_num (a.length + 1) a line (by omega) h
    · exact mergeSortF_str (a.length + 1) a line (by omega) h
  refine ⟨hmain, ?_⟩
  intro fuel s name arr l lc la hsort hname hpo
  obtain ⟨b, hb, hperm, hsorted⟩ := hmain arr la hpo
  refine ⟨b, ?_, hperm, hsorted⟩
  simp only [evaluate, hsort, hname, mbind, mok, merr, evaluateList]
  simp only [List.length_cons, List.length_nil]
  have h01 : ¬(0 + 1 ≠ 1) := by omega
  rw [if_neg h01, show (Expr.mk la (ExprType.variable name)).line = la from rfl, hb]

/-- **C9** (witness): sorting the concrete array `[2, 1]`. -/
theorem c9_witness :
    pairwiseOrdered [.number (.num 2), .number (.num 1)] ∧
    ∃ b, mergeSort [.number (.num 2), .number (.num 1)] 1 = .ok b ∧
      List.Perm [.number (.num 2), .number (.num 1)] b ∧
      List.Pairwise (fun x y => valueLeb x y = true) b := by
  have hpo : pairwiseOrdered [.number (.num 2), .number (.num 1)] := by
    intro x hx y hy
    rcases List.mem_cons.mp hx with rfl | hx1
    · rcases List.mem_cons.mp hy with rfl | hy1
      · exact Or.inl (by decide)
      · rcases List.mem_cons.mp hy1 with rfl | hy2
        · exact Or.inr (by decide)
        · cases hy2
    · rcases List.mem_cons.mp hx1 with rfl | hx2
      · rcases List.mem_cons.mp hy with rfl | hy1
        · exact Or.inl (by decide)
        · rcases List.mem_cons.mp hy1 with rfl | hy2
          · exact Or.inl (by decide)
          · cases hy2
      · cases hx2
  exact ⟨hpo, c9_sort_correct.1 [.number (.num 2), .number (.num 1)] 1 hpo⟩

/-! ## Claim C6 -/

/-- Structural capacity invariant: the capacity is `16 * 2^j`, at most
`MAX_CAPACITY`, and the bucket array has exactly capacity many buckets. -/
def CapOk (t : HashTable) : Prop :=
  (∃ j : Nat, t.currentCapacity = 16 * 2 ^ j) ∧
  t.currentCapacity ≤ MAX_CAPACITY ∧
  t.array.length = t.currentCapacity

/-- The load-factor invariant: entries ÷ capacity is at most 3⁄4 whenever
the capacity is below the cap. -/
def LoadOk (t : HashTable) : Prop :=
  t.currentCapacity < MAX_CAPACITY →
  t.entries * LOAD_FACTOR_DENOMINATOR ≤ t.currentCapacity * LOAD_FACTOR_NUMERATOR

/-- Hash tables reachable from `HashTable::new` by the data structure's own
operations. -/
inductive Reachable : HashTable → Prop where
  | new : Reachable HashTable.new
  | insert (t t' : HashTable) (k v : Value) (line : Nat) (out : List String) :
      Reachable t → t.insert k v line = .ok (t', out) → Reachable t'
  | remove (t t' : HashTable) (k : Value) (line : Nat) (out : List String) :
      Reachable t → t.remove k line = .ok (t', out) → Reachable t'

/-- A successful `bucketUpdate` never empties a bucket. -/
theorem bucketUpdate_ne_nil (l : List (KeyValue Value)) (k v : Value)
    (l' : List (KeyValue Value)) (h : HashTable.bucketUpdate l k v = some l') :
    l' ≠ [] := by
  induction l generalizing l' with
  | nil => cases h
  | cons kv rest ih =>
      simp only [HashTable.bucketUpdate] at h
      split at h
      · injection h with h1
        subst h1
        simp
      · rcases hr : HashTable.bucketUpdate rest k v with _ | r'
        · rw [hr] at h
          cases h
        · rw [hr] at h
          injection h with h1
          subst h1
          simp

/-- Overwriting a bucket inside range with a nonempty list keeps the
flattened table nonempty. -/
theorem flatten_set_ne_nil {α : Type} (L : List (List α)) (i : Nat) (b : List α)
    (hi : i < L.length) (hb : b ≠ []) : (L.set i b).flatten ≠ [] := by
  obtain ⟨x, hx⟩ := List.exists_mem_of_ne_nil b hb
  exact List.ne_nil_of_mem (List.mem_flatten.mpr ⟨b, List.mem_set L i hi b, hx⟩)

/-- `Except` bind on a success, as a rewrite rule. -/
theorem exceptBindOk {ε α β : Type} (a : α) (f : α → Except ε β) :
    (Except.ok a : Except ε α) >>= f = f a := rfl

/-- `Except` bind on a failure, as a rewrite rule. -/
theorem exceptBindErr {ε α β : Type} (e : ε) (f : α → Except ε β) :
    (Except.error e : Except ε α) >>= f = Except.error e := rfl

/-- Invariant preservation through the re-insertion loop of a rehash,
given preservation by the insert it re-enters. -/
theorem reinsertLoop_inv (fuel : Nat)
    (hins : ∀ (t : HashTable) (k v : Value) (line : Nat) (t' : HashTable)
      (out : List String),
      CapOk t → HashTable.insertFuel fuel t k v line = .ok (t', out) →
      CapOk t' ∧ LoadOk t') :
    ∀ (kvs : List (KeyValue Value)) (t : HashTable) (line : Nat) (t' : HashTable)
      (out : List String),
      CapOk t → HashTable.reinsertLoop (HashTable.insertFuel fuel) t kvs line = .ok (t', out) →
      (kvs = [] ∧ t' = t) ∨ (CapOk t' ∧ LoadOk t') := by
  intro kvs
  induction kvs with
  | nil =>
      intro t line t' out hcap hrun
      simp only [HashTable.reinsertLoop] at hrun
      injection hrun with h1
      injection h1 with h2
      exact Or.inl ⟨rfl, h2.symm⟩
  | cons kv rest ih =>
      intro t line t' out hcap hrun
      simp only [HashTable.reinsertLoop] at hrun
      rcases h1 : HashTable.insertFuel fuel t kv.key kv.value line with e | p1
      · rw [h1, exceptBindErr] at hrun
        cases hrun
      · rw [h1, exceptBindOk] at hrun
        obtain ⟨hc1, hl1⟩ := hins t kv.key kv.value line p1.1 p1.2 hcap h1
        rcases h2 : HashTable.reinsertLoop (HashTable.insertFuel fuel) p1.1 rest line
          with e | p2
        · rw [h2, exceptBindErr] at hrun
          cases hrun
        · rw [h2, exceptBindOk] at hrun
          rcases ih p1.1 line p2.1 p2.2 hc1 h2 with ⟨hnil, hsame⟩ | ⟨hc2, hl2⟩
          · refine Or.inr ?_
            injection hrun with h3
            injection h3 with h4
            rw [← h4, hsame]
            exact ⟨hc1, hl1⟩
          · refine Or.inr ?_
            injection hrun with h3
            injection h3 with h4
            rw [← h4]
            exact ⟨hc2, hl2⟩

/-- Invariant preservation through `insert` and `check_load`, by induction
on the rehash fuel: an insert always hands `check_load` a table holding at
least one entry, so a triggered rehash always ends in an insert whose own
`check_load` re-establishes the load bound. -/
theorem insert_checkLoad_inv (fuel : Nat) :
    (∀ (t : HashTable) (k v : Value) (line : Nat) (t' : HashTable) (out : List String),
      CapOk t → HashTable.insertFuel fuel t k v line = .ok (t', out) →
      CapOk t' ∧ LoadOk t') ∧
    (∀ (t : HashTable) (line : Nat) (t' : HashTable) (out : List String),
      CapOk t → t.flatten ≠ [] → HashTable.checkLoadFuel fuel t line = .ok (t', out) →
      CapOk t' ∧ LoadOk t') := by
  induction fuel with
  | zero =>
      constructor
      · intro t k v line t' out _ hrun
        cases hrun
      · intro t line t' out _ _ hrun
        cases hrun
  | succ fuel ih =>
      obtain ⟨ihIns, ihChk⟩ := ih
      have capPos : ∀ t : HashTable, CapOk t → 0 < t.currentCapacity := by
        intro t ⟨⟨j, hj⟩, _, _⟩
        rw [hj]
        positivity
      constructor
      · intro t k v line t1f out hcap hrun
        simp only [HashTable.insertFuel] at hrun
        rcases hgb : t.getBucketNumber k line with e | bo
        · rw [hgb] at hrun
          simp only [Except.mapError] at hrun
          rw [exceptBindErr] at hrun
          cases hrun
        · rw [hgb] at hrun
          simp only [Except.mapError] at hrun
          rw [exceptBindOk] at hrun
          have hbn : bo.1 < t.array.length := by
            have hlt : bo.1 < t.currentCapacity := by
              simp only [HashTable.getBucketNumber] at hgb
              rcases hh : hashValue k HASH_FIRST_N line with e2 | r
              · rw [hh] at hgb
                cases hgb
              · rw [hh] at hgb
                simp only [exceptBindOk] at hgb
                injection hgb with hgb1
                rw [← hgb1]
                exact Nat.mod_lt _ (capPos t hcap)
            rw [hcap.2.2]
            exact hlt
          rcases hbu : HashTable.bucketUpdate (t.array.getD bo.1 []) k v with _ | newBucket
          all_goals rw [hbu] at hrun
          all_goals dsimp only at hrun
          · -- append branch
            set t1 : HashTable :=
              { t with array := t.array.set bo.1 (t.array.getD bo.1 [] ++ [⟨k, v⟩])
                       entries := t.entries + 1 } with ht1
            have hc1 : CapOk t1 := by
              refine ⟨hcap.1, hcap.2.1, ?_⟩
              simp only [ht1, List.length_set]
              exact hcap.2.2
            have hne1 : t1.flatten ≠ [] := by
              simp only [ht1, HashTable.flatten, flattenBuckets]
              exact flatten_set_ne_nil _ _ _ hbn (by simp)
            rcases hcl : HashTable.checkLoadFuel fuel t1 line with e | p2
            · rw [hcl, exceptBindErr] at hrun
              cases hrun
            · rw [hcl, exceptBindOk] at hrun
              injection hrun with h3
              injection h3 with h4 h5
              rw [← h4]
              exact ihChk t1 line p2.1 p2.2 hc1 hne1 hcl
          · -- in-place update branch
            set t1 : HashTable := { t with array := t.array.set bo.1 newBucket } with ht1
            have hc1 : CapOk t1 := by
              refine ⟨hcap.1, hcap.2.1, ?_⟩
              simp only [ht1, List.length_set]
              exact hcap.2.2
            have hne1 : t1.flatten ≠ [] := by
              simp only [ht1, HashTable.flatten, flattenBuckets]
              exact flatten_set_ne_nil _ _ _ hbn (bucketUpdate_ne_nil _ _ _ _ hbu)
            rcases hcl : HashTable.checkLoadFuel fuel t1 line with e | p2
            · rw [hcl, exceptBindErr] at hrun
              cases hrun
            · rw [hcl, exceptBindOk] at hrun
              injection hrun with h3
              injection h3 with h4 h5
              rw [← h4]
              exact ihChk t1 line p2.1 p2.2 hc1 hne1 hcl
      · intro t line t' out hcap hne hrun
        simp only [HashTable.checkLoadFuel] at hrun
        split at hrun
        · rename_i hcond
          set fresh : HashTable :=
            { array := List.replicate (t.currentCapacity <<< 1) []
              entries := t.entries
              currentCapacity := t.currentCapacity <<< 1 } with hfresh
          have hcf : CapOk fresh := by
            obtain ⟨⟨j, hj⟩, hle, hlen⟩ := hcap
            have hshift : t.currentCapacity <<< 1 = 16 * 2 ^ (j + 1) := by
              rw [Nat.shiftLeft_eq, hj]
              ring
            refine ⟨⟨j + 1, hshift⟩, ?_, by simp [hfresh]⟩
            have hjlt : j < 12 := by
              by_contra hge
              push_neg at hge
              have : (16 : Nat) * 2 ^ 12 ≤ 16 * 2 ^ j :=
                Nat.mul_le_mul_left _ (Nat.pow_le_pow_right (by omega) hge)
              have hcm := hcond.1
              simp only [MAX_CAPACITY] at hcm
              omega
            have : (16 : Nat) * 2 ^ (j + 1) ≤ 16 * 2 ^ 12 :=
              Nat.mul_le_mul_left _ (Nat.pow_le_pow_right (by omega) (by omega))
            simp only [hfresh, MAX_CAPACITY]
            omega
          rcases reinsertLoop_inv fuel ihIns t.flatten fresh line t' out hcf hrun
            with ⟨hnil, _⟩ | ⟨hc2, hl2⟩
          · exact absurd hnil hne
          · exact ⟨hc2, hl2⟩
        · rename_i hcond
          injection hrun with h1
          injection h1 with h2
          rw [← h2]
          refine ⟨hcap, ?_⟩
          intro hlt
          rcases Decidable.not_and_iff_or_not.mp hcond with h | h
          · exact absurd hlt h
          · omega

/-- **C6**.  Every table reachable from `HashTable::new` by inserts and
removes has capacity `16 * 2^j`, between 16 and 65 536, and satisfies the
3⁄4 load-factor bound whenever the capacity is below the cap; and whenever
the load condition triggers, `check_load` rehashes by doubling the capacity
and re-inserting every flattened entry into a fresh bucket array (the
`entries` counter is carried over, not recomputed). -/
theorem c6_capacity_invariant :
    (∀ t : HashTable, Reachable t →
      (∃ j : Nat, t.currentCapacity = 16 * 2 ^ j) ∧
      16 ≤ t.currentCapacity ∧ t.currentCapacity ≤ 65536 ∧
      (t.currentCapacity < 65536 → t.entries * 4 ≤ t.currentCapacity * 3)) ∧
    (∀ (fuel : Nat) (t : HashTable) (line : Nat),
      t.currentCapacity < MAX_CAPACITY ∧
        t.entries * LOAD_FACTOR_DENOMINATOR >
          t.currentCapacity * LOAD_FACTOR_NUMERATOR →
      HashTable.checkLoadFuel (fuel + 1) t line
        = HashTable.reinsertLoop (HashTable.insertFuel fuel)
            { array := List.replicate (2 * t.currentCapacity) []
              entries := t.entries
              currentCapacity := 2 * t.currentCapacity } t.flatten line) := by
  constructor
  · have hinv : ∀ t : HashTable, Reachable t → CapOk t ∧ LoadOk t := by
      intro t hr
      induction hr with
      | new =>
          constructor
          · exact ⟨⟨0, rfl⟩, by simp [HashTable.new, INITIAL_CAPACITY, MAX_CAPACITY], by
              simp [HashTable.new, INITIAL_CAPACITY]⟩
          · intro _
            simp [HashTable.new]
      | insert t t' k v line out _ hrun ih =>
          exact (insert_checkLoad_inv HashTable.INSERT_FUEL).1 t k v line t' out ih.1 hrun
      | remove t t' k line out _ hrun ih =>
          simp only [HashTable.remove] at hrun
          rcases hgb : t.getBucketNumber k line with e | bo
          · rw [hgb] at hrun
            cases hrun
          · rw [hgb, exceptBindOk] at hrun
            split at hrun
            · injection hrun with h1
              injection h1 with h2
              obtain ⟨⟨j, hj⟩, hle, hlen⟩ := ih.1
              have hload := ih.2
              refine ⟨⟨⟨j, by rw [← h2]; exact hj⟩, by rw [← h2]; exact hle, ?_⟩, ?_⟩
              · rw [← h2]
                simp [List.length_set, hlen]
              · intro hlt
                rw [← h2] at hlt ⊢
                have := hload hlt
                simp only [LOAD_FACTOR_DENOMINATOR, LOAD_FACTOR_NUMERATOR] at this ⊢
                omega
            · cases hrun
    intro t hr
    obtain ⟨⟨⟨j, hj⟩, hle, _⟩, hload⟩ := hinv t hr
    have h16 : 16 ≤ t.currentCapacity := by
      rw [hj]
      have : 1 ≤ 2 ^ j := Nat.one_le_two_pow
      omega
    refine ⟨⟨j, hj⟩, h16, by simpa [MAX_CAPACITY] using hle, ?_⟩
    intro hlt
    have := hload (by simpa [MAX_CAPACITY] using hlt)
    simpa [LOAD_FACTOR_DENOMINATOR, LOAD_FACTOR_NUMERATOR] using this
  · intro fuel t line hcond
    simp only [HashTable.checkLoadFuel, if_pos hcond]
    have hshift : t.currentCapacity <<< 1 = 2 * t.currentCapacity := by
      rw [Nat.shiftLeft_eq]
      ring
    rw [hshift]

/-- **C6** (witness): the invariant holds at the fresh table, and the
rehash clause applied to a concrete 16-bucket table with 13 entries. -/
theorem c6_witness :
    (Reachable HashTable.new ∧
      ((∃ j : Nat, HashTable.new.currentCapacity = 16 * 2 ^ j) ∧
        16 ≤ HashTable.new.currentCapacity ∧ HashTable.new.currentCapacity ≤ 65536 ∧
        (HashTable.new.currentCapacity < 65536 →
          HashTable.new.entries * 4 ≤ HashTable.new.currentCapacity * 3))) ∧
    HashTable.checkLoadFuel 1 ⟨List.replicate 16 [], 13, 16⟩ 1
      = HashTable.reinsertLoop (HashTable.insertFuel 0)
          { array := List.replicate (2 * (16 : Nat)) []
            entries := 13
            currentCapacity := 2 * (16 : Nat) }
          (HashTable.flatten ⟨List.replicate 16 [], 13, 16⟩) 1 :=
  ⟨⟨Reachable.new, c6_capacity_invariant.1 HashTable.new Reachable.new⟩,
   c6_capacity_invariant.2 0 ⟨List.replicate 16 [], 13, 16⟩ 1
     (by constructor <;> decide)⟩


/-! ## Claim C5 -/

mutual

/-- A key of a hashable variant containing no NaN: `Number` (finite),
`String`, `Bool`, `Null`, or an `Array` of such.  On these keys `hash`
succeeds and `PartialEq` equality is reflexive; `NaN` is hashable in the
source but never equal to itself, which is what the amendment excludes. -/
def hashableKey : Value → Bool
  | .number (.num _) => true
  | .number .nan => false
  | .string_ _ => true
  | .bool_ _ => true
  | .null_ => true
  | .array es => hashableKeyList es
  | .dictionary _ _ _ => false
  | .function_ _ _ => false
  | .builtinFunction _ => false

/-- All elements hashable and NaN-free. -/
def hashableKeyList : List Value → Bool
  | [] => true
  | v :: rest => hashableKey v && hashableKeyList rest

end

/-- Sizes are positive. -/
theorem valueSize_pos (v : Value) : 1 ≤ valueSize v := by
  cases v <;> simp [valueSize]

/-- List sizes are positive. -/
theorem valueListSize_pos (l : List Value) : 1 ≤ valueListSize l := by
  cases l <;> simp [valueListSize] <;> omega

/-- On hashable NaN-free keys, `PartialEq` equality (under sufficient fuel)
is exactly structural equality, on either side. -/
theorem valueEqFuel_hashable_iff (f : Nat) :
    (∀ k, hashableKey k = true → ∀ x, valueSize x + valueSize k ≤ f →
      ((valueEqFuel f x k = true ↔ x = k) ∧ (valueEqFuel f k x = true ↔ k = x))) ∧
    (∀ ks, hashableKeyList ks = true → ∀ xs, valueListSize xs + valueListSize ks ≤ f →
      ((valueListEqFuel f xs ks = true ↔ xs = ks) ∧
        (valueListEqFuel f ks xs = true ↔ ks = xs))) := by
  induction f with
  | zero =>
      constructor
      · intro k _ x hle
        have h1 := valueSize_pos x
        have h2 := valueSize_pos k
        omega
      · intro ks _ xs hle
        have h1 := valueListSize_pos xs
        have h2 := valueListSize_pos ks
        omega
  | succ f ih =>
      obtain ⟨ihV, ihL⟩ := ih
      constructor
      · intro k hk x hle
        cases k with
        | number kf =>
            cases kf with
            | num q =>
                cases x with
                | number xf =>
                    cases xf with
                    | num q2 => simp [valueEqFuel, F64.ieeeEq]
                    | nan => simp [valueEqFuel, F64.ieeeEq]
                | string_ s => simp [valueEqFuel]
                | bool_ b => simp [valueEqFuel]
                | array es => simp [valueEqFuel]
                | dictionary bk e c => simp [valueEqFuel]
                | function_ p b => simp [valueEqFuel]
                | builtinFunction bf => simp [valueEqFuel]
                | null_ => simp [valueEqFuel]
            | nan => cases hk
        | string_ s =>
            cases x with
            | number xf => cases xf <;> simp [valueEqFuel]
            | string_ s2 => simp [valueEqFuel]
            | bool_ b => simp [valueEqFuel]
            | array es => simp [valueEqFuel]
            | dictionary bk e c => simp [valueEqFuel]
            | function_ p b => simp [valueEqFuel]
            | builtinFunction bf => simp [valueEqFuel]
            | null_ => simp [valueEqFuel]
        | bool_ b =>
            cases x with
            | number xf => cases xf <;> simp [valueEqFuel]
            | string_ s2 => simp [valueEqFuel]
            | bool_ b2 => simp [valueEqFuel]
            | array es => simp [valueEqFuel]
            | dictionary bk e c => simp [valueEqFuel]
            | function_ p b2 => simp [valueEqFuel]
            | builtinFunction bf => simp [valueEqFuel]
            | null_ => simp [valueEqFuel]
        | null_ =>
            cases x with
            | number xf => cases xf <;> simp [valueEqFuel]
            | string_ s2 => simp [valueEqFuel]
            | bool_ b2 => simp [valueEqFuel]
            | array es => simp [valueEqFuel]
            | dictionary bk e c => simp [valueEqFuel]
            | function_ p b2 => simp [valueEqFuel]
            | builtinFunction bf => simp [valueEqFuel]
            | null_ => simp [valueEqFuel]
        | array ks =>
            have hkl : hashableKeyList ks = true := hk
            cases x with
            | number xf => cases xf <;> simp [valueEqFuel]
            | string_ s2 => simp [valueEqFuel]
            | bool_ b2 => simp [valueEqFuel]
            | array xs =>
                have hsz : valueListSize xs + valueListSize ks ≤ f := by
                  simp only [valueSize] at hle
                  omega
                have hlst := ihL ks hkl xs hsz
                constructor
                · show valueListEqFuel f xs ks = true ↔ _
                  rw [hlst.1]
                  simp
                · show valueListEqFuel f ks xs = true ↔ _
                  rw [hlst.2]
                  simp
            | dictionary bk e c => simp [valueEqFuel]
            | function_ p b2 => simp [valueEqFuel]
            | builtinFunction bf => simp [valueEqFuel]
            | null_ => simp [valueEqFuel]
        | dictionary bk e c => cases hk
        | function_ p b => cases hk
        | builtinFunction bf => cases hk
      · intro ks hkl xs hle
        cases ks with
        | nil =>
            cases xs with
            | nil => simp [valueListEqFuel]
            | cons x xrest => simp [valueListEqFuel]
        | cons k0 krest =>
            have hkl2 : hashableKey k0 = true ∧ hashableKeyList krest = true := by
              have : (hashableKey k0 && hashableKeyList krest) = true := hkl
              exact Bool.and_eq_true_iff.mp this
            have hk0 : hashableKey k0 = true := hkl2.1
            have hkr : hashableKeyList krest = true := hkl2.2
            cases xs with
            | nil => simp [valueListEqFuel]
            | cons x0 xrest =>
                have hs1 : valueSize x0 + valueSize k0 ≤ f := by
                  simp only [valueListSize] at hle
                  have h1 := valueListSize_pos xrest
                  have h2 := valueListSize_pos krest
                  omega
                have hs2 : valueListSize xrest + valueListSize krest ≤ f := by
                  simp only [valueListSize] at hle
                  have h1 := valueSize_pos x0
                  have h2 := valueSize_pos k0
                  omega
                have hv := ihV k0 hk0 x0 hs1
                have hl2 := ihL krest hkr xrest hs2
                constructor
                · show (valueEqFuel f x0 k0 && valueListEqFuel f xrest krest) = true ↔ _
                  rw [Bool.and_eq_true, hv.1, hl2.1]
                  simp
                · show (valueEqFuel f k0 x0 && valueListEqFuel f krest xrest) = true ↔ _
                  rw [Bool.and_eq_true, hv.2, hl2.2]
                  simp

/-- On a hashable key `k`, `valueEq x k` decides `x = k`. -/
theorem valueEq_iff_right (k : Value) (hk : hashableKey k = true) (x : Value) :
    (valueEq x k = true ↔ x = k) :=
  ((valueEqFuel_hashable_iff (valueSize x + valueSize k)).1 k hk x le_rfl).1

/-- On a hashable key `k`, `valueEq k x` decides `k = x`. -/
theorem valueEq_iff_left (k : Value) (hk : hashableKey k = true) (x : Value) :
    (valueEq k x = true ↔ k = x) :=
  ((valueEqFuel_hashable_iff (valueSize k + valueSize x)).1 k hk x (by omega)).2

/-- `valueEq` is reflexive on hashable keys. -/
theorem valueEq_refl_hashable (k : Value) (hk : hashableKey k = true) :
    valueEq k k = true := (valueEq_iff_right k hk k).mpr rfl


/-- A successful hash result does not depend on the reported line: the line
only appears in error payloads. -/
theorem hashValueF_line_ok (f : Nat) :
    (∀ (k : Value) (n l l2 : Nat) (r : Nat × Nat),
      hashValueF f k n l = .ok r → hashValueF f k n l2 = .ok r) ∧
    (∀ (es : List Value) (hv n l l2 : Nat) (r : Nat × Nat),
      hashArrayLoopF f es hv n l = .ok r → hashArrayLoopF f es hv n l2 = .ok r) := by
  induction f with
  | zero =>
      constructor
      · intro k n l l2 r h
        cases k <;> exact h
      · intro es hv n l l2 r h
        cases es <;> cases n <;> exact h
  | succ f ih =>
      obtain ⟨ihV, ihL⟩ := ih
      constructor
      · intro k n l l2 r h
        cases k with
        | array es => exact ihL es 5381 n l l2 r h
        | bool_ b => cases b <;> exact h
        | dictionary bk e c => cases h
        | function_ p b => cases h
        | builtinFunction bf => cases h
        | null_ => exact h
        | number x => exact h
        | string_ s => exact h
      · intro es hv n l l2 r h
        match es, n with
        | [], n => exact h
        | v :: rest, 0 => exact h
        | v :: rest, el + 1 =>
            simp only [hashArrayLoopF] at h ⊢
            rcases h1 : hashValueF f v (el + 1) l with e | r1
            · rw [h1, exceptBindErr] at h
              cases h
            · rw [h1, exceptBindOk] at h
              rw [ihV v (el + 1) l l2 r1 h1, exceptBindOk]
              exact ihL rest _ _ l l2 r h

/-- Hashing a hashable NaN-free key always succeeds. -/
theorem hashValueF_hashable_ok (f : Nat) :
    (∀ k, hashableKey k = true → ∀ (n l : Nat), ∃ r, hashValueF f k n l = .ok r) ∧
    (∀ es, hashableKeyList es = true → ∀ (hv n l : Nat),
      ∃ r, hashArrayLoopF f es hv n l = .ok r) := by
  induction f with
  | zero =>
      exact ⟨fun k _ n l => ⟨(0, n), by cases k <;> rfl⟩,
        fun es _ hv n l => ⟨(hv, n), by cases es <;> cases n <;> rfl⟩⟩
  | succ f ih =>
      obtain ⟨ihV, ihL⟩ := ih
      constructor
      · intro k hk n l
        cases k with
        | number x =>
            cases x with
            | num q => exact ⟨_, rfl⟩
            | nan => cases hk
        | string_ s => exact ⟨_, rfl⟩
        | bool_ b => cases b <;> exact ⟨_, rfl⟩
        | null_ => exact ⟨_, rfl⟩
        | array es => exact ihL es hk 5381 n l
        | dictionary bk e c => cases hk
        | function_ p b => cases hk
        | builtinFunction bf => cases hk
      · intro es hes hv n l
        match es, hes, n with
        | [], _, n => exact ⟨(hv, n), rfl⟩
        | v :: rest, hes, 0 => exact ⟨(hv, 0), rfl⟩
        | v :: rest, hes, el + 1 =>
            have hps : hashableKey v = true ∧ hashableKeyList rest = true := by
              have : (hashableKey v && hashableKeyList rest) = true := hes
              exact Bool.and_eq_true_iff.mp this
            obtain ⟨r1, hr1⟩ := ihV v hps.1 (el + 1) l
            obtain ⟨r2, hr2⟩ := ihL rest hps.2
              ((((hv <<< 5) + hv) + r1.1 % MAX_CALC) % MAX_CALC) r1.2 l
            refine ⟨r2, ?_⟩
            simp only [hashArrayLoopF]
            rw [hr1, exceptBindOk]
            exact hr2

/-- `hash` of a hashable key succeeds with a line-independent result. -/
theorem hashValue_hashable_ok (k : Value) (hk : hashableKey k = true) (n : Nat) :
    ∃ r, ∀ line, hashValue k n line = .ok r := by
  obtain ⟨r, hr⟩ := (hashValueF_hashable_ok (valueSize k)).1 k hk n 0
  exact ⟨r, fun line => (hashValueF_line_ok (valueSize k)).1 k n 0 line r hr⟩

/-- A successful `hash` is line-independent. -/
theorem hashValue_line_ok (k : Value) (n l l2 : Nat) (r : Nat × Nat)
    (h : hashValue k n l = .ok r) : hashValue k n l2 = .ok r :=
  (hashValueF_line_ok (valueSize k)).1 k n l l2 r h


/-- `getD` after `set` at the same in-range index. -/
theorem getD_set_self {α : Type} (L : List α) (i : Nat) (a d : α) (hi : i < L.length) :
    (L.set i a).getD i d = a := by
  induction L generalizing i with
  | nil => cases hi
  | cons x rest ih =>
      cases i with
      | zero => rfl
      | succ j => exact ih j (by simpa using hi)

/-- `getD` after `set` at a different index. -/
theorem getD_set_ne {α : Type} (L : List α) (i j : Nat) (a d : α) (hij : i ≠ j) :
    (L.set i a).getD j d = L.getD j d := by
  induction L generalizing i j with
  | nil => rfl
  | cons x rest ih =>
      cases i with
      | zero =>
          cases j with
          | zero => exact absurd rfl hij
          | succ m => rfl
      | succ n =>
          cases j with
          | zero => rfl
          | succ m => exact ih n m (by omega)

/-- Every bucket of a replicated-empty array is empty. -/
theorem getD_replicate_nil {α : Type} (n i : Nat) :
    (List.replicate n ([] : List α)).getD i [] = [] := by
  induction n generalizing i with
  | zero => cases i <;> rfl
  | succ m ih =>
      cases i with
      | zero => rfl
      | succ j => exact ih j

/-- The abstract lookup: the value of the first pair whose key equals `k`
in `k`'s bucket (hash taken at line 0; successful hashes are
line-independent). -/
def lookupTable (t : HashTable) (k : Value) : Option Value :=
  match hashValue k HASH_FIRST_N 0 with
  | .ok r => ((t.array.getD (r.1 % t.currentCapacity) []).find?
      (fun kv => valueEq kv.key k)).map (fun kv => kv.value)
  | .error _ => none

/-- A stored pair sits in the bucket its key hashes to. -/
def hashPlaced (cap i : Nat) (kv : KeyValue Value) : Prop :=
  ∃ r : Nat × Nat, (∀ line, hashValue kv.key HASH_FIRST_N line = .ok r) ∧ r.1 % cap = i

/-- The hash-table invariant used for the C5 post-conditions: the array has
capacity many buckets, each pair sits in its key's bucket, and no bucket
holds two `PartialEq`-equal keys. -/
def TInv (t : HashTable) : Prop :=
  t.array.length = t.currentCapacity ∧ 0 < t.currentCapacity ∧
  (∀ i : Nat, ∀ kv ∈ t.array.getD i [], hashPlaced t.currentCapacity i kv) ∧
  (∀ i : Nat, List.Pairwise (fun a b : KeyValue Value => valueEq a.key b.key = false)
    (t.array.getD i []))

/-- `HashTable::get` through `lookupTable`, for hashable keys. -/
theorem get_eq_lookupTable (t : HashTable) (k : Value) (hk : hashableKey k = true)
    (line : Nat) :
    (∀ v, lookupTable t k = some v → ∃ o, t.get k line = .ok (v, o)) ∧
    (lookupTable t k = none → t.get k line = .error (.keyError k line)) := by
  obtain ⟨r, hr⟩ := hashValue_hashable_ok k hk HASH_FIRST_N
  have hgb : t.getBucketNumber k line
      = .ok (r.1 % t.currentCapacity, [toString r.1 ++ "\n"]) := by
    simp only [HashTable.getBucketNumber]
    rw [hr line, exceptBindOk]
  have hget : t.get k line = (match (t.array.getD (r.1 % t.currentCapacity) []).find?
      (fun kv => valueEq kv.key k) with
    | some kv => .ok (kv.value, [toString r.1 ++ "\n"])
    | none => .error (.keyError k line)) := by
    simp only [HashTable.get]
    rw [hgb, exceptBindOk]
  have hlook : lookupTable t k = ((t.array.getD (r.1 % t.currentCapacity) []).find?
      (fun kv => valueEq kv.key k)).map (fun kv => kv.value) := by
    simp only [lookupTable]
    rw [hr 0]
  constructor
  · intro v hv
    rw [hlook] at hv
    rcases hfind : (t.array.getD (r.1 % t.currentCapacity) []).find?
        (fun kv => valueEq kv.key k) with _ | kv
    · rw [hfind] at hv
      cases hv
    · rw [hfind] at hv
      injection hv with hv1
      refine ⟨[toString r.1 ++ "\n"], ?_⟩
      rw [hget, hfind, ← hv1]
  · intro hv
    rw [hlook] at hv
    rcases hfind : (t.array.getD (r.1 % t.currentCapacity) []).find?
        (fun kv => valueEq kv.key k) with _ | kv
    · rw [hget, hfind]
    · rw [hfind] at hv
      cases hv


/-- `bucketUpdate` misses exactly when no stored key equals the probe. -/
theorem bucketUpdate_none_iff (l : List (KeyValue Value)) (k v : Value) :
    HashTable.bucketUpdate l k v = none ↔ ∀ kv ∈ l, valueEq kv.key k = false := by
  induction l with
  | nil => simp [HashTable.bucketUpdate]
  | cons x rest ih =>
      simp only [HashTable.bucketUpdate]
      by_cases hp : valueEq x.key k = true
      · rw [if_pos hp]
        simp only [reduceCtorEq, false_iff]
        intro hall
        rw [hall x (List.mem_cons_self x rest)] at hp
        cases hp
      · rw [if_neg hp]
        constructor
        · intro hmap kv hkv
          have hrest : HashTable.bucketUpdate rest k v = none := by
            cases hbu : HashTable.bucketUpdate rest k v
            · rfl
            · rw [hbu] at hmap
              cases hmap
          rcases List.mem_cons.mp hkv with rfl | hkv2
          · exact Bool.eq_false_iff.mpr hp
          · exact ih.mp hrest kv hkv2
        · intro hall
          have hrest : HashTable.bucketUpdate rest k v = none :=
            ih.mpr (fun kv hkv => hall kv (List.mem_cons_of_mem x hkv))
          rw [hrest]
          rfl

/-- After a hit, the first matching pair of the updated bucket carries the
new value. -/
theorem bucketUpdate_find_self (l : List (KeyValue Value)) (k v : Value)
    (l' : List (KeyValue Value)) (h : HashTable.bucketUpdate l k v = some l') :
    ∃ kv1 : KeyValue Value,
      l'.find? (fun kv => valueEq kv.key k) = some kv1 ∧ kv1.value = v := by
  induction l generalizing l' with
  | nil => cases h
  | cons x rest ih =>
      simp only [HashTable.bucketUpdate] at h
      by_cases hp : valueEq x.key k = true
      · rw [if_pos hp] at h
        injection h with h1
        subst h1
        refine ⟨⟨x.key, v⟩, ?_, rfl⟩
        rw [List.find?_cons]
        simp [hp]
      · rw [if_neg hp] at h
        rcases hbu : HashTable.bucketUpdate rest k v with _ | r'
        · rw [hbu] at h
          cases h
        · rw [hbu] at h
          injection h with h1
          subst h1
          obtain ⟨kv1, hfind, hval⟩ := ih r' hbu
          refine ⟨kv1, ?_, hval⟩
          rw [List.find?_cons]
          simp only [hp]
          exact hfind

/-- An update keyed by a different (per `PartialEq`) key does not change the
lookup of a hashable key. -/
theorem bucketUpdate_find_other (l : List (KeyValue Value)) (kp v : Value)
    (l' : List (KeyValue Value)) (h : HashTable.bucketUpdate l kp v = some l')
    (k : Value) (hk : hashableKey k = true) (hne : valueEq kp k = false) :
    l'.find? (fun kv => valueEq kv.key k) = l.find? (fun kv => valueEq kv.key k) := by
  induction l generalizing l' with
  | nil => cases h
  | cons x rest ih =>
      simp only [HashTable.bucketUpdate] at h
      by_cases hp : valueEq x.key kp = true
      · rw [if_pos hp] at h
        injection h with h1
        subst h1
        have hpk : valueEq x.key k = false := by
          by_contra hcon
          have hxk : valueEq x.key k = true := by
            cases hv : valueEq x.key k
            · exact absurd hv hcon
            · rfl
          have hkeq : x.key = k := (valueEq_iff_right k hk x.key).mp hxk
          rw [hkeq] at hp
          have : k = kp := (valueEq_iff_left k hk kp).mp hp
          rw [← this] at hne
          rw [valueEq_refl_hashable k hk] at hne
          cases hne
        rw [List.find?_cons, List.find?_cons]
        simp only [hpk]
      · rw [if_neg hp] at h
        rcases hbu : HashTable.bucketUpdate rest kp v with _ | r'
        · rw [hbu] at h
          cases h
        · rw [hbu] at h
          injection h with h1
          subst h1
          rw [List.find?_cons, List.find?_cons]
          cases hxk : valueEq x.key k
          · exact ih r' hbu
          · rfl

/-- `findIdx?` results are at least the starting accumulator. -/
theorem findIdx?_ge {α : Type} (p : α → Bool) :
    ∀ (l : List α) (i m : Nat), List.findIdx? p l i = some m → i ≤ m := by
  intro l
  induction l with
  | nil =>
      intro i m h
      rw [List.findIdx?_nil] at h
      cases h
  | cons x rest ih =>
      intro i m h
      rw [List.findIdx?_cons] at h
      by_cases hp : p x = true
      · rw [if_pos hp] at h
        injection h with h1
        omega
      · rw [if_neg hp] at h
        have := ih (i + 1) m h
        omega

/-- Erasing the first match from a bucket whose matches all share one key
(and whose keys are pairwise unequal) leaves no match. -/
theorem erase_first_find_none (p : KeyValue Value → Bool)
    (hcompat : ∀ a b : KeyValue Value, p a = true → p b = true →
      valueEq a.key b.key = true) :
    ∀ (l : List (KeyValue Value)) (i j : Nat),
      List.Pairwise (fun a b : KeyValue Value => valueEq a.key b.key = false) l →
      List.findIdx? p l i = some (i + j) →
      (l.eraseIdx j).find? p = none := by
  intro l
  induction l with
  | nil =>
      intro i j _ h
      rw [List.findIdx?_nil] at h
      cases h
  | cons x rest ih =>
      intro i j hpw h
      rw [List.findIdx?_cons] at h
      by_cases hp : p x = true
      · rw [if_pos hp] at h
        injection h with h1
        have hj : j = 0 := by omega
        subst hj
        show rest.find? p = none
        rw [List.find?_eq_none]
        intro y hy hpy
        have := hcompat x y hp hpy
        rw [(List.pairwise_cons.mp hpw).1 y hy] at this
        cases this
      · rw [if_neg hp] at h
        have hge := findIdx?_ge p rest (i + 1) (i + j) h
        have hj : ∃ j2, j = j2 + 1 := ⟨j - 1, by omega⟩
        obtain ⟨j2, rfl⟩ := hj
        have h2 : List.findIdx? p rest (i + 1) = some ((i + 1) + j2) := by
          rw [h]
          congr 1
          omega
        have := ih (i + 1) j2 (List.pairwise_cons.mp hpw).2 h2
        show ((x :: rest).eraseIdx (j2 + 1)).find? p = none
        rw [List.eraseIdx_cons_succ, List.find?_cons]
        simp only [hp]
        exact this

/-- The sequential-insert overlay: the value of the last re-inserted pair
whose key equals `k`, else the base lookup. -/
def overlay (kvs : List (KeyValue Value)) (k : Value) (base : Option Value) : Option Value :=
  kvs.foldl (fun acc kv => if valueEq kv.key k = true then some kv.value else acc) base

/-- Overlay of a match-free list is the base. -/
theorem overlay_nopred (kvs : List (KeyValue Value)) (k : Value) :
    ∀ b : Option Value, (∀ kv ∈ kvs, valueEq kv.key k = false) → overlay kvs k b = b := by
  induction kvs with
  | nil =>
      intro b _
      rfl
  | cons x rest ih =>
      intro b h
      show overlay rest k (if valueEq x.key k = true then some x.value else b) = b
      rw [h x (List.mem_cons_self x rest)]
      simp only [Bool.false_eq_true, if_false]
      exact ih b (fun kv hkv => h kv (List.mem_cons_of_mem x hkv))

/-- With at most one match in the list, the overlay agrees with the first
match. -/
theorem overlay_unique (kvs : List (KeyValue Value)) (k : Value) :
    ∀ b : Option Value,
      (kvs.filter (fun kv => valueEq kv.key k)).length ≤ 1 →
      overlay kvs k b = (match kvs.find? (fun kv => valueEq kv.key k) with
        | some kv => some kv.value
        | none => b) := by
  induction kvs with
  | nil =>
      intro b _
      rfl
  | cons x rest ih =>
      intro b hle
      rw [List.filter_cons] at hle
      by_cases hp : valueEq x.key k = true
      · rw [if_pos (by simpa using hp)] at hle
        have hrest : ∀ kv ∈ rest, valueEq kv.key k = false := by
          simp only [List.length_cons] at hle
          have hfil : (rest.filter (fun kv => valueEq kv.key k)) = [] :=
            List.length_eq_zero.mp (by omega)
          intro kv hkv
          have := List.filter_eq_nil_iff.mp hfil kv hkv
          cases hv : valueEq kv.key k
          · rfl
          · exact absurd hv this
        show overlay rest k (if valueEq x.key k = true then some x.value else b) = _
        rw [if_pos hp, overlay_nopred rest k _ hrest, List.find?_cons]
        simp [hp]
      · rw [if_neg (by simpa using hp)] at hle
        show overlay rest k (if valueEq x.key k = true then some x.value else b) = _
        rw [List.find?_cons]
        simp only [hp, Bool.false_eq_true, if_false]
        exact ih b hle


/-- `getD` inside the range is `get`. -/
theorem getD_eq_get {α : Type} :
    ∀ (l : List α) (j : Nat) (hj : j < l.length) (d : α), l.getD j d = l.get ⟨j, hj⟩ := by
  intro l
  induction l with
  | nil =>
      intro j hj d
      cases hj
  | cons x rest ih =>
      intro j hj d
      cases j with
      | zero => rfl
      | succ m => exact ih m (by simpa using hj) d

/-- Searching the flattened table is searching the one bucket that can
match. -/
theorem find?_flatten_eq {α : Type} (p : α → Bool) :
    ∀ (L : List (List α)) (bn : Nat), bn < L.length →
      (∀ i : Nat, i ≠ bn → ∀ x ∈ L.getD i [], p x = false) →
      L.flatten.find? p = (L.getD bn []).find? p := by
  intro L
  induction L with
  | nil =>
      intro bn h
      cases h
  | cons B rest ih =>
      intro bn hbn hother
      cases bn with
      | zero =>
          rw [List.flatten_cons, List.find?_append]
          have hnone : rest.flatten.find? p = none := by
            rw [List.find?_eq_none]
            intro x hx hpx
            obtain ⟨b, hb, hxb⟩ := List.mem_flatten.mp hx
            obtain ⟨⟨j, hj⟩, hjb⟩ := List.mem_iff_get.mp hb
            have hxb2 : x ∈ (B :: rest).getD (j + 1) [] := by
              show x ∈ rest.getD j []
              rw [getD_eq_get rest j hj, hjb]
              exact hxb
            rw [hother (j + 1) (by omega) x hxb2] at hpx
            cases hpx
          rw [hnone, Option.or_none]
          rfl
      | succ m =>
          rw [List.flatten_cons, List.find?_append]
          have hB : B.find? p = none := by
            rw [List.find?_eq_none]
            intro x hx hpx
            rw [hother 0 (by omega) x hx] at hpx
            cases hpx
          rw [hB]
          show rest.flatten.find? p = (rest.getD m []).find? p
          exact ih m (by simpa using hbn) (fun i hi x hx => hother (i + 1) (by omega) x hx)

/-- At most one match in the flattened table when the matching bucket has at
most one. -/
theorem filter_flatten_le_one {α : Type} (p : α → Bool) :
    ∀ (L : List (List α)) (bn : Nat), bn < L.length →
      (∀ i : Nat, i ≠ bn → ∀ x ∈ L.getD i [], p x = false) →
      ((L.getD bn []).filter p).length ≤ 1 →
      (L.flatten.filter p).length ≤ 1 := by
  intro L
  induction L with
  | nil =>
      intro bn h
      cases h
  | cons B rest ih =>
      intro bn hbn hother hb1
      rw [List.flatten_cons, List.filter_append, List.length_append]
      cases bn with
      | zero =>
          have hnone : rest.flatten.filter p = [] := by
            rw [List.filter_eq_nil_iff]
            intro x hx hpx
            obtain ⟨b, hb, hxb⟩ := List.mem_flatten.mp hx
            obtain ⟨⟨j, hj⟩, hjb⟩ := List.mem_iff_get.mp hb
            have hxb2 : x ∈ (B :: rest).getD (j + 1) [] := by
              show x ∈ rest.getD j []
              rw [getD_eq_get rest j hj, hjb]
              exact hxb
            rw [hother (j + 1) (by omega) x hxb2] at hpx
            cases hpx
          rw [hnone]
          have : (B.filter p).length ≤ 1 := hb1
          simpa using this
      | succ m =>
          have hB : B.filter p = [] := by
            rw [List.filter_eq_nil_iff]
            intro x hx hpx
            rw [hother 0 (by omega) x hx] at hpx
            cases hpx
          rw [hB]
          have := ih m (by simpa using hbn)
            (fun i hi x hx => hother (i + 1) (by omega) x hx) hb1
          simpa using this

/-- The crux of the rehash argument: under the invariant, overlaying the
flattened pairs over an empty base recovers the table's own lookup. -/
theorem overlay_flatten_eq_lookup (t : HashTable) (hinv : TInv t) (k : Value)
    (hk : hashableKey k = true) :
    overlay t.flatten k none = lookupTable t k := by
  obtain ⟨r, hr⟩ := hashValue_hashable_ok k hk HASH_FIRST_N
  obtain ⟨harr, hcap, hplaced, hpair⟩ := hinv
  have hbnlt : r.1 % t.currentCapacity < t.array.length := by
    rw [harr]
    exact Nat.mod_lt _ hcap
  have hother : ∀ i : Nat, i ≠ r.1 % t.currentCapacity →
      ∀ kv ∈ t.array.getD i [], (fun kv : KeyValue Value => valueEq kv.key k) kv = false := by
    intro i hi kv hkv
    show valueEq kv.key k = false
    cases hpk : valueEq kv.key k
    · rfl
    · exfalso
      have hkey : kv.key = k := (valueEq_iff_right k hk kv.key).mp hpk
      obtain ⟨r2, hr2, hmod⟩ := hplaced i kv hkv
      rw [hkey] at hr2
      have hreq : r2 = r := by
        have h2 := hr 0
        rw [hr2 0] at h2
        exact Except.ok.inj h2
      rw [hreq] at hmod
      exact hi hmod.symm
  have hb1 : ((t.array.getD (r.1 % t.currentCapacity) []).filter
      (fun kv : KeyValue Value => valueEq kv.key k)).length ≤ 1 := by
    have hpw := (hpair (r.1 % t.currentCapacity)).filter
      (fun kv : KeyValue Value => valueEq kv.key k)
    match hfl : (t.array.getD (r.1 % t.currentCapacity) []).filter
        (fun kv : KeyValue Value => valueEq kv.key k) with
    | [] => simp
    | [x] => simp
    | x :: y :: more =>
        exfalso
        rw [hfl] at hpw
        have hrel := (List.pairwise_cons.mp hpw).1 y (List.mem_cons_self y more)
        have hx : valueEq x.key k = true := by
          have : x ∈ (t.array.getD (r.1 % t.currentCapacity) []).filter
              (fun kv : KeyValue Value => valueEq kv.key k) := by
            rw [hfl]
            exact List.mem_cons_self x (y :: more)
          exact (List.mem_filter.mp this).2
        have hy : valueEq y.key k = true := by
          have : y ∈ (t.array.getD (r.1 % t.currentCapacity) []).filter
              (fun kv : KeyValue Value => valueEq kv.key k) := by
            rw [hfl]
            exact List.mem_cons_of_mem x (List.mem_cons_self y more)
          exact (List.mem_filter.mp this).2
        have hxk : x.key = k := (valueEq_iff_right k hk x.key).mp hx
        have hyk : y.key = k := (valueEq_iff_right k hk y.key).mp hy
        rw [hxk, hyk, valueEq_refl_hashable k hk] at hrel
        cases hrel
  have hff : t.flatten.find? (fun kv : KeyValue Value => valueEq kv.key k)
      = (t.array.getD (r.1 % t.currentCapacity) []).find?
        (fun kv : KeyValue Value => valueEq kv.key k) :=
    find?_flatten_eq _ t.array (r.1 % t.currentCapacity) hbnlt hother
  have hfl1 : (t.flatten.filter (fun kv : KeyValue Value => valueEq kv.key k)).length ≤ 1 :=
    filter_flatten_le_one _ t.array (r.1 % t.currentCapacity) hbnlt hother hb1
  rw [overlay_unique t.flatten k none hfl1, hff]
  simp only [lookupTable]
  rw [hr 0]
  dsimp only
  rcases hfind : (t.array.getD (r.1 % t.currentCapacity) []).find?
      (fun kv : KeyValue Value => valueEq kv.key k) with _ | kv
  · rfl
  · rfl


/-- `bucketUpdate` preserves the key sequence. -/
theorem bucketUpdate_keys (l : List (KeyValue Value)) (kp vp : Value)
    (l' : List (KeyValue Value)) (h : HashTable.bucketUpdate l kp vp = some l') :
    l'.map (fun kv => kv.key) = l.map (fun kv => kv.key) := by
  induction l generalizing l' with
  | nil => cases h
  | cons x rest ih =>
      simp only [HashTable.bucketUpdate] at h
      by_cases hp : valueEq x.key kp = true
      · rw [if_pos hp] at h
        injection h with h1
        subst h1
        rfl
      · rw [if_neg hp] at h
        rcases hbu : HashTable.bucketUpdate rest kp vp with _ | r'
        · rw [hbu] at h
          cases h
        · rw [hbu] at h
          injection h with h1
          subst h1
          simp only [List.map_cons]
          rw [ih r' hbu]

/-- Lookup overlay and invariant preservation through the re-insertion
loop, given both for the insert operation it re-enters. -/
theorem reinsertLoop_lookup (fuel : Nat)
    (hins : ∀ (t : HashTable) (kp vp : Value) (line : Nat) (t' : HashTable)
      (out : List String), TInv t →
      HashTable.insertFuel fuel t kp vp line = .ok (t', out) →
      TInv t' ∧ ∀ k, hashableKey k = true →
        lookupTable t' k = if valueEq kp k = true then some vp else lookupTable t k) :
    ∀ (kvs : List (KeyValue Value)) (t : HashTable) (line : Nat) (t' : HashTable)
      (out : List String), TInv t →
      HashTable.reinsertLoop (HashTable.insertFuel fuel) t kvs line = .ok (t', out) →
      TInv t' ∧ ∀ k, hashableKey k = true →
        lookupTable t' k = overlay kvs k (lookupTable t k) := by
  intro kvs
  induction kvs with
  | nil =>
      intro t line t' out hinv hrun
      simp only [HashTable.reinsertLoop] at hrun
      injection hrun with h1
      injection h1 with h2
      rw [← h2]
      exact ⟨hinv, fun k _ => rfl⟩
  | cons kv rest ih =>
      intro t line t' out hinv hrun
      simp only [HashTable.reinsertLoop] at hrun
      rcases h1 : HashTable.insertFuel fuel t kv.key kv.value line with e | p1
      · rw [h1, exceptBindErr] at hrun
        cases hrun
      · rw [h1, exceptBindOk] at hrun
        obtain ⟨hinv1, hlook1⟩ := hins t kv.key kv.value line p1.1 p1.2 hinv h1
        rcases h2 : HashTable.reinsertLoop (HashTable.insertFuel fuel) p1.1 rest line
          with e | p2
        · rw [h2, exceptBindErr] at hrun
          cases hrun
        · rw [h2, exceptBindOk] at hrun
          obtain ⟨hinv2, hlook2⟩ := ih p1.1 line p2.1 p2.2 hinv1 h2
          injection hrun with h3
          injection h3 with h4 h5
          rw [← h4]
          refine ⟨hinv2, fun k hk => ?_⟩
          rw [hlook2 k hk, hlook1 k hk]
          rfl

/-- The heart of C5: `insert` preserves the invariant and overlays the
lookup of every hashable key; `check_load` preserves both. -/
theorem insertFuel_lookup (fuel : Nat) :
    (∀ (t : HashTable) (kp vp : Value) (line : Nat) (t' : HashTable) (out : List String),
      TInv t → HashTable.insertFuel fuel t kp vp line = .ok (t', out) →
      TInv t' ∧ ∀ k, hashableKey k = true →
        lookupTable t' k = if valueEq kp k = true then some vp else lookupTable t k) ∧
    (∀ (t : HashTable) (line : Nat) (t' : HashTable) (out : List String),
      TInv t → HashTable.checkLoadFuel fuel t line = .ok (t', out) →
      TInv t' ∧ ∀ k, hashableKey k = true → lookupTable t' k = lookupTable t k) := by
  induction fuel with
  | zero =>
      constructor
      · intro t kp vp line t' out _ hrun
        cases hrun
      · intro t line t' out _ hrun
        cases hrun
  | succ fuel ih =>
      obtain ⟨ihIns, ihChk⟩ := ih
      constructor
      · intro t kp vp line t' out hinv hrun
        obtain ⟨harr, hcap, hplaced, hpair⟩ := hinv
        simp only [HashTable.insertFuel] at hrun
        rcases hgb : t.getBucketNumber kp line with e | bo
        · rw [hgb] at hrun
          simp only [Except.mapError] at hrun
          rw [exceptBindErr] at hrun
          cases hrun
        · rw [hgb] at hrun
          simp only [Except.mapError] at hrun
          rw [exceptBindOk] at hrun
          have hhash : ∃ rp : Nat × Nat, (∀ l2, hashValue kp HASH_FIRST_N l2 = .ok rp) ∧
              bo.1 = rp.1 % t.currentCapacity := by
            simp only [HashTable.getBucketNumber] at hgb
            rcases hh : hashValue kp HASH_FIRST_N line with e2 | rp
            · rw [hh, exceptBindErr] at hgb
              cases hgb
            · rw [hh, exceptBindOk] at hgb
              injection hgb with hgb1
              refine ⟨rp, fun l2 => hashValue_line_ok kp _ line l2 rp hh, ?_⟩
              rw [← hgb1]
          obtain ⟨rp, hrp, hbo⟩ := hhash
          have hbn : bo.1 < t.array.length := by
            rw [harr, hbo]
            exact Nat.mod_lt _ hcap
          rcases hbu : HashTable.bucketUpdate (t.array.getD bo.1 []) kp vp with _ | newBucket
          all_goals rw [hbu] at hrun
          all_goals dsimp only at hrun
          · -- append branch
            set t1 : HashTable :=
              { t with array := t.array.set bo.1 (t.array.getD bo.1 [] ++ [⟨kp, vp⟩])
                       entries := t.entries + 1 } with ht1
            have hinv1 : TInv t1 := by
              refine ⟨by simp only [ht1, List.length_set]; exact harr, hcap, ?_, ?_⟩
              · intro i kv hkv
                by_cases hib : i = bo.1
                · subst hib
                  rw [show t1.array.getD bo.1 [] = t.array.getD bo.1 [] ++ [⟨kp, vp⟩] from
                    getD_set_self _ _ _ _ hbn] at hkv
                  rcases List.mem_append.mp hkv with hold | hnew
                  · exact hplaced bo.1 kv hold
                  · rcases List.mem_cons.mp hnew with rfl | habs
                    · exact ⟨rp, hrp, hbo.symm⟩
                    · cases habs
                · rw [show t1.array.getD i [] = t.array.getD i [] from
                    getD_set_ne _ _ _ _ _ (fun hc => hib hc.symm)] at hkv
                  exact hplaced i kv hkv
              · intro i
                by_cases hib : i = bo.1
                · subst hib
                  rw [show t1.array.getD bo.1 [] = t.array.getD bo.1 [] ++ [⟨kp, vp⟩] from
                    getD_set_self _ _ _ _ hbn]
                  rw [List.pairwise_append]
                  refine ⟨hpair bo.1, by simp, ?_⟩
                  intro a ha b hb
                  rcases List.mem_cons.mp hb with rfl | habs
                  · exact (bucketUpdate_none_iff _ kp vp).mp hbu a ha
                  · cases habs
                · rw [show t1.array.getD i [] = t.array.getD i [] from
                    getD_set_ne _ _ _ _ _ (fun hc => hib hc.symm)]
                  exact hpair i
            have hlook1 : ∀ k, hashableKey k = true →
                lookupTable t1 k = if valueEq kp k = true then some vp
                  else lookupTable t k := by
              intro k hk
              obtain ⟨rk, hrk⟩ := hashValue_hashable_ok k hk HASH_FIRST_N
              have hLt1 : lookupTable t1 k
                  = ((t1.array.getD (rk.1 % t.currentCapacity) []).find?
                    (fun kv => valueEq kv.key k)).map (fun kv => kv.value) := by
                simp only [lookupTable]
                rw [hrk 0]
              have hLt : lookupTable t k
                  = ((t.array.getD (rk.1 % t.currentCapacity) []).find?
                    (fun kv => valueEq kv.key k)).map (fun kv => kv.value) := by
                simp only [lookupTable]
                rw [hrk 0]
              by_cases hbk : rk.1 % t.currentCapacity = bo.1
              · have harr1 : t1.array.getD (rk.1 % t.currentCapacity) []
                    = t.array.getD bo.1 [] ++ [⟨kp, vp⟩] := by
                  rw [hbk]
                  exact getD_set_self _ _ _ _ hbn
                rw [hLt1, hLt, harr1, hbk, List.find?_append]
                by_cases hkk : valueEq kp k = true
                · have hkpk : kp = k := (valueEq_iff_right k hk kp).mp hkk
                  have hnone : (t.array.getD bo.1 []).find?
                      (fun kv => valueEq kv.key k) = none := by
                    rw [List.find?_eq_none]
                    intro a ha hpa
                    have hfa := (bucketUpdate_none_iff _ kp vp).mp hbu a ha
                    rw [hkpk] at hfa
                    rw [hfa] at hpa
                    cases hpa
                  rw [hnone, hkk, if_pos rfl]
                  rw [Option.none_or, List.find?_cons]
                  simp [hkk]
                · have hsing : ([⟨kp, vp⟩] : List (KeyValue Value)).find?
                      (fun kv => valueEq kv.key k) = none := by
                    rw [List.find?_cons]
                    simp [hkk]
                  rw [hsing, Option.or_none, if_neg hkk]
              · have harr1 : t1.array.getD (rk.1 % t.currentCapacity) []
                    = t.array.getD (rk.1 % t.currentCapacity) [] :=
                  getD_set_ne _ _ _ _ _ (fun hc => hbk hc.symm)
                have hne : valueEq kp k = false := by
                  cases hkk : valueEq kp k
                  · rfl
                  · exfalso
                    have hkpk : kp = k := (valueEq_iff_right k hk kp).mp hkk
                    subst hkpk
                    have h2 := hrk 0
                    rw [hrp 0] at h2
                    have hreq : rp = rk := Except.ok.inj h2
                    rw [← hreq] at hbk
                    exact hbk hbo.symm
                rw [hLt1, hLt, harr1, hne]
                simp
            rcases hcl : HashTable.checkLoadFuel fuel t1 line with e | p2
            · rw [hcl, exceptBindErr] at hrun
              cases hrun
            · rw [hcl, exceptBindOk] at hrun
              injection hrun with h3
              injection h3 with h4 h5
              rw [← h4]
              obtain ⟨hinv2, hlook2⟩ := ihChk t1 line p2.1 p2.2 hinv1 hcl
              refine ⟨hinv2, fun k hk => ?_⟩
              rw [hlook2 k hk, hlook1 k hk]
          · -- in-place update branch
            set t1 : HashTable := { t with array := t.array.set bo.1 newBucket } with ht1
            have hkeys := bucketUpdate_keys _ kp vp newBucket hbu
            have hinv1 : TInv t1 := by
              refine ⟨by simp only [ht1, List.length_set]; exact harr, hcap, ?_, ?_⟩
              · intro i kv hkv
                by_cases hib : i = bo.1
                · subst hib
                  rw [show t1.array.getD bo.1 [] = newBucket from
                    getD_set_self _ _ _ _ hbn] at hkv
                  have hkmem : kv.key ∈ (t.array.getD bo.1 []).map (fun kv => kv.key) := by
                    rw [← hkeys]
                    exact List.mem_map_of_mem _ hkv
                  obtain ⟨kv0, hkv0, hkey0⟩ := List.mem_map.mp hkmem
                  obtain ⟨r2, hr2, hmod⟩ := hplaced bo.1 kv0 hkv0
                  refine ⟨r2, ?_, hmod⟩
                  rw [← hkey0]
                  exact hr2
                · rw [show t1.array.getD i [] = t.array.getD i [] from
                    getD_set_ne _ _ _ _ _ (fun hc => hib hc.symm)] at hkv
                  exact hplaced i kv hkv
              · intro i
                by_cases hib : i = bo.1
                · subst hib
                  rw [show t1.array.getD bo.1 [] = newBucket from
                    getD_set_self _ _ _ _ hbn]
                  have hmap1 : List.Pairwise (fun a b : Value => valueEq a b = false)
                      ((t.array.getD bo.1 []).map (fun kv => kv.key)) :=
                    List.pairwise_map.mpr (hpair bo.1)
                  rw [← hkeys] at hmap1
                  exact List.pairwise_map.mp hmap1
                · rw [show t1.array.getD i [] = t.array.getD i [] from
                    getD_set_ne _ _ _ _ _ (fun hc => hib hc.symm)]
                  exact hpair i
            have hlook1 : ∀ k, hashableKey k = true →
                lookupTable t1 k = if valueEq kp k = true then some vp
                  else lookupTable t k := by
              intro k hk
              obtain ⟨rk, hrk⟩ := hashValue_hashable_ok k hk HASH_FIRST_N
              have hLt1 : lookupTable t1 k
                  = ((t1.array.getD (rk.1 % t.currentCapacity) []).find?
                    (fun kv => valueEq kv.key k)).map (fun kv => kv.value) := by
                simp only [lookupTable]
                rw [hrk 0]
              have hLt : lookupTable t k
                  = ((t.array.getD (rk.1 % t.currentCapacity) []).find?
                    (fun kv => valueEq kv.key k)).map (fun kv => kv.value) := by
                simp only [lookupTable]
                rw [hrk 0]
              by_cases hbk : rk.1 % t.currentCapacity = bo.1
              · have harr1 : t1.array.getD (rk.1 % t.currentCapacity) [] = newBucket := by
                  rw [hbk]
                  exact getD_set_self _ _ _ _ hbn
                rw [hLt1, hLt, harr1, hbk]
                by_cases hkk : valueEq kp k = true
                · have hkpk : kp = k := (valueEq_iff_right k hk kp).mp hkk
                  subst hkpk
                  obtain ⟨kv1, hfind, hval⟩ := bucketUpdate_find_self _ kp vp newBucket hbu
                  rw [hfind, hkk, if_pos rfl]
                  show some kv1.value = some vp
                  rw [hval]
                · have hne : valueEq kp k = false := by
                    cases hv : valueEq kp k
                    · rfl
                    · exact absurd hv hkk
                  rw [bucketUpdate_find_other _ kp vp newBucket hbu k hk hne, hne]
                  simp
              · have harr1 : t1.array.getD (rk.1 % t.currentCapacity) []
                    = t.array.getD (rk.1 % t.currentCapacity) [] :=
                  getD_set_ne _ _ _ _ _ (fun hc => hbk hc.symm)
                have hne : valueEq kp k = false := by
                  cases hkk : valueEq kp k
                  · rfl
                  · exfalso
                    have hkpk : kp = k := (valueEq_iff_right k hk kp).mp hkk
                    subst hkpk
                    have h2 := hrk 0
                    rw [hrp 0] at h2
                    have hreq : rp = rk := Except.ok.inj h2
                    rw [← hreq] at hbk
                    exact hbk hbo.symm
                rw [hLt1, hLt, harr1, hne]
                simp
            rcases hcl : HashTable.checkLoadFuel fuel t1 line with e | p2
            · rw [hcl, exceptBindErr] at hrun
              cases hrun
            · rw [hcl, exceptBindOk] at hrun
              injection hrun with h3
              injection h3 with h4 h5
              rw [← h4]
              obtain ⟨hinv2, hlook2⟩ := ihChk t1 line p2.1 p2.2 hinv1 hcl
              refine ⟨hinv2, fun k hk => ?_⟩
              rw [hlook2 k hk, hlook1 k hk]
      · intro t line t' out hinv hrun
        simp only [HashTable.checkLoadFuel] at hrun
        split at hrun
        · rename_i hcond
          set fresh : HashTable :=
            { array := List.replicate (t.currentCapacity <<< 1) []
              entries := t.entries
              currentCapacity := t.currentCapacity <<< 1 } with hfresh
          have hfirst : TInv fresh := by
            refine ⟨by simp [hfresh], ?_, ?_, ?_⟩
            · show 0 < t.currentCapacity <<< 1
              rw [Nat.shiftLeft_eq]
              have h0 := hinv.2.1
              have h2 : (0 : Nat) < 2 ^ 1 := by norm_num
              exact Nat.mul_pos h0 h2
            · intro i kv hkv
              rw [show fresh.array.getD i [] = [] from getD_replicate_nil _ _] at hkv
              cases hkv
            · intro i
              rw [show fresh.array.getD i [] = [] from getD_replicate_nil _ _]
              exact List.Pairwise.nil
          obtain ⟨hinv2, hlook2⟩ :=
            reinsertLoop_lookup fuel ihIns t.flatten fresh line t' out hfirst hrun
          refine ⟨hinv2, fun k hk => ?_⟩
          rw [hlook2 k hk]
          have hlf : lookupTable fresh k = none := by
            obtain ⟨rk, hrk⟩ := hashValue_hashable_ok k hk HASH_FIRST_N
            simp only [lookupTable]
            rw [hrk 0]
            dsimp only
            rw [getD_replicate_nil (t.currentCapacity <<< 1)
              (rk.1 % (t.currentCapacity <<< 1))]
            rfl
          rw [hlf]
          exact overlay_flatten_eq_lookup t hinv k hk
        · injection hrun with h1
          injection h1 with h2
          rw [← h2]
          exact ⟨hinv, fun k hk => rfl⟩


/-- Every reachable table satisfies the C5 invariant. -/
theorem reachable_TInv (t : HashTable) (hre : Reachable t) : TInv t := by
  induction hre with
  | new =>
      refine ⟨by simp [HashTable.new, INITIAL_CAPACITY],
        by simp [HashTable.new, INITIAL_CAPACITY], ?_, ?_⟩
      · intro i kv hkv
        rw [show HashTable.new.array.getD i [] = [] from getD_replicate_nil _ _] at hkv
        cases hkv
      · intro i
        rw [show HashTable.new.array.getD i [] = [] from getD_replicate_nil _ _]
        exact List.Pairwise.nil
  | insert t t2 k v line out _ hrun ih =>
      exact ((insertFuel_lookup HashTable.INSERT_FUEL).1 t k v line t2 out ih hrun).1
  | remove t t2 k line out _ hrun ih =>
      obtain ⟨harr, hcap, hplaced, hpair⟩ := ih
      simp only [HashTable.remove] at hrun
      rcases hgb : t.getBucketNumber k line with e | bo
      · rw [hgb, exceptBindErr] at hrun
        cases hrun
      · rw [hgb, exceptBindOk] at hrun
        have hbn : bo.1 < t.array.length := by
          simp only [HashTable.getBucketNumber] at hgb
          rcases hh : hashValue k HASH_FIRST_N line with e2 | rp
          · rw [hh, exceptBindErr] at hgb
            cases hgb
          · rw [hh, exceptBindOk] at hgb
            injection hgb with hgb1
            rw [harr, ← hgb1]
            exact Nat.mod_lt _ hcap
        split at hrun
        · injection hrun with h1
          injection h1 with h2 h3
          rw [← h2]
          refine ⟨by simp only [List.length_set]; exact harr, hcap, ?_, ?_⟩
          · intro j kv hkv
            by_cases hib : j = bo.1
            · subst hib
              rw [getD_set_self _ _ _ _ hbn] at hkv
              exact hplaced bo.1 kv ((List.eraseIdx_sublist _ _).subset hkv)
            · rw [getD_set_ne _ _ _ _ _ (fun hc => hib hc.symm)] at hkv
              exact hplaced j kv hkv
          · intro j
            by_cases hib : j = bo.1
            · subst hib
              rw [getD_set_self _ _ _ _ hbn]
              exact (hpair bo.1).sublist (List.eraseIdx_sublist _ _)
            · rw [getD_set_ne _ _ _ _ _ (fun hc => hib hc.symm)]
              exact hpair j
        · cases hrun

/-- **C5** (amended).  For every hash table reachable by the data
structure's own operations and every key of a hashable variant containing
no NaN: after a successful `insert(k, v)`, `get(k)` returns `v`; after a
successful `remove(k)`, `get(k)` raises `KeyError`.  (For keys containing
NaN the post-condition fails, since NaN is unequal to itself — see the
counterexample.) -/
theorem c5_insert_remove_get (t : HashTable) (k v : Value) (line : Nat)
    (hre : Reachable t) (hk : hashableKey k = true) :
    (∀ (t2 : HashTable) (out : List String),
      t.insert k v line = .ok (t2, out) → ∃ o, t2.get k line = .ok (v, o)) ∧
    (∀ (t3 : HashTable) (out : List String),
      t.remove k line = .ok (t3, out) →
      t3.get k line = .error (.keyError k line)) := by
  have hinv := reachable_TInv t hre
  constructor
  · intro t2 out hrun
    obtain ⟨hinv2, hlook⟩ :=
      (insertFuel_lookup HashTable.INSERT_FUEL).1 t k v line t2 out hinv hrun
    have hl : lookupTable t2 k = some v := by
      rw [hlook k hk, if_pos (valueEq_refl_hashable k hk)]
    exact (get_eq_lookupTable t2 k hk line).1 v hl
  · intro t3 out hrun
    obtain ⟨harr, hcap, hplaced, hpair⟩ := hinv
    simp only [HashTable.remove] at hrun
    rcases hgb : t.getBucketNumber k line with e | bo
    · rw [hgb, exceptBindErr] at hrun
      cases hrun
    · rw [hgb, exceptBindOk] at hrun
      have hhash : ∃ rp : Nat × Nat, (∀ l2, hashValue k HASH_FIRST_N l2 = .ok rp) ∧
          bo.1 = rp.1 % t.currentCapacity := by
        simp only [HashTable.getBucketNumber] at hgb
        rcases hh : hashValue k HASH_FIRST_N line with e2 | rp
        · rw [hh, exceptBindErr] at hgb
          cases hgb
        · rw [hh, exceptBindOk] at hgb
          injection hgb with hgb1
          refine ⟨rp, fun l2 => hashValue_line_ok k _ line l2 rp hh, ?_⟩
          rw [← hgb1]
      obtain ⟨rp, hrp, hbo⟩ := hhash
      have hbn : bo.1 < t.array.length := by
        rw [harr, hbo]
        exact Nat.mod_lt _ hcap
      split at hrun
      · rename_i i hfi
        injection hrun with h1
        injection h1 with h2 h3
        have herase : ((t.array.getD bo.1 []).eraseIdx i).find?
            (fun kv => valueEq kv.key k) = none := by
          refine erase_first_find_none _ ?_ (t.array.getD bo.1 []) 0 i (hpair bo.1) ?_
          · intro a b hpa hpb
            have hak : a.key = k := (valueEq_iff_right k hk a.key).mp hpa
            have hbk2 : b.key = k := (valueEq_iff_right k hk b.key).mp hpb
            rw [hak, hbk2]
            exact valueEq_refl_hashable k hk
          · rw [Nat.zero_add]
            exact hfi
        have hln : lookupTable t3 k = none := by
          simp only [lookupTable]
          rw [hrp 0]
          dsimp only
          have hcap3 : t3.currentCapacity = t.currentCapacity := by
            rw [← h2]
          have harr3 : t3.array.getD (rp.1 % t3.currentCapacity) []
              = (t.array.getD bo.1 []).eraseIdx i := by
            rw [hcap3, ← hbo, ← h2]
            exact getD_set_self _ _ _ _ hbn
          rw [harr3, herase]
          rfl
        exact (get_eq_lookupTable t3 k hk line).2 hln
      · cases hrun

/-- Decision probe for the C5 counterexample: inserting the key NaN into a
fresh table succeeds, yet an immediate `get` of NaN raises `KeyError`. -/
def c5NanProbe : Bool :=
  match HashTable.insert HashTable.new (.number .nan) .null_ 1 with
  | .ok (t, _) =>
      match t.get (.number .nan) 1 with
      | .error (.keyError (.number .nan) 1) => true
      | _ => false
  | .error _ => false

/-- **C5** (counterexample).  The key `NaN` is of a hashable variant
(`Number`), and `insert(NaN, Null)` on a fresh table succeeds — but
`get(NaN)` then raises `KeyError`, because `PartialEq` on `f64` makes NaN
unequal to itself, so the claimed post-condition `get(k) == v` fails. -/
theorem c5_nan_counterexample : c5NanProbe = true := by decide

/-- The table after inserting `"x" ↦ 1` into a fresh table. -/
def c5t1 : HashTable :=
  match HashTable.insert HashTable.new (.string_ "x") (.number (.num 1)) 1 with
  | .ok p => p.1
  | .error _ => HashTable.new

/-- The debug output of that insert. -/
def c5o1 : List String :=
  match HashTable.insert HashTable.new (.string_ "x") (.number (.num 1)) 1 with
  | .ok p => p.2
  | .error _ => []

/-- The table after then removing `"x"`. -/
def c5t2 : HashTable :=
  match c5t1.remove (.string_ "x") 1 with
  | .ok p => p.1
  | .error _ => HashTable.new

/-- The debug output of that removal. -/
def c5o2 : List String :=
  match c5t1.remove (.string_ "x") 1 with
  | .ok p => p.2
  | .error _ => []

/-- **C5** (witness): the amended theorem at the fresh table with the
string key `"x"`: insert-then-get returns the value, and
remove-then-get raises `KeyError`. -/
theorem c5_witness :
    hashableKey (.string_ "x") = true ∧
    (∃ o, c5t1.get (.string_ "x") 1 = .ok (.number (.num 1), o)) ∧
    c5t2.get (.string_ "x") 1 = .error (.keyError (.string_ "x") 1) := by
  have h1 : HashTable.insert HashTable.new (.string_ "x") (.number (.num 1)) 1
      = .ok (c5t1, c5o1) := rfl
  have h2 : c5t1.remove (.string_ "x") 1 = .ok (c5t2, c5o2) := rfl
  have hre1 : Reachable c5t1 :=
    Reachable.insert HashTable.new c5t1 (.string_ "x") (.number (.num 1)) 1 c5o1
      Reachable.new h1
  refine ⟨rfl, ?_, ?_⟩
  · exact (c5_insert_remove_get HashTable.new (.string_ "x") (.number (.num 1)) 1
      Reachable.new rfl).1 c5t1 c5o1 h1
  · exact (c5_insert_remove_get c5t1 (.string_ "x") (.number (.num 1)) 1
      hre1 rfl).2 c5t2 c5o2 h2


end Neal
